import Mathlib

/-! # rapidsnark core: FFT engine and parallel multiexp

Shallow embedding of `fft.cpp` and `multiexp.cpp`.

* Field elements of `Fr` are elements of `ZMod r` (the constructor) or of an arbitrary
  field `F` (the transforms); group points are elements of an additive commutative group.
* `Element* a` buffers are `Buffer F`; `std::vector` tables are lists, and an
  index outside a table is the fault `outOfBounds`.
* `assert` is enabled: a failed assertion is the fault `assertion`.
* The transforms are the CPU path (`USE_ICICLE_GPU` not defined).
* `uint64_t`/`uint32_t`/`int` arithmetic is arithmetic on `Nat` with the reduction written
  out where the source narrows or can wrap.
-/

namespace Rapidsnark

/-- Ways in which a call can end without a result. -/
inductive Fault
  /-- The `std::range_error` thrown by the constructor. -/
  | rangeError
  /-- A failed `assert`. -/
  | assertion
  /-- An index outside `roots` / `powTwoInv` (undefined behaviour in the source). -/
  | outOfBounds
  /-- The `throw 123` of the inverse transform. -/
  | thrown
  deriving DecidableEq, Repr

/-- A buffer reached through a pointer (`Element* a`, `accs`, `chunkResults`, `sall`):
the element at every index. -/
structure Buffer (α : Type) where
  get : Nat → α

/-- The write `a[k] = v`. -/
def Buffer.write {α : Type} (a : Buffer α) (k : Nat) (v : α) : Buffer α :=
  ⟨fun x => if x = k then v else a.get x⟩

/-- The buffer holding `v` at every index. -/
def Buffer.fill {α : Type} (v : α) : Buffer α := ⟨fun _ => v⟩

/-! ## fft.cpp -/

/-- The loop `while (n != 1) { n >>= 1; res++; }` of `FFT::log2`, with a bound on the
number of iterations. -/
def log2Loop : Nat → Nat → Nat → Nat
  | 0, _, res => res
  | fuel + 1, n, res => if n = 1 then res else log2Loop fuel (n >>> 1) (res + 1)

/-- `FFT::log2`: asserts `n != 0`, then counts the right shifts that bring `n` to 1
(at most `n` of them). -/
def log2 (n : Nat) : Except Fault Nat :=
  if n = 0 then .error .assertion else .ok (log2Loop n n 0)

/-- `BR(x, domainPow)`: the 32-bit bit reversal by masks and shifts, on `uint64_t`,
shifted right by `32 - domainPow`. -/
def BR (x domainPow : Nat) : Nat :=
  let x := ((x >>> 16) ||| (x <<< 16)) % 2 ^ 64
  let x := (((x &&& 0xFF00FF00) >>> 8) ||| ((x &&& 0x00FF00FF) <<< 8)) % 2 ^ 64
  let x := (((x &&& 0xF0F0F0F0) >>> 4) ||| ((x &&& 0x0F0F0F0F) <<< 4)) % 2 ^ 64
  let x := (((x &&& 0xCCCCCCCC) >>> 2) ||| ((x &&& 0x33333333) <<< 2)) % 2 ^ 64
  ((((x &&& 0xAAAAAAAA) >>> 1) ||| ((x &&& 0x55555555) <<< 1)) % 2 ^ 64) >>>
    ((32 + 2 ^ 64 - domainPow) % 2 ^ 64)

/-- Body of the loop of `FFT::reversePermutation` at index `i`. -/
def reversePermutationStep {F : Type} (domainPow : Nat) (a : Buffer F) (i : Nat) : Buffer F :=
  let r := BR i domainPow
  if i > r then
    let tmp := a.get i
    let a1 := a.write i (a.get r)
    a1.write r tmp
  else a

/-- `FFT::reversePermutation(a, n)`, the parallel loop over the `uint64_t` range `[0, n)`
with its indices taken in the order `order` (the loop gives no fixed order). The counter is
`int i = range.begin()`, compared with `range.end()` as `uint64_t`: a sub-range that starts
at or above `2^31` starts with a negative counter, which is not below `range.end()`, and a
counter that passes `2^31 − 1` wraps to a negative one likewise. So the body runs at the
indices below `2^31` only, which is all of `[0, n)` for `n ≤ 2^31`. -/
def reversePermutationOn {F : Type} (order : List Nat) (a : Buffer F) (n : Nat) :
    Except Fault (Buffer F) :=
  match log2 n with
  | .error e => .error e
  | .ok domainPow =>
    .ok ((order.filter (fun i => decide (i < 2 ^ 31))).foldl
      (reversePermutationStep domainPow) a)

/-- `FFT::reversePermutation(a, n)` with the indices visited in increasing order. -/
def reversePermutation {F : Type} (a : Buffer F) (n : Nat) : Except Fault (Buffer F) :=
  reversePermutationOn (List.range n) a n

/-- The engine state: `s`, `nqr` and the two tables. -/
structure FFT (F : Type) where
  s : Nat
  nqr : F
  roots : List F
  powTwoInv : List F
  deriving DecidableEq

/-- The search `while (nqr^((q-1)/2) mod q == 1) nqr++` of the constructor, from `nqr`,
with a bound on the number of iterations. -/
def findNqr (q qm1d2 : Nat) : Nat → Nat → Nat
  | 0, nqr => nqr
  | fuel + 1, nqr => if nqr ^ qm1d2 % q = 1 then findNqr q qm1d2 fuel (nqr + 1) else nqr

/-- The loop `while (!tstbit(aux, 0) && s < domainPow) { aux >>= 1; s++; }` of the
constructor; returns the final `(aux, s)`. -/
def sLoop (domainPow : Nat) : Nat → Nat → Nat → Nat × Nat
  | 0, aux, s => (aux, s)
  | fuel + 1, aux, s =>
    if aux % 2 = 0 ∧ s < domainPow then sLoop domainPow fuel (aux / 2) (s + 1) else (aux, s)

/-- `mpz_invert(a, q)`: the inverse of `a` modulo `q` in `[0, q)`; `0` when there is none. -/
def mpzInvert (a q : Nat) : Nat :=
  ((List.range q).find? (fun x => a * x % q = 1)).getD 0

/-- The loop `for (i = start + 1; i < end; i++) roots[i] = roots[i-1] * roots[1]`,
`cnt` iterations from `i`. -/
def fillSpan {F : Type} [Mul F] [Zero F] : Nat → Nat → List F → List F
  | 0, _, roots => roots
  | cnt + 1, i, roots =>
    fillSpan cnt (i + 1) (roots.set i (roots.getD (i - 1) 0 * roots.getD 1 0))

/-- Body of the span loop of the constructor for span `idSpan`. -/
def spanBody {F : Type} [Monoid F] [Zero F] (nRoots nSpan : Nat) (roots : List F)
    (idSpan : Nat) : List F :=
  let increment := nRoots / nSpan
  let start := if idSpan = 0 then 2 else idSpan * increment
  let stop := if idSpan = nSpan - 1 then nRoots else (idSpan + 1) * increment
  let roots := if stop > start then roots.set start (roots.getD 1 0 ^ start) else roots
  fillSpan (stop - (start + 1)) (start + 1) roots

/-- The loop `for (i = 2; i <= s; i++) powTwoInv[i] = powTwoInv[i-1] * powTwoInv[1]`,
`cnt` iterations from `i`. -/
def fillPowTwoInv {F : Type} [Mul F] [Zero F] : Nat → Nat → List F → List F
  | 0, _, t => t
  | cnt + 1, i, t =>
    fillPowTwoInv cnt (i + 1) (t.set i (t.getD (i - 1) 0 * t.getD 1 0))

/-- The table `roots` of the constructor: `resize(nRoots)`, `roots[0] = 1`,
`roots[1] = nqr^aux mod q` when `nRoots > 1`, then the span bodies run at the span indices
of `order` (the parallel loop runs every span of `[0, nSpan)` once, in no fixed order). -/
def rootsTableOn (order : List Nat) (r m_nqr m_aux s nSpan : Nat) : List (ZMod r) :=
  let m_q := r - 1 + 1
  let nRoots := 2 ^ s
  let roots : List (ZMod r) := (List.replicate nRoots 0).set 0 1
  let roots := if nRoots > 1 then roots.set 1 ((m_nqr ^ m_aux % m_q : Nat) : ZMod r)
    else roots
  order.foldl (spanBody nRoots nSpan) roots

/-- The table `roots` of the constructor with the spans run in increasing order. -/
def rootsTable (r m_nqr m_aux s nSpan : Nat) : List (ZMod r) :=
  rootsTableOn (List.range nSpan) r m_nqr m_aux s nSpan

/-- The table `powTwoInv` of the constructor: `resize(s + 1)`, `powTwoInv[0] = 1`,
`powTwoInv[1] = 2^{-1} mod q` when `nRoots > 1`, then the products. -/
def powTwoInvTable (r s : Nat) : List (ZMod r) :=
  let m_q := r - 1 + 1
  let nRoots := 2 ^ s
  let powTwoInv : List (ZMod r) := (List.replicate (s + 1) 0).set 0 1
  let powTwoInv :=
    if nRoots > 1 then powTwoInv.set 1 ((mpzInvert 2 m_q : Nat) : ZMod r) else powTwoInv
  fillPowTwoInv (s - 1) 2 powTwoInv

/-- `FFT::FFT(maxDomainSize, _nThreads)` over the prime field of `r` elements:
`toMpz(negOne)` is `r - 1`, so `m_q = r` and `m_qm1d2 = (r - 1) / 2`.
`nSpan` is `max_concurrency() * 10`. -/
def FFT.new (r maxDomainSize nSpan : Nat) : Except Fault (FFT (ZMod r)) :=
  match log2 maxDomainSize with
  | .error e => .error e
  | .ok domainPow =>
    let m_q := r - 1 + 1
    let m_qm1d2 := (r - 1) / 2
    let m_nqr := findNqr m_q m_qm1d2 m_q 2
    let res := sLoop domainPow domainPow m_qm1d2 1
    let m_aux := res.1
    let s := res.2
    if s < domainPow then .error .rangeError
    else
      let nRoots := 2 ^ s
      let roots := rootsTable r m_nqr m_aux s nSpan
      let aux := roots.getD (nRoots - 1) 0 * roots.getD 1 0
      if aux ≠ 1 then .error .assertion
      else
        .ok { s := s, nqr := (m_nqr : ZMod r), roots := roots,
              powTwoInv := powTwoInvTable r s }

/-- Modelled from the spec: the accessor `root(s, j)` used by the butterflies is declared in
`fft.hpp`, which is absent. By the spec, stage `s` uses the progression of a primitive
`2^s`-th root of unity taken from the table `roots[i] = ω^i` of `2^smax` roots: twiddle `j`
of stage `s` is `roots[j << (smax - s)]`. A stage above `smax` or an index outside the
table is `outOfBounds`. -/
def FFT.root {F : Type} (E : FFT F) (domainPow idx : Nat) : Except Fault F :=
  if domainPow ≤ E.s then
    match E.roots[idx <<< (E.s - domainPow)]? with
    | some w => .ok w
    | none => .error .outOfBounds
  else .error .outOfBounds

/-- The read `powTwoInv[k]`. -/
def FFT.powTwoInvAt {F : Type} (E : FFT F) (k : Nat) : Except Fault F :=
  match E.powTwoInv[k]? with
  | some w => .ok w
  | none => .error .outOfBounds

/-- The expression `1 << k` of type `int`, converted to `uint64_t`: exact for `k ≤ 30`,
`INT_MIN` sign-extended for `k = 31`, and `0` beyond the width of `int`. -/
def intShl1 (k : Nat) : Nat :=
  if k < 31 then 2 ^ k else if k = 31 then 2 ^ 64 - 2 ^ 31 else 0

/-- Body of the butterfly loop of `FFT::fft` at index `i` of stage `s`. -/
def fftButterfly {F : Type} [CommRing F] (E : FFT F) (s m mdiv2 : Nat) (a : Buffer F) (i : Nat) :
    Except Fault (Buffer F) :=
  let k := (i / mdiv2) * m
  let j := i % mdiv2
  match E.root s j with
  | .error e => .error e
  | .ok w =>
    let t := w * a.get (k + j + mdiv2)
    let u := a.get (k + j)
    let a1 := a.write (k + j) (t + u)
    .ok (a1.write (k + j + mdiv2) (u - t))

/-- One stage `s` of `FFT::fft`: the butterfly loop over `[0, n >> 1)`. -/
def fftStage {F : Type} [CommRing F] (E : FFT F) (n : Nat) (a : Buffer F) (s : Nat) :
    Except Fault (Buffer F) :=
  let m := intShl1 s
  let mdiv2 := m >>> 1
  (List.range (n >>> 1)).foldlM (fftButterfly E s m mdiv2) a

/-- `FFT::fft(a, n)`. -/
def FFT.fft {F : Type} [CommRing F] (E : FFT F) (a : Buffer F) (n : Nat) : Except Fault (Buffer F) :=
  match reversePermutation a n with
  | .error e => .error e
  | .ok a =>
    match log2 n with
    | .error e => .error e
    | .ok domainPow =>
      if 2 ^ domainPow % 2 ^ 64 ≠ n then .error .assertion
      else (List.range' 1 domainPow).foldlM (fftStage E n) a

/-- Body of the swap loop of `FFT::ifft` at index `i`. -/
def ifftSwap {F : Type} [CommRing F] (E : FFT F) (n domainPow nDiv2 : Nat) (a : Buffer F) (i : Nat) :
    Except Fault (Buffer F) :=
  if i ≥ nDiv2 then .error .thrown
  else
    let r := n - i
    let tmp := a.get i
    match E.powTwoInvAt domainPow with
    | .error e => .error e
    | .ok c =>
      let a1 := a.write i (a.get r * c)
      .ok (a1.write r (tmp * c))

/-- `FFT::ifft(a, n)`. -/
def FFT.ifft {F : Type} [CommRing F] (E : FFT F) (a : Buffer F) (n : Nat) : Except Fault (Buffer F) :=
  match E.fft a n with
  | .error e => .error e
  | .ok a =>
    match log2 n with
    | .error e => .error e
    | .ok domainPow =>
      let nDiv2 := n >>> 1
      match (List.range' 1 (nDiv2 - 1)).foldlM (ifftSwap E n domainPow nDiv2) a with
      | .error e => .error e
      | .ok a =>
        match E.powTwoInvAt domainPow with
        | .error e => .error e
        | .ok c =>
          let a1 := a.write 0 (a.get 0 * c)
          .ok (a1.write (n >>> 1) (a1.get (n >>> 1) * c))

/-! ## Notions used to state the properties -/

/-- Number of times `m` can be halved exactly, at most `fuel` times. -/
def twoAdicityAux : Nat → Nat → Nat
  | 0, _ => 0
  | fuel + 1, m => if m % 2 = 0 then twoAdicityAux fuel (m / 2) + 1 else 0

/-- The two-adicity of `m ≠ 0`: the largest `t` with `2^t` dividing `m`. -/
def twoAdicity (m : Nat) : Nat := twoAdicityAux m m

/-- Bit `k` of `x`. -/
def bitAt (x k : Nat) : Bool := x.testBit k

/-- One mask-and-shift line of `BR`. -/
def brStep (hi lo d x : Nat) : Nat := (((x &&& hi) >>> d) ||| ((x &&& lo) <<< d)) % 2 ^ 64

/-- The first line of `BR`, which has no masks. -/
def brStep0 (x : Nat) : Nat := ((x >>> 16) ||| (x <<< 16)) % 2 ^ 64

/-- The index from which a line of `BR` of distance `d` takes bit `k`. -/
def flipAt (d k : Nat) : Nat := if k / d % 2 = 0 then k + d else k - d

/-- The butterfly index `i` of a stage of half-width `h` that touches position `x`. -/
def pairIdx (h x : Nat) : Nat := (x / h / 2) * h + x % h

/-- The lower position `k + j` touched by butterfly `i` of a stage of half-width `h`. -/
def lowIdx (h i : Nat) : Nat := (i / h) * (2 * h) + i % h

/-- The value that a stage of half-width `h` with twiddles `W` leaves at position `x`. -/
def butterflyValue {F : Type} [CommRing F] (h : Nat) (W : Nat → F) (a : Buffer F) (x : Nat) : F :=
  if x / h % 2 = 0 then W (x % h) * a.get (x + h) + a.get x
  else a.get (x - h) - W (x % h) * a.get x

/-- The tables of an engine are as the data model describes them: `roots[i] = ω^i` for
`ω = roots[1]` of order exactly `2^s`, and `powTwoInv[k]` is the inverse of `2^k`. -/
structure FFT.TablesOk {F : Type} [CommRing F] (E : FFT F) : Prop where
  s_pos : 1 ≤ E.s
  roots_pow : ∀ i, i < 2 ^ E.s → E.roots[i]? = some (E.roots.getD 1 0 ^ i)
  root_prim : E.roots.getD 1 0 ^ 2 ^ (E.s - 1) = -1
  inv_pow : ∀ k, k ≤ E.s → ∃ c, E.powTwoInv[k]? = some c ∧ c * 2 ^ k = 1

/-- The naive transform: `Σ_{j < n} v[j] · w^(i·j)`. -/
def naiveDFT {F : Type} [CommRing F] (w : F) (v : Buffer F) (n i : Nat) : F :=
  ∑ j ∈ Finset.range n, v.get j * w ^ (i * j)

/-! ## multiexp.cpp -/

/-- Modelled from the spec: `PME2_PACK_FACTOR` of `multiexp.hpp` (absent), default 2. -/
def PME2_PACK_FACTOR : Nat := 2

/-- Modelled from the spec: `PME2_MAX_CHUNK_SIZE_BITS` of `multiexp.hpp` (absent),
default 16. -/
def PME2_MAX_CHUNK_SIZE_BITS : Nat := 16

/-- Modelled from the spec: `PME2_MIN_CHUNK_SIZE_BITS` of `multiexp.hpp` (absent),
default 2. -/
def PME2_MIN_CHUNK_SIZE_BITS : Nat := 2

/-- Modelled from the spec: `aptos::log2` of `misc.hpp` (absent), the floor of the binary
logarithm of a `uint32_t`. -/
def aptosLog2 (x : Nat) : Nat := Nat.log2 x

/-- Little-endian value of the `k` bytes at `addr`. -/
def loadLE (mem : Nat → Fin 256) (addr : Nat) : Nat → Nat
  | 0 => 0
  | k + 1 => (mem addr).val + 256 * loadLE mem (addr + 1) k

/-- The integer held by scalar `i`: its `scalarSize` bytes, little-endian. -/
def scalarValue (scalars : Nat → Fin 256) (scalarSize i : Nat) : Nat :=
  loadLE scalars (i * scalarSize) scalarSize

/-- The fields of `ParallelMultiexp` that stay fixed during the chunk loop. -/
structure ParallelMultiexp (G : Type) where
  bases : Nat → G
  scalars : Nat → Fin 256
  scalarSize : Nat
  n : Nat
  nThreads : Nat
  bitsPerChunk : Nat
  accsPerChunk : Nat
  nChunks : Nat

/-- The worker index returned by `current_thread_index()` in each parallel region:
`scatter c i` for index `i` of `processChunk(c)`, and `fold c nBits i` for index `i` of
the loop of `reduce(_, nBits)` during chunk `c`. -/
structure Schedule (nThreads : Nat) where
  scatter : Nat → Nat → Fin nThreads
  fold : Nat → Nat → Nat → Fin nThreads

/-- `ParallelMultiexp::getChunk(scalarIdx, chunkIdx)`. -/
def ParallelMultiexp.getChunk {G : Type} (pm : ParallelMultiexp G) (scalarIdx chunkIdx : Nat) :
    Nat :=
  let bitStart := chunkIdx * pm.bitsPerChunk
  let byteStart := bitStart / 8
  let efectiveBitsPerChunk := pm.bitsPerChunk
  -- `scalarSize - 8` on uint64_t
  let limit := if pm.scalarSize < 8 then pm.scalarSize + 2 ^ 64 - 8 else pm.scalarSize - 8
  let byteStart := if byteStart > limit then limit else byteStart
  let efectiveBitsPerChunk :=
    if bitStart + pm.bitsPerChunk > pm.scalarSize * 8 then pm.scalarSize * 8 - bitStart
    else efectiveBitsPerChunk
  let shift := bitStart - byteStart * 8
  let v := loadLE pm.scalars (scalarIdx * pm.scalarSize + byteStart) 8
  let v := v >>> shift
  v &&& ((intShl1 efectiveBitsPerChunk + 2 ^ 64 - 1) % 2 ^ 64)

/-- Common tail of both `processChunk` bodies: add `bases[i]` to the bucket of its chunk
value in the stripe of the current worker. -/
def ParallelMultiexp.scatterInto {G : Type} [AddCommGroup G] (pm : ParallelMultiexp G)
    (idChunk idThread : Nat) (accs : Buffer G) (i : Nat) : Buffer G :=
  let chunkValue := pm.getChunk i idChunk
  if chunkValue ≠ 0 then
    accs.write (idThread * pm.accsPerChunk + chunkValue)
      (accs.get (idThread * pm.accsPerChunk + chunkValue) + pm.bases i)
  else accs

/-- Body of the loop of `processChunk(idChunk)` at index `i`. -/
def ParallelMultiexp.processChunkStep {G : Type} [AddCommGroup G] [DecidableEq G]
    (pm : ParallelMultiexp G) (idChunk : Nat) (tid : Nat → Fin pm.nThreads)
    (accs : Buffer G) (i : Nat) : Buffer G :=
  if pm.bases i = 0 then accs
  else pm.scatterInto idChunk (tid i).val accs i

/-- `ParallelMultiexp::processChunk(idChunk)`: the range is a
`blocked_range<uint32_t>(0, n)`. -/
def ParallelMultiexp.processChunk {G : Type} [AddCommGroup G] [DecidableEq G]
    (pm : ParallelMultiexp G) (idChunk : Nat) (tid : Nat → Fin pm.nThreads)
    (accs : Buffer G) : Buffer G :=
  (List.range (pm.n % 2 ^ 32)).foldl (pm.processChunkStep idChunk tid) accs

/-- Body of the loop of `processChunk(idChunk, nX, size)` at index `i`. -/
def ParallelMultiexp.processChunkMaskedStep {G : Type} [AddCommGroup G] [DecidableEq G]
    (pm : ParallelMultiexp G) (idChunk nX : Nat) (size : Nat → Nat)
    (tid : Nat → Fin pm.nThreads) (accs : Buffer G) (i : Nat) : Buffer G :=
  let mod := i % nX
  -- `size[mod] - 1` and `len * nX + mod` on uint64_t
  let len := (size mod + 2 ^ 64 - 1) % 2 ^ 64
  if i > (len * nX + mod) % 2 ^ 64 then accs
  else if pm.bases i = 0 then accs
  else pm.scatterInto idChunk (tid i).val accs i

/-- `ParallelMultiexp::processChunk(idChunk, nX, size)`: the range is a
`blocked_range<uint64_t>(0, n)`. -/
def ParallelMultiexp.processChunkMasked {G : Type} [AddCommGroup G] [DecidableEq G]
    (pm : ParallelMultiexp G) (idChunk nX : Nat) (size : Nat → Nat)
    (tid : Nat → Fin pm.nThreads) (accs : Buffer G) : Buffer G :=
  (List.range pm.n).foldl (pm.processChunkMaskedStep idChunk nX size tid) accs

/-- Body of the inner loop of `packThreads` for bucket `i` and stripe `j`. -/
def ParallelMultiexp.packStep {G : Type} [AddCommGroup G] [DecidableEq G]
    (pm : ParallelMultiexp G) (i : Nat) (accs : Buffer G) (j : Nat) : Buffer G :=
  if accs.get (j * pm.accsPerChunk + i) ≠ 0 then
    let a1 := accs.write i (accs.get i + accs.get (j * pm.accsPerChunk + i))
    a1.write (j * pm.accsPerChunk + i) 0
  else accs

/-- `ParallelMultiexp::packThreads()`. -/
def ParallelMultiexp.packThreads {G : Type} [AddCommGroup G] [DecidableEq G]
    (pm : ParallelMultiexp G) (accs : Buffer G) : Buffer G :=
  (List.range pm.accsPerChunk).foldl
    (fun accs i => (List.range' 1 (pm.nThreads - 1)).foldl (pm.packStep i) accs) accs

/-- Body of the folding loop of `reduce` at index `i`; the state is `(accs, sall)`. -/
def reduceStep {G : Type} [AddCommGroup G] [DecidableEq G] {nThreads : Nat} (ndiv2 : Nat)
    (tid : Nat → Fin nThreads) (st : Buffer G × Buffer G) (i : Nat) :
    Buffer G × Buffer G :=
  let accs := st.1
  let sall := st.2
  let idThread := (tid i).val
  if accs.get (ndiv2 + i) ≠ 0 then
    let a1 := accs.write i (accs.get i + accs.get (ndiv2 + i))
    let s1 := sall.write idThread (sall.get idThread + a1.get (ndiv2 + i))
    (a1.write (ndiv2 + i) 0, s1)
  else (accs, sall)

/-- `ParallelMultiexp::reduce(res, nBits)`; returns `(res, accs)`. `tid nBits` is the worker
assignment of the folding loop at recursion level `nBits`. The source is never called with
`nBits = 0` (there `1 << (nBits - 1)` is undefined); the model returns zero. -/
def reduce {G : Type} [AddCommGroup G] [DecidableEq G] (nThreads : Nat)
    (tid : Nat → Nat → Fin nThreads) : Nat → Buffer G → G × Buffer G
  | 0, accs => (0, accs)
  | 1, accs => (accs.get 1, accs.write 1 0)
  | nBits + 2, accs =>
    let ndiv2 := intShl1 (nBits + 1)
    let st := (List.range ndiv2).foldl (reduceStep ndiv2 (tid (nBits + 2))) (accs, Buffer.fill 0)
    let sall := st.2
    let accs := (List.range nThreads).foldl
      (fun accs i => accs.write ndiv2 (accs.get ndiv2 + sall.get i)) st.1
    let (p1, accs) := reduce nThreads tid (nBits + 1) accs
    let accs := (List.range (nBits + 1)).foldl
      (fun accs _ => accs.write ndiv2 (accs.get ndiv2 + accs.get ndiv2)) accs
    (p1 + accs.get ndiv2, accs.write ndiv2 0)

/-- The parameter selection of both `multiexp` overloads, for `n ≥ 2`. -/
def ParallelMultiexp.setup {G : Type} (bases : Nat → G) (scalars : Nat → Fin 256)
    (scalarSize n nThreads : Nat) : ParallelMultiexp G :=
  let bitsPerChunk := aptosLog2 ((n / PME2_PACK_FACTOR) % 2 ^ 32)
  let bitsPerChunk :=
    if bitsPerChunk > PME2_MAX_CHUNK_SIZE_BITS then PME2_MAX_CHUNK_SIZE_BITS else bitsPerChunk
  let bitsPerChunk :=
    if bitsPerChunk < PME2_MIN_CHUNK_SIZE_BITS then PME2_MIN_CHUNK_SIZE_BITS else bitsPerChunk
  { bases := bases, scalars := scalars, scalarSize := scalarSize, n := n,
    nThreads := nThreads, bitsPerChunk := bitsPerChunk,
    nChunks := ((scalarSize * 8 - 1) / bitsPerChunk) + 1,
    accsPerChunk := intShl1 bitsPerChunk }

/-- The final combination of both `multiexp` overloads: Horner over the chunk results
from the most significant chunk down. -/
def ParallelMultiexp.combine {G : Type} [AddCommGroup G] (pm : ParallelMultiexp G)
    (chunkResults : Buffer G) : G :=
  (List.range (pm.nChunks - 1)).reverse.foldl
    (fun r j =>
      (List.range pm.bitsPerChunk).foldl (fun r _ => r + r) r + chunkResults.get j)
    (chunkResults.get (pm.nChunks - 1))

/-- The chunk loop of `multiexp`: `processChunk`, `packThreads`, `reduce` for each chunk;
the state is `(accs, chunkResults)`. -/
def ParallelMultiexp.chunkLoop {G : Type} [AddCommGroup G] [DecidableEq G]
    (pm : ParallelMultiexp G) (sch : Schedule pm.nThreads)
    (st : Buffer G × Buffer G) (i : Nat) : Buffer G × Buffer G :=
  let accs := pm.processChunk i (sch.scatter i) st.1
  let accs := pm.packThreads accs
  let (res, accs) := reduce pm.nThreads (sch.fold i) pm.bitsPerChunk accs
  (accs, st.2.write i res)

/-- The chunk loop of the masked `multiexp`. -/
def ParallelMultiexp.chunkLoopMasked {G : Type} [AddCommGroup G] [DecidableEq G]
    (pm : ParallelMultiexp G) (sch : Schedule pm.nThreads) (nx : Nat) (x : Nat → Nat)
    (st : Buffer G × Buffer G) (i : Nat) : Buffer G × Buffer G :=
  let accs := pm.processChunkMasked i nx x (sch.scatter i) st.1
  let accs := pm.packThreads accs
  let (res, accs) := reduce pm.nThreads (sch.fold i) pm.bitsPerChunk accs
  (accs, st.2.write i res)

/-- `ParallelMultiexp::multiexp(r, bases, scalars, scalarSize, n)` on the CPU path, with
`nThreads = max_concurrency()`; `mulByScalar` is the scalar multiple in the group and
`initAccs` sets every bucket to zero. -/
def multiexp {G : Type} [AddCommGroup G] [DecidableEq G] (nThreads : Nat)
    (sch : Schedule nThreads) (bases : Nat → G) (scalars : Nat → Fin 256)
    (scalarSize n : Nat) : G :=
  if n = 0 then 0
  else if n = 1 then loadLE scalars 0 scalarSize • bases 0
  else
    let pm := ParallelMultiexp.setup bases scalars scalarSize n nThreads
    let st := (List.range pm.nChunks).foldl (pm.chunkLoop sch) (Buffer.fill 0, Buffer.fill 0)
    pm.combine st.2

/-- `ParallelMultiexp::multiexp(r, bases, scalars, scalarSize, n, nx, x)` on the CPU
path. -/
def multiexpMasked {G : Type} [AddCommGroup G] [DecidableEq G] (nThreads : Nat)
    (sch : Schedule nThreads) (bases : Nat → G) (scalars : Nat → Fin 256)
    (scalarSize n nx : Nat) (x : Nat → Nat) : G :=
  if n = 0 then 0
  else if n = 1 then loadLE scalars 0 scalarSize • bases 0
  else
    let pm := ParallelMultiexp.setup bases scalars scalarSize n nThreads
    let st := (List.range pm.nChunks).foldl (pm.chunkLoopMasked sch nx x)
      (Buffer.fill 0, Buffer.fill 0)
    pm.combine st.2

/-- The naive sum `Σ_{i < n} s_i · B_i`. -/
def naiveSum {G : Type} [AddCommGroup G] (bases : Nat → G) (scalars : Nat → Fin 256)
    (scalarSize n : Nat) : G :=
  ∑ i ∈ Finset.range n, scalarValue scalars scalarSize i • bases i

/-- A scalar array in which every `W`-byte scalar has the value `v` (`v < 256`): the low
byte of each scalar is `v`, the other bytes are zero. -/
def constScalars (W v : Nat) : Nat → Fin 256 :=
  fun addr => if addr % W = 0 then Fin.ofNat v else 0

/-- The schedule of a single worker. -/
def oneWorker : Schedule 1 := ⟨fun _ _ => 0, fun _ _ _ => 0⟩

/-- The procedure `reduce(res, nBits)` as the specification words it, with
`ndiv2 = 2^(nBits − 1)`: if `nBits = 1`, `res = accs[1]`, zero it, return; for `i ∈ [1, ndiv2)`,
if `accs[ndiv2 + i]` is nonzero, add it into `accs[i]` and into the side sum `sall[t]` of the
worker, and zero `accs[ndiv2 + i]`; serially `accs[ndiv2] += Σ_t sall[t]`; recurse for
`p1 = reduce(nBits − 1)`; double `accs[ndiv2]` `nBits − 1` times; `res = p1 + accs[ndiv2]`,
zero `accs[ndiv2]`. Returns `(res, accs)`; `nBits = 0` is outside the procedure. -/
def reduceSpecified {G : Type} [AddCommGroup G] [DecidableEq G] (nThreads : Nat)
    (tid : Nat → Nat → Fin nThreads) : Nat → Buffer G → G × Buffer G
  | 0, accs => (0, accs)
  | 1, accs => (accs.get 1, accs.write 1 0)
  | nBits + 2, accs =>
    let ndiv2 := 2 ^ (nBits + 1)
    let st := (List.range' 1 (ndiv2 - 1)).foldl (reduceStep ndiv2 (tid (nBits + 2)))
      (accs, Buffer.fill 0)
    let sall := st.2
    let accs := st.1.write ndiv2 (st.1.get ndiv2 + ∑ t ∈ Finset.range nThreads, sall.get t)
    let (p1, accs) := reduceSpecified nThreads tid (nBits + 1) accs
    let accs := (List.range (nBits + 1)).foldl
      (fun accs _ => accs.write ndiv2 (accs.get ndiv2 + accs.get ndiv2)) accs
    (p1 + accs.get ndiv2, accs.write ndiv2 0)

/-- The integer whose `p`-bit binary representation is that of `i` reversed: the lowest bit
of `i` becomes bit `p − 1`, and so on. -/
def revBits : Nat → Nat → Nat
  | 0, _ => 0
  | p + 1, i => 2 ^ p * (i % 2) + revBits p (i / 2)

/-- The local `byteStart` of `getChunk(scalarIdx, chunkIdx)` at the load: `bitStart / 8`
clamped to `scalarSize - 8` (a `uint64_t` difference). -/
def ParallelMultiexp.byteStart {G : Type} (pm : ParallelMultiexp G) (chunkIdx : Nat) : Nat :=
  let bitStart := chunkIdx * pm.bitsPerChunk
  let byteStart := bitStart / 8
  let limit := if pm.scalarSize < 8 then pm.scalarSize + 2 ^ 64 - 8 else pm.scalarSize - 8
  if byteStart > limit then limit else byteStart

/-- The local `efectiveBitsPerChunk` of `getChunk(scalarIdx, chunkIdx)` at the mask. -/
def ParallelMultiexp.efectiveBitsPerChunk {G : Type} (pm : ParallelMultiexp G)
    (chunkIdx : Nat) : Nat :=
  let bitStart := chunkIdx * pm.bitsPerChunk
  if bitStart + pm.bitsPerChunk > pm.scalarSize * 8 then pm.scalarSize * 8 - bitStart
  else pm.bitsPerChunk

/-- The local `shift` of `getChunk(scalarIdx, chunkIdx)`: `bitStart - byteStart * 8`. -/
def ParallelMultiexp.shift {G : Type} (pm : ParallelMultiexp G) (chunkIdx : Nat) : Nat :=
  chunkIdx * pm.bitsPerChunk - pm.byteStart chunkIdx * 8

/-! ## icicle_adapter.cpp and the GPU dispatch -/

/-- The conversion `static_cast<int>(n)` of a `uint64_t`. -/
def castInt (n : Nat) : Int :=
  if n % 2 ^ 32 < 2 ^ 31 then ((n % 2 ^ 32 : Nat) : Int) else ((n % 2 ^ 32 : Nat) : Int) - 2 ^ 32

/-- `aptos::icicle::msm_g1` and `msm_g2`, which differ in the point type only; `none` is the
return value `false`. `backend bases scalars count` stands for `initialize()` followed by
the call of the external library's `msm` on the copied buffers with `count` terms: `none`
when the initialisation or the kernel fails. `sizeof(AltBn128::FrElement)` is 32
(`LIMB_COUNT = 4` limbs of 64 bits). -/
def msm_g1 {G : Type} [AddCommGroup G]
    (backend : (Nat → G) → (Nat → Fin 256) → Int → Option G) (bases : Nat → G)
    (scalars : Nat → Fin 256) (scalar_size n : Nat) : Option G :=
  if n = 0 then some 0
  else if scalar_size ≠ 32 then none
  else backend bases scalars (castInt n)

/-- `ParallelMultiexp::multiexp(r, bases, scalars, scalarSize, n, nx, x)` with
`USE_ICICLE_GPU` defined: the shim is tried first, the CPU path runs when it returns
`false`. -/
def multiexpMaskedGpu {G : Type} [AddCommGroup G] [DecidableEq G]
    (backend : (Nat → G) → (Nat → Fin 256) → Int → Option G) (nThreads : Nat)
    (sch : Schedule nThreads) (bases : Nat → G) (scalars : Nat → Fin 256)
    (scalarSize n nx : Nat) (x : Nat → Nat) : G :=
  match msm_g1 backend bases scalars scalarSize n with
  | some r => r
  | none => multiexpMasked nThreads sch bases scalars scalarSize n nx x

/-- A backend that always succeeds and returns the exact sum of `s_i · B_i` over all
`count` terms, the scalars being 32-byte little-endian integers. -/
def exactMsm {G : Type} [AddCommGroup G] (bases : Nat → G) (scalars : Nat → Fin 256)
    (count : Int) : Option G :=
  some (∑ i ∈ Finset.range count.toNat, scalarValue scalars 32 i • bases i)

/-! # Properties -/

/-! ## Buffers -/

@[simp] theorem Buffer.get_write {α : Type} (a : Buffer α) (k : Nat) (v : α) (x : Nat) :
    (a.write k v).get x = if x = k then v else a.get x := rfl

@[simp] theorem Buffer.get_fill {α : Type} (v : α) (x : Nat) : (Buffer.fill v).get x = v := rfl

theorem Buffer.ext {α : Type} {a b : Buffer α} (h : ∀ x, a.get x = b.get x) : a = b := by
  cases a; cases b; congr; funext x; exact h x

/-! ## `log2` -/

theorem log2Loop_pow (k fuel res : Nat) (h : k ≤ fuel) : log2Loop fuel (2 ^ k) res = res + k := by
  induction k generalizing fuel res with
  | zero => cases fuel <;> simp [log2Loop]
  | succ k ih =>
    cases fuel with
    | zero => omega
    | succ fuel =>
      have h1 : (2 : Nat) ^ (k + 1) ≠ 1 := by
        have : 2 ≤ 2 ^ (k + 1) := by
          calc 2 = 2 ^ 1 := rfl
            _ ≤ 2 ^ (k + 1) := Nat.pow_le_pow_right (by norm_num) (by omega)
        omega
      have h2 : (2 : Nat) ^ (k + 1) >>> 1 = 2 ^ k := by
        rw [Nat.shiftRight_eq_div_pow, pow_succ]; simp
      rw [log2Loop, if_neg h1, h2, ih fuel (res + 1) (by omega)]
      omega

theorem log2_pow (k : Nat) : log2 (2 ^ k) = .ok k := by
  have hk : k ≤ 2 ^ k := Nat.le_of_lt (Nat.lt_two_pow k)
  have h0 : (2 : Nat) ^ k ≠ 0 := by positivity
  rw [log2, if_neg h0, log2Loop_pow k _ 0 hk]
  simp

theorem log2_zero : log2 0 = .error .assertion := rfl

theorem log2_ok_of_ne_zero (n : Nat) (h : n ≠ 0) : ∃ d, log2 n = .ok d := by
  exact ⟨_, by rw [log2, if_neg h]⟩

/-! ## `BR` -/

theorem brStep_bitAt (hi lo d x k : Nat) :
    bitAt (brStep hi lo d x) k =
      (decide (k < 64) && ((bitAt x (d + k) && bitAt hi (d + k)) ||
        (decide (d ≤ k) && (bitAt x (k - d) && bitAt lo (k - d))))) := by
  unfold brStep bitAt
  rw [Nat.testBit_mod_two_pow, Nat.testBit_or, Nat.testBit_shiftRight, Nat.testBit_shiftLeft,
    Nat.testBit_and, Nat.testBit_and]

theorem brStep0_bitAt (x k : Nat) :
    bitAt (brStep0 x) k =
      (decide (k < 64) && (bitAt x (16 + k) || (decide (16 ≤ k) && bitAt x (k - 16)))) := by
  unfold brStep0 bitAt
  rw [Nat.testBit_mod_two_pow, Nat.testBit_or, Nat.testBit_shiftRight, Nat.testBit_shiftLeft]

theorem mask_bitAt (m d c : Nat) (hm : m < 2 ^ 32)
    (h : ∀ j, j < 32 → m.testBit j = decide (j / d % 2 = c)) (j : Nat) :
    bitAt m j = (decide (j < 32) && decide (j / d % 2 = c)) := by
  unfold bitAt
  by_cases hj : j < 32
  · simp [hj, h j hj]
  · simp [hj, Nat.testBit_lt_two_pow
      (lt_of_lt_of_le hm (Nat.pow_le_pow_right (by norm_num) (not_lt.mp hj)))]

theorem m8hi (j : Nat) : bitAt 0xFF00FF00 j = (decide (j < 32) && decide (j / 8 % 2 = 1)) :=
  mask_bitAt _ 8 1 (by norm_num) (by intro j hj; interval_cases j <;> rfl) j
theorem m8lo (j : Nat) : bitAt 0x00FF00FF j = (decide (j < 32) && decide (j / 8 % 2 = 0)) :=
  mask_bitAt _ 8 0 (by norm_num) (by intro j hj; interval_cases j <;> rfl) j
theorem m4hi (j : Nat) : bitAt 0xF0F0F0F0 j = (decide (j < 32) && decide (j / 4 % 2 = 1)) :=
  mask_bitAt _ 4 1 (by norm_num) (by intro j hj; interval_cases j <;> rfl) j
theorem m4lo (j : Nat) : bitAt 0x0F0F0F0F j = (decide (j < 32) && decide (j / 4 % 2 = 0)) :=
  mask_bitAt _ 4 0 (by norm_num) (by intro j hj; interval_cases j <;> rfl) j
theorem m2hi (j : Nat) : bitAt 0xCCCCCCCC j = (decide (j < 32) && decide (j / 2 % 2 = 1)) :=
  mask_bitAt _ 2 1 (by norm_num) (by intro j hj; interval_cases j <;> rfl) j
theorem m2lo (j : Nat) : bitAt 0x33333333 j = (decide (j < 32) && decide (j / 2 % 2 = 0)) :=
  mask_bitAt _ 2 0 (by norm_num) (by intro j hj; interval_cases j <;> rfl) j
theorem m1hi (j : Nat) : bitAt 0xAAAAAAAA j = (decide (j < 32) && decide (j / 1 % 2 = 1)) :=
  mask_bitAt _ 1 1 (by norm_num) (by intro j hj; interval_cases j <;> rfl) j
theorem m1lo (j : Nat) : bitAt 0x55555555 j = (decide (j < 32) && decide (j / 1 % 2 = 0)) :=
  mask_bitAt _ 1 0 (by norm_num) (by intro j hj; interval_cases j <;> rfl) j

theorem flipAt_lt (d k : Nat) (hd : d = 1 ∨ d = 2 ∨ d = 4 ∨ d = 8 ∨ d = 16) (hk : k < 32) :
    flipAt d k < 32 := by
  unfold flipAt
  rcases hd with rfl | rfl | rfl | rfl | rfl <;> split <;> omega

theorem brStep0_low (x k : Nat) (hx : x < 2 ^ 32) (hk : k < 32) :
    bitAt (brStep0 x) k = bitAt x (flipAt 16 k) := by
  have hhi : ∀ j, 32 ≤ j → bitAt x j = false := fun j hj =>
    Nat.testBit_lt_two_pow (lt_of_lt_of_le hx (Nat.pow_le_pow_right (by norm_num) hj))
  interval_cases k <;> simp [brStep0_bitAt, flipAt, hhi]

theorem brStep8_low (x k : Nat) (hk : k < 32) :
    bitAt (brStep 0xFF00FF00 0x00FF00FF 8 x) k = bitAt x (flipAt 8 k) := by
  interval_cases k <;> simp [brStep_bitAt, flipAt, m8hi, m8lo]

theorem brStep4_low (x k : Nat) (hk : k < 32) :
    bitAt (brStep 0xF0F0F0F0 0x0F0F0F0F 4 x) k = bitAt x (flipAt 4 k) := by
  interval_cases k <;> simp [brStep_bitAt, flipAt, m4hi, m4lo]

theorem brStep2_low (x k : Nat) (hk : k < 32) :
    bitAt (brStep 0xCCCCCCCC 0x33333333 2 x) k = bitAt x (flipAt 2 k) := by
  interval_cases k <;> simp [brStep_bitAt, flipAt, m2hi, m2lo]

theorem brStep1_low (x k : Nat) (hk : k < 32) :
    bitAt (brStep 0xAAAAAAAA 0x55555555 1 x) k = bitAt x (flipAt 1 k) := by
  interval_cases k <;> simp [brStep_bitAt, flipAt, m1hi, m1lo]

theorem flipAt_all (k : Nat) (hk : k < 32) :
    flipAt 16 (flipAt 8 (flipAt 4 (flipAt 2 (flipAt 1 k)))) = 31 - k := by
  interval_cases k <;> rfl

theorem BR_eq (x p : Nat) : BR x p =
    (brStep 0xAAAAAAAA 0x55555555 1 (brStep 0xCCCCCCCC 0x33333333 2
      (brStep 0xF0F0F0F0 0x0F0F0F0F 4 (brStep 0xFF00FF00 0x00FF00FF 8
        (brStep0 x))))) >>> ((32 + 2 ^ 64 - p) % 2 ^ 64) := rfl

theorem rev32_bitAt (x k : Nat) (hx : x < 2 ^ 32) (hk : k < 32) :
    bitAt (brStep 0xAAAAAAAA 0x55555555 1 (brStep 0xCCCCCCCC 0x33333333 2
      (brStep 0xF0F0F0F0 0x0F0F0F0F 4 (brStep 0xFF00FF00 0x00FF00FF 8
        (brStep0 x))))) k = bitAt x (31 - k) := by
  have h1 := flipAt_lt 1 k (by simp) hk
  have h2 := flipAt_lt 2 _ (by simp) h1
  have h4 := flipAt_lt 4 _ (by simp) h2
  have h8 := flipAt_lt 8 _ (by simp) h4
  rw [brStep1_low _ _ hk, brStep2_low _ _ h1, brStep4_low _ _ h2, brStep8_low _ _ h4,
    brStep0_low _ _ hx h8, flipAt_all k hk]

theorem rev32_bitAt_hi (x k : Nat) (hk : 32 ≤ k) :
    bitAt (brStep 0xAAAAAAAA 0x55555555 1 (brStep 0xCCCCCCCC 0x33333333 2
      (brStep 0xF0F0F0F0 0x0F0F0F0F 4 (brStep 0xFF00FF00 0x00FF00FF 8
        (brStep0 x))))) k = false := by
  rw [brStep_bitAt, m1hi, m1lo]
  have h1 : ¬ (1 + k < 32) := by omega
  have h2 : ¬ (k - 1 < 32) ∨ k - 1 = 31 := by omega
  rcases h2 with h2 | h2
  · simp [h1, h2]
  · simp [h1, h2]

/-- Bit `k` of `BR x p` is bit `p - 1 - k` of `x`, and the bits from `p` on are clear. -/
theorem BR_testBit (x p k : Nat) (hp : p ≤ 32) (hx : x < 2 ^ p) :
    (BR x p).testBit k = (decide (k < p) && x.testBit (p - 1 - k)) := by
  have hx32 : x < 2 ^ 32 := lt_of_lt_of_le hx (Nat.pow_le_pow_right (by norm_num) hp)
  have hs : (32 + 2 ^ 64 - p) % 2 ^ 64 = 32 - p := by omega
  rw [BR_eq, hs, Nat.testBit_shiftRight]
  by_cases hk : k < p
  · have := rev32_bitAt x (32 - p + k) hx32 (by omega)
    unfold bitAt at this
    rw [this]
    simp only [hk, decide_True, Bool.true_and]
    congr 1
    omega
  · have := rev32_bitAt_hi x (32 - p + k) (by omega)
    unfold bitAt at this
    rw [this]
    simp [hk]

theorem BR_lt (x p : Nat) (hp : p ≤ 32) (hx : x < 2 ^ p) : BR x p < 2 ^ p := by
  apply Nat.lt_pow_two_of_testBit
  intro i hi
  rw [BR_testBit x p i hp hx]
  simp [show ¬ i < p by omega]

theorem BR_BR (x p : Nat) (hp : p ≤ 32) (hx : x < 2 ^ p) : BR (BR x p) p = x := by
  apply Nat.eq_of_testBit_eq
  intro i
  rw [BR_testBit _ p i hp (BR_lt x p hp hx)]
  by_cases hi : i < p
  · rw [BR_testBit x p _ hp hx]
    simp only [hi, decide_True, Bool.true_and, show p - 1 - i < p by omega]
    congr 1
    omega
  · simp only [hi, decide_False, Bool.false_and]
    exact (Nat.testBit_lt_two_pow
      (lt_of_lt_of_le hx (Nat.pow_le_pow_right (by norm_num) (by omega)))).symm

/-! ## `reversePermutation` -/

theorem BR_inj (p i j : Nat) (hp : p ≤ 32) (hi : i < 2 ^ p) (hj : j < 2 ^ p)
    (h : BR i p = BR j p) : i = j := by
  rw [← BR_BR i p hp hi, ← BR_BR j p hp hj, h]

theorem reversePermutationStep_get {F : Type} (p : Nat) (a : Buffer F) (i x : Nat) :
    (reversePermutationStep p a i).get x =
      if BR i p < i then (if x = BR i p then a.get i else if x = i then a.get (BR i p)
        else a.get x) else a.get x := by
  unfold reversePermutationStep
  by_cases h : i > BR i p
  · simp [h]
  · simp [h]

/-- After the loop body has run at the indices of `l` (pairwise different, below `2^p`),
position `j` holds the original element of `BR j p` when the larger index of the pair was
visited, and is unchanged otherwise. -/
theorem foldl_reversePermutationStep_get {F : Type} (p : Nat) (hp : p ≤ 32) (l : List Nat)
    (hl : l.Nodup) (hlt : ∀ i ∈ l, i < 2 ^ p) (a : Buffer F) (j : Nat) (hj : j < 2 ^ p) :
    (l.foldl (reversePermutationStep p) a).get j =
      if max j (BR j p) ∈ l then a.get (BR j p) else a.get j := by
  induction l generalizing a with
  | nil => simp
  | cons i l ih =>
    have hi : i < 2 ^ p := hlt i (List.mem_cons_self _ _)
    have hnd : i ∉ l := (List.nodup_cons.mp hl).1
    rw [List.foldl_cons, ih (List.nodup_cons.mp hl).2
      (fun k hk => hlt k (List.mem_cons_of_mem _ hk))]
    have hBj : BR j p < 2 ^ p := BR_lt j p hp hj
    have hBi : BR i p < 2 ^ p := BR_lt i p hp hi
    have hBBj : BR (BR j p) p = j := BR_BR j p hp hj
    have hBBi : BR (BR i p) p = i := BR_BR i p hp hi
    by_cases hm : max j (BR j p) ∈ l
    · have hne : max j (BR j p) ≠ i := fun h => hnd (h ▸ hm)
      rw [if_pos hm, if_pos (List.mem_cons_of_mem _ hm), reversePermutationStep_get]
      by_cases hsw : BR i p < i
      · rw [if_pos hsw]
        have h1 : BR j p ≠ BR i p := by
          intro h
          have : j = i := BR_inj p j i hp hj hi h
          subst this
          exact hne (max_eq_left (le_of_lt hsw))
        have h2 : BR j p ≠ i := by
          intro h
          have hji : j = BR i p := by rw [← h, hBBj]
          apply hne
          rw [h, hji]
          exact max_eq_right (le_of_lt hsw)
        rw [if_neg h1, if_neg h2]
      · rw [if_neg hsw]
    · rw [if_neg hm, reversePermutationStep_get]
      by_cases hmi : max j (BR j p) = i
      · have hmem : max j (BR j p) ∈ i :: l := hmi ▸ List.mem_cons_self _ _
        rw [if_pos hmem]
        by_cases hsw : BR i p < i
        · rw [if_pos hsw]
          rcases max_choice j (BR j p) with h | h
          · have hji : j = i := by rw [← hmi, h]
            subst hji
            rw [if_neg (ne_of_gt hsw), if_pos rfl]
          · have hji : BR j p = i := by rw [← hmi, h]
            have hj' : j = BR i p := by rw [← hji, hBBj]
            rw [if_pos hj', hji]
        · rw [if_neg hsw]
          rcases max_choice j (BR j p) with h | h
          · have hji : j = i := by rw [← hmi, h]
            subst hji
            have hle : j ≤ BR j p := not_lt.mp hsw
            have hge : BR j p ≤ j := by
              have := le_max_right j (BR j p); rw [h] at this; exact this
            rw [le_antisymm hge hle]
          · have hji : BR j p = i := by rw [← hmi, h]
            have hj' : j = BR i p := by rw [← hji, hBBj]
            have hle : i ≤ BR i p := not_lt.mp hsw
            have hge : j ≤ BR j p := by
              have := le_max_left j (BR j p); rw [h] at this; exact this
            have : i = j := by rw [hji] at hge; rw [← hj'] at hle; omega
            rw [hji, this]
      · have hnmem : max j (BR j p) ∉ i :: l := by
          intro h
          rcases List.mem_cons.mp h with h | h
          · exact hmi h
          · exact hm h
        rw [if_neg hnmem]
        by_cases hsw : BR i p < i
        · rw [if_pos hsw]
          have h1 : j ≠ BR i p := by
            intro h
            apply hmi
            have : BR j p = i := by rw [h, hBBi]
            rw [this, h]
            exact max_eq_right (le_of_lt hsw)
          have h2 : j ≠ i := by
            intro h
            apply hmi
            rw [h]
            exact max_eq_left (le_of_lt hsw)
          rw [if_neg h1, if_neg h2]
        · rw [if_neg hsw]

/-- Positions from `2^p` on are never written. -/
theorem foldl_reversePermutationStep_get_ge {F : Type} (p : Nat) (hp : p ≤ 32) (l : List Nat)
    (hlt : ∀ i ∈ l, i < 2 ^ p) (a : Buffer F) (j : Nat) (hj : 2 ^ p ≤ j) :
    (l.foldl (reversePermutationStep p) a).get j = a.get j := by
  induction l generalizing a with
  | nil => simp
  | cons i l ih =>
    have hi : i < 2 ^ p := hlt i (List.mem_cons_self _ _)
    rw [List.foldl_cons, ih (fun k hk => hlt k (List.mem_cons_of_mem _ hk)),
      reversePermutationStep_get]
    have hBi : BR i p < 2 ^ p := BR_lt i p hp hi
    split
    · rw [if_neg (by omega), if_neg (by omega)]
    · rfl

/-- `reversePermutation` on `n = 2^p` elements, `p ≤ 32`, in whatever order the indices are
taken: position `j` receives the original element of `BR j p` when both indices of the pair
are below `2^31`, where the counter reaches them, and keeps its element otherwise. -/
theorem reversePermutationOn_get {F : Type} (p : Nat) (hp : p ≤ 32) (order : List Nat)
    (ho : order.Perm (List.range (2 ^ p))) (a : Buffer F) :
    ∃ b, reversePermutationOn order a (2 ^ p) = .ok b ∧
      (∀ j, j < 2 ^ p →
        b.get j = if max j (BR j p) < 2 ^ 31 then a.get (BR j p) else a.get j) ∧
      (∀ j, 2 ^ p ≤ j → b.get j = a.get j) := by
  have hnd : (order.filter (fun i => decide (i < 2 ^ 31))).Nodup :=
    (ho.nodup_iff.mpr (List.nodup_range _)).filter _
  have hlt : ∀ i ∈ order.filter (fun i => decide (i < 2 ^ 31)), i < 2 ^ p := fun i hi =>
    List.mem_range.mp (ho.mem_iff.mp (List.mem_filter.mp hi).1)
  refine ⟨(order.filter (fun i => decide (i < 2 ^ 31))).foldl (reversePermutationStep p) a,
    ?_, ?_, ?_⟩
  · simp [reversePermutationOn, log2_pow]
  · intro j hj
    rw [foldl_reversePermutationStep_get p hp _ hnd hlt a j hj]
    have hmem : max j (BR j p) ∈ order :=
      ho.mem_iff.mpr (List.mem_range.mpr (max_lt hj (BR_lt j p hp hj)))
    by_cases h31 : max j (BR j p) < 2 ^ 31
    · rw [if_pos h31, if_pos (List.mem_filter.mpr ⟨hmem, decide_eq_true h31⟩)]
    · rw [if_neg h31, if_neg]
      intro hf
      exact h31 (of_decide_eq_true (List.mem_filter.mp hf).2)
  · intro j hj
    exact foldl_reversePermutationStep_get_ge p hp _ hlt a j hj

/-- `reversePermutation` on `n = 2^p` elements, `p ≤ 31`, in whatever order the indices are
visited: position `j` receives the original element of `BR j p`. -/
theorem reversePermutationOn_spec {F : Type} (p : Nat) (hp : p ≤ 31) (order : List Nat)
    (ho : order.Perm (List.range (2 ^ p))) (a : Buffer F) :
    ∃ b, reversePermutationOn order a (2 ^ p) = .ok b ∧
      (∀ j, j < 2 ^ p → b.get j = a.get (BR j p)) ∧ (∀ j, 2 ^ p ≤ j → b.get j = a.get j) := by
  obtain ⟨b, hb, h1, h2⟩ := reversePermutationOn_get p (by omega) order ho a
  refine ⟨b, hb, ?_, h2⟩
  intro j hj
  have hpow : 2 ^ p ≤ 2 ^ 31 := Nat.pow_le_pow_right (by norm_num) hp
  rw [h1 j hj, if_pos (lt_of_lt_of_le (max_lt hj (BR_lt j p (by omega) hj)) hpow)]

theorem reversePermutation_spec {F : Type} (p : Nat) (hp : p ≤ 31) (a : Buffer F) :
    ∃ b, reversePermutation a (2 ^ p) = .ok b ∧
      (∀ j, j < 2 ^ p → b.get j = a.get (BR j p)) ∧ (∀ j, 2 ^ p ≤ j → b.get j = a.get j) :=
  reversePermutationOn_spec p hp _ (List.Perm.refl _) a

/-- C10. Bit reversal is an involution: for `p ≤ 32`, `BR` maps `[0, 2^p)` to itself with
`BR (BR i p) p = i`, and running `reversePermutation` twice on a buffer of `2^p` elements,
each time with the indices taken in any order, gives back the buffer exactly (at `p = 32`,
where the `int` counter reaches the indices below `2^31` only, each pass swaps the pairs
that lie below `2^31`, and two passes restore the buffer all the same). -/
theorem reversePermutation_involution {F : Type} (p : Nat) (hp : p ≤ 32) :
    (∀ i, i < 2 ^ p → BR i p < 2 ^ p ∧ BR (BR i p) p = i) ∧
    ∀ (a : Buffer F) (o₁ o₂ : List Nat), o₁.Perm (List.range (2 ^ p)) →
      o₂.Perm (List.range (2 ^ p)) →
      ∃ b, reversePermutationOn o₁ a (2 ^ p) = .ok b ∧
        reversePermutationOn o₂ b (2 ^ p) = .ok a := by
  refine ⟨fun i hi => ⟨BR_lt i p hp hi, BR_BR i p hp hi⟩, ?_⟩
  intro a o₁ o₂ h₁ h₂
  obtain ⟨b, hb, hb1, hb2⟩ := reversePermutationOn_get p hp o₁ h₁ a
  obtain ⟨c, hc, hc1, hc2⟩ := reversePermutationOn_get p hp o₂ h₂ b
  refine ⟨b, hb, ?_⟩
  rw [hc]
  congr 1
  apply Buffer.ext
  intro x
  by_cases hx : x < 2 ^ p
  · rw [hc1 x hx]
    by_cases h31 : max x (BR x p) < 2 ^ 31
    · rw [if_pos h31, hb1 _ (BR_lt x p hp hx), BR_BR x p hp hx, if_pos (by
        rw [max_comm]; exact h31)]
    · rw [if_neg h31, hb1 x hx, if_neg h31]
  · rw [hc2 x (not_lt.mp hx), hb2 x (not_lt.mp hx)]

/-- C10 at `p = 3`, index 6, and the buffer `a[i] = i` with the indices visited in
increasing and then in decreasing order. -/
theorem reversePermutation_involution_witness :
    (3 ≤ 32 ∧ (List.range (2 ^ 3)).Perm (List.range (2 ^ 3)) ∧
      (List.range (2 ^ 3)).reverse.Perm (List.range (2 ^ 3))) ∧
    (BR 6 3 < 2 ^ 3 ∧ BR (BR 6 3) 3 = 6) ∧
    ∃ b, reversePermutationOn (List.range (2 ^ 3)) (⟨fun i => i⟩ : Buffer Nat) (2 ^ 3) = .ok b ∧
      reversePermutationOn (List.range (2 ^ 3)).reverse b (2 ^ 3) = .ok ⟨fun i => i⟩ :=
  ⟨⟨by decide, List.Perm.refl _, List.reverse_perm _⟩,
    (@reversePermutation_involution Nat 3 (by decide)).1 6 (by decide),
    (@reversePermutation_involution Nat 3 (by decide)).2 ⟨fun i => i⟩ _ _ (List.Perm.refl _)
      (List.reverse_perm _)⟩

/-! ## The constructor: `s` and the range error -/

theorem twoAdicityAux_spec (fuel m : Nat) (hm : 0 < m) (hf : m ≤ fuel) (t : Nat) :
    2 ^ t ∣ m ↔ t ≤ twoAdicityAux fuel m := by
  induction fuel generalizing m t with
  | zero => omega
  | succ fuel ih =>
    unfold twoAdicityAux
    by_cases h : m % 2 = 0
    · rw [if_pos h]
      have hm2 : 0 < m / 2 := by omega
      have hf2 : m / 2 ≤ fuel := by omega
      cases t with
      | zero => simp
      | succ t =>
        rw [Nat.succ_le_succ_iff, ← ih (m / 2) hm2 hf2 t]
        have hm' : m = 2 * (m / 2) := by omega
        constructor
        · intro hd
          rw [pow_succ, mul_comm] at hd
          rw [hm'] at hd
          exact (Nat.mul_dvd_mul_iff_left (by norm_num)).mp hd
        · intro hd
          rw [pow_succ, mul_comm, hm']
          exact Nat.mul_dvd_mul_left 2 hd
    · rw [if_neg h]
      cases t with
      | zero => simp
      | succ t =>
        constructor
        · intro hd
          exfalso
          apply h
          have : 2 ∣ m := Dvd.dvd.trans (dvd_pow_self 2 (Nat.succ_ne_zero t)) hd
          omega
        · intro hle
          omega

/-- `twoAdicity m` is the largest `t` with `2^t` dividing `m`. -/
theorem two_pow_dvd_iff_le_twoAdicity (m t : Nat) (hm : 0 < m) :
    2 ^ t ∣ m ↔ t ≤ twoAdicity m :=
  twoAdicityAux_spec m m hm (le_refl m) t

/-- Invariant of the loop that determines `s`. -/
theorem sLoop_spec (dp fuel aux s : Nat) (hf : dp ≤ s + fuel) :
    let res := sLoop dp fuel aux s
    aux * 2 ^ s = res.1 * 2 ^ res.2 ∧ s ≤ res.2 ∧ res.2 ≤ max s dp ∧
      (res.2 < dp → res.1 % 2 = 1) := by
  induction fuel generalizing aux s with
  | zero =>
    show aux * 2 ^ s = aux * 2 ^ s ∧ s ≤ s ∧ s ≤ max s dp ∧ (s < dp → aux % 2 = 1)
    exact ⟨rfl, le_refl _, le_max_left _ _, fun h => by omega⟩
  | succ fuel ih =>
    unfold sLoop
    by_cases h : aux % 2 = 0 ∧ s < dp
    · rw [if_pos h]
      obtain ⟨h1, h2, h3, h4⟩ := ih (aux / 2) (s + 1) (by omega)
      refine ⟨?_, by omega, ?_, h4⟩
      · rw [← h1, pow_succ]
        have : aux = 2 * (aux / 2) := by omega
        conv_lhs => rw [this]
        ring
      · have : max (s + 1) dp = max s dp := by
          rw [max_eq_right (by omega), max_eq_right (by omega)]
        rw [← this]; exact h3
    · rw [if_neg h]
      show aux * 2 ^ s = aux * 2 ^ s ∧ s ≤ s ∧ s ≤ max s dp ∧ (s < dp → aux % 2 = 1)
      refine ⟨rfl, le_refl _, le_max_left _ _, ?_⟩
      intro hlt
      by_contra hodd
      exact h ⟨by omega, hlt⟩

/-- The range check of the constructor, as a function of the final `s`. -/
theorem FFT.new_rangeError_iff_s (r dp nSpan : Nat) :
    (FFT.new r (2 ^ dp) nSpan = .error .rangeError ↔ (sLoop dp dp ((r - 1) / 2) 1).2 < dp) ∧
    ∀ E, FFT.new r (2 ^ dp) nSpan = .ok E → E.s = (sLoop dp dp ((r - 1) / 2) 1).2 := by
  unfold FFT.new
  rw [log2_pow]
  simp only
  by_cases hs : (sLoop dp dp ((r - 1) / 2) 1).2 < dp
  · simp [hs]
  · simp only [hs, if_false]
    split
    · simp
    · simp only [Except.ok.injEq, reduceCtorEq, false_iff, not_false_eq_true, true_and]
      intro E hE
      rw [← hE]

/-- C5. Over an odd modulus `r ≥ 3`, constructing the engine with
`maxDomainSize = 2^domainPow` fails with the domain-range error exactly when the two-adicity
of `r - 1` is below `domainPow`; when an engine is produced, `2^s ≥ maxDomainSize` and
`2^s` divides `r - 1`. -/
theorem FFT_new_rangeError_iff (r domainPow nSpan : Nat) (hodd : r % 2 = 1) (hr : 3 ≤ r) :
    (FFT.new r (2 ^ domainPow) nSpan = .error .rangeError ↔
      twoAdicity (r - 1) < domainPow) ∧
    ∀ E, FFT.new r (2 ^ domainPow) nSpan = .ok E →
      2 ^ domainPow ≤ 2 ^ E.s ∧ 2 ^ E.s ∣ r - 1 := by
  obtain ⟨hiff, hok⟩ := FFT.new_rangeError_iff_s r domainPow nSpan
  obtain ⟨h1, h2, h3, h4⟩ := sLoop_spec domainPow domainPow ((r - 1) / 2) 1 (by omega)
  set res := sLoop domainPow domainPow ((r - 1) / 2) 1 with hres
  have hr1 : r - 1 = res.1 * 2 ^ res.2 := by
    rw [← h1]; omega
  have hpos : 0 < r - 1 := by omega
  have hdvd : 2 ^ res.2 ∣ r - 1 := ⟨res.1, by rw [hr1]; ring⟩
  have hle : res.2 ≤ twoAdicity (r - 1) := (two_pow_dvd_iff_le_twoAdicity _ _ hpos).mp hdvd
  constructor
  · rw [hiff]
    constructor
    · intro hlt
      have hodd1 := h4 hlt
      have hnd : ¬ 2 ^ (res.2 + 1) ∣ r - 1 := by
        intro hd
        rw [hr1, pow_succ, mul_comm res.1] at hd
        have : 2 ∣ res.1 := (Nat.mul_dvd_mul_iff_left (by positivity)).mp hd
        omega
      have : ¬ res.2 + 1 ≤ twoAdicity (r - 1) :=
        fun h => hnd ((two_pow_dvd_iff_le_twoAdicity _ _ hpos).mpr h)
      omega
    · intro hlt
      omega
  · intro E hE
    have hs := hok E hE
    have hnot : ¬ res.2 < domainPow := by
      intro hlt
      have := hiff.mpr hlt
      rw [hE] at this
      cases this
    rw [hs]
    exact ⟨Nat.pow_le_pow_right (by norm_num) (not_lt.mp hnot), hdvd⟩

/-- C5 at `r = 17` and `maxDomainSize = 2^3`. -/
theorem FFT_new_rangeError_iff_witness :
    (17 % 2 = 1 ∧ 3 ≤ 17) ∧
    ((FFT.new 17 (2 ^ 3) 10 = .error .rangeError ↔ twoAdicity (17 - 1) < 3) ∧
    ∀ E, FFT.new 17 (2 ^ 3) 10 = .ok E → 2 ^ 3 ≤ 2 ^ E.s ∧ 2 ^ E.s ∣ 17 - 1) :=
  ⟨by decide, FFT_new_rangeError_iff 17 3 10 (by decide) (by decide)⟩

/-! ## The transforms on lengths that are not admitted -/

/-- C6. For every `n` that is not a power of two (`n = 0` included), `fft(a, n)` ends in the
assertion failure and returns no vector. -/
theorem fft_not_pow_two {F : Type} [CommRing F] (E : FFT F) (a : Buffer F) (n : Nat)
    (hn : ¬ ∃ k, n = 2 ^ k) : E.fft a n = .error .assertion := by
  unfold FFT.fft reversePermutation reversePermutationOn
  by_cases h0 : n = 0
  · subst h0; simp [log2_zero]
  · obtain ⟨d, hd⟩ := log2_ok_of_ne_zero n h0
    simp only [hd]
    rw [if_pos]
    intro h
    apply hn
    by_cases hd64 : d < 64
    · refine ⟨d, ?_⟩
      rw [← h]
      exact Nat.mod_eq_of_lt (Nat.pow_lt_pow_right (by norm_num) hd64)
    · exfalso
      apply h0
      rw [← h]
      exact Nat.mod_eq_zero_of_dvd (Nat.pow_dvd_pow 2 (not_lt.mp hd64))

/-- C6 at `n = 6`. -/
theorem fft_not_pow_two_witness :
    (¬ ∃ k, 6 = 2 ^ k) ∧
      (⟨1, 0, [1, 16], [1, 9]⟩ : FFT (ZMod 17)).fft ⟨fun _ => 1⟩ 6 = .error .assertion :=
  have h : ¬ ∃ k, 6 = 2 ^ k := by
    rintro ⟨k, hk⟩
    have h3 : k < 3 := by
      by_contra hc
      have : 2 ^ 3 ≤ 2 ^ k := Nat.pow_le_pow_right (by norm_num) (not_lt.mp hc)
      omega
    interval_cases k <;> omega
  ⟨h, fft_not_pow_two _ _ 6 h⟩

theorem FFT.root_fault {F : Type} (E : FFT F) (s j : Nat) :
    (∃ w, E.root s j = .ok w) ∨ E.root s j = .error .outOfBounds := by
  unfold FFT.root
  split
  · split
    · left; exact ⟨_, rfl⟩
    · right; rfl
  · right; rfl

theorem fftButterfly_fault {F : Type} [CommRing F] (E : FFT F) (s m mdiv2 : Nat) (a : Buffer F)
    (i : Nat) :
    (∃ b, fftButterfly E s m mdiv2 a i = .ok b) ∨
      fftButterfly E s m mdiv2 a i = .error .outOfBounds := by
  unfold fftButterfly
  simp only
  rcases E.root_fault s (i % mdiv2) with ⟨w, hw⟩ | hw
  · rw [hw]; left; exact ⟨_, rfl⟩
  · rw [hw]; right; rfl

theorem foldlM_fault {α β : Type} (f : β → α → Except Fault β)
    (hf : ∀ b x, (∃ c, f b x = .ok c) ∨ f b x = .error .outOfBounds) (l : List α) (b : β) :
    (∃ c, l.foldlM f b = .ok c) ∨ l.foldlM f b = .error .outOfBounds := by
  induction l generalizing b with
  | nil => left; exact ⟨b, rfl⟩
  | cons x l ih =>
    rw [List.foldlM_cons]
    rcases hf b x with ⟨c, hc⟩ | hc
    · rw [hc]; exact ih c
    · right; rw [hc]; rfl

theorem fftStage_fault {F : Type} [CommRing F] (E : FFT F) (n : Nat) (a : Buffer F) (s : Nat) :
    (∃ b, fftStage E n a s = .ok b) ∨ fftStage E n a s = .error .outOfBounds :=
  foldlM_fault _ (fun b x => fftButterfly_fault E _ _ _ b x) _ a

theorem fftStage_above {F : Type} [CommRing F] (E : FFT F) (n : Nat) (a : Buffer F) (s : Nat)
    (hs : E.s < s) (hn : 2 ≤ n) : fftStage E n a s = .error .outOfBounds := by
  unfold fftStage
  have h1 : n >>> 1 = (n >>> 1 - 1) + 1 := by
    rw [Nat.shiftRight_eq_div_pow]; simp; omega
  rw [h1, List.range_succ_eq_map, List.foldlM_cons]
  have : fftButterfly E s (intShl1 s) (intShl1 s >>> 1) a 0 = .error .outOfBounds := by
    unfold fftButterfly FFT.root
    simp [show ¬ s ≤ E.s by omega]
  rw [this]
  rfl

/-- The transforms on a length `2^k` beyond the root table end in `outOfBounds`. -/
theorem fft_above_table {F : Type} [CommRing F] (E : FFT F) (a : Buffer F) (k : Nat)
    (hk : E.s < k) (hk64 : k < 64) : E.fft a (2 ^ k) = .error .outOfBounds := by
  unfold FFT.fft reversePermutation reversePermutationOn
  rw [log2_pow]
  simp only
  rw [if_neg (by
    rw [Nat.mod_eq_of_lt (Nat.pow_lt_pow_right (by norm_num) hk64)]; simp)]
  have hsplit : List.range' 1 k = List.range' 1 E.s ++ (E.s + 1) :: List.range' (E.s + 2) (k - E.s - 1) := by
    have h1 : k = (k - E.s - 1 + 1) + E.s := by omega
    conv_lhs => rw [h1, ← List.range'_append 1 E.s (k - E.s - 1 + 1) 1]
    rw [List.range'_succ]
    rw [show 1 + 1 * E.s = E.s + 1 by omega]
  rw [hsplit, List.foldlM_append]
  have hn : 2 ≤ 2 ^ k := by
    calc 2 = 2 ^ 1 := rfl
      _ ≤ 2 ^ k := Nat.pow_le_pow_right (by norm_num) (by omega)
  rcases foldlM_fault (fftStage E (2 ^ k)) (fun b x => fftStage_fault E _ b x)
    (List.range' 1 E.s) (List.foldl (reversePermutationStep k) a
      ((List.range (2 ^ k)).filter (fun i => decide (i < 2 ^ 31)))) with ⟨c, hc⟩ | hc
  · rw [hc]
    show List.foldlM (fftStage E (2 ^ k)) c _ = _
    rw [List.foldlM_cons, fftStage_above E _ c _ (by omega) hn]
    rfl
  · rw [hc]; rfl

theorem ifft_above_table {F : Type} [CommRing F] (E : FFT F) (a : Buffer F) (k : Nat)
    (hk : E.s < k) (hk64 : k < 64) : E.ifft a (2 ^ k) = .error .outOfBounds := by
  unfold FFT.ifft
  rw [fft_above_table E a k hk hk64]

/-- C7 (as the code behaves). No check compares `n` with the size of the root table: for
every power of two `n = 2^k` greater than `2^s` (`n` a `uint64_t`, so `k < 64`), `fft(a, n)`
and `ifft(a, n)` do not end in a precondition failure; they start the butterflies and reach
a table index out of range. -/
theorem fft_ifft_oversize {F : Type} [CommRing F] (E : FFT F) (a : Buffer F) (k : Nat)
    (hk : 2 ^ E.s < 2 ^ k) (hk64 : k < 64) :
    E.fft a (2 ^ k) = .error .outOfBounds ∧ E.ifft a (2 ^ k) = .error .outOfBounds := by
  have hlt : E.s < k := (Nat.pow_lt_pow_iff_right (by norm_num)).mp hk
  exact ⟨fft_above_table E a k hlt hk64, ifft_above_table E a k hlt hk64⟩

/-- C7 at the engine built for `maxDomainSize = 2` over `r = 17` and `n = 4`. -/
theorem fft_ifft_oversize_witness :
    (2 ^ (⟨1, 3, [1, 16], [1, 9]⟩ : FFT (ZMod 17)).s < 2 ^ 2 ∧ 2 < 64) ∧
    ((⟨1, 3, [1, 16], [1, 9]⟩ : FFT (ZMod 17)).fft ⟨fun _ => 1⟩ (2 ^ 2) = .error .outOfBounds ∧
      (⟨1, 3, [1, 16], [1, 9]⟩ : FFT (ZMod 17)).ifft ⟨fun _ => 1⟩ (2 ^ 2) =
        .error .outOfBounds) :=
  ⟨by decide, fft_ifft_oversize _ _ 2 (by decide) (by decide)⟩

/-- C7 fails: the engine built over `r = 17` for `maxDomainSize = 2` has `s = 1`, and on
`n = 4 > 2^s` neither `fft` nor `ifft` ends in the assertion failure. -/
theorem fft_oversize_counterexample :
    FFT.new 17 2 10 = .ok ⟨1, 3, [1, 16], [1, 9]⟩ ∧
    (⟨1, 3, [1, 16], [1, 9]⟩ : FFT (ZMod 17)).fft ⟨fun _ => 1⟩ 4 ≠ .error .assertion ∧
    (⟨1, 3, [1, 16], [1, 9]⟩ : FFT (ZMod 17)).ifft ⟨fun _ => 1⟩ 4 ≠ .error .assertion := by
  refine ⟨by rfl, ?_, ?_⟩
  · rw [show (4 : Nat) = 2 ^ 2 from rfl, fft_above_table _ _ 2 (by decide) (by decide)]
    simp
  · rw [show (4 : Nat) = 2 ^ 2 from rfl, ifft_above_table _ _ 2 (by decide) (by decide)]
    simp

/-! ## One butterfly stage -/

theorem lowIdx_div (h i : Nat) (hh : 0 < h) : lowIdx h i / h = 2 * (i / h) := by
  unfold lowIdx
  rw [show i / h * (2 * h) + i % h = i % h + h * (2 * (i / h)) by ring,
    Nat.add_mul_div_left _ _ hh, Nat.div_eq_of_lt (Nat.mod_lt _ hh)]
  omega

theorem lowIdx_mod (h i : Nat) : lowIdx h i % h = i % h := by
  unfold lowIdx
  rw [show i / h * (2 * h) + i % h = i % h + h * (2 * (i / h)) by ring,
    Nat.add_mul_mod_self_left, Nat.mod_mod]

theorem lowIdx_add_div (h i : Nat) (hh : 0 < h) : (lowIdx h i + h) / h = 2 * (i / h) + 1 := by
  rw [Nat.add_div_right _ hh, lowIdx_div h i hh]

theorem lowIdx_add_mod (h i : Nat) : (lowIdx h i + h) % h = i % h := by
  rw [Nat.add_mod_right, lowIdx_mod]

theorem pairIdx_lowIdx (h i : Nat) (hh : 0 < h) : pairIdx h (lowIdx h i) = i := by
  unfold pairIdx
  rw [lowIdx_div h i hh, lowIdx_mod, Nat.mul_div_cancel_left _ (by norm_num : 0 < 2)]
  exact Nat.div_add_mod' i h

theorem pairIdx_lowIdx_add (h i : Nat) (hh : 0 < h) : pairIdx h (lowIdx h i + h) = i := by
  unfold pairIdx
  rw [lowIdx_add_div h i hh, lowIdx_add_mod,
    show (2 * (i / h) + 1) / 2 = i / h by omega]
  exact Nat.div_add_mod' i h

theorem pairIdx_div (h x : Nat) (hh : 0 < h) : pairIdx h x / h = x / h / 2 := by
  unfold pairIdx
  rw [show x / h / 2 * h + x % h = x % h + h * (x / h / 2) by ring,
    Nat.add_mul_div_left _ _ hh, Nat.div_eq_of_lt (Nat.mod_lt _ hh)]
  omega

theorem pairIdx_mod (h x : Nat) : pairIdx h x % h = x % h := by
  unfold pairIdx
  rw [show x / h / 2 * h + x % h = x % h + h * (x / h / 2) by ring,
    Nat.add_mul_mod_self_left, Nat.mod_mod]

theorem eq_lowIdx_of_even (h x : Nat) (hh : 0 < h) (he : x / h % 2 = 0) :
    x = lowIdx h (pairIdx h x) := by
  unfold lowIdx
  rw [pairIdx_div h x hh, pairIdx_mod]
  have h1 : x / h = 2 * (x / h / 2) := by omega
  have h2 := Nat.div_add_mod' x h
  calc x = x / h * h + x % h := h2.symm
    _ = (2 * (x / h / 2)) * h + x % h := by rw [← h1]
    _ = x / h / 2 * (2 * h) + x % h := by ring

theorem eq_lowIdx_add_of_odd (h x : Nat) (hh : 0 < h) (he : ¬ x / h % 2 = 0) :
    x = lowIdx h (pairIdx h x) + h := by
  unfold lowIdx
  rw [pairIdx_div h x hh, pairIdx_mod]
  have h1 : x / h = 2 * (x / h / 2) + 1 := by omega
  have h2 := Nat.div_add_mod' x h
  calc x = x / h * h + x % h := h2.symm
    _ = (2 * (x / h / 2) + 1) * h + x % h := by rw [← h1]
    _ = x / h / 2 * (2 * h) + x % h + h := by ring

/-- The butterfly loop of a stage over the indices `[0, c)`: the positions of the
butterflies already run hold their new value, the others are untouched. -/
theorem foldlM_fftButterfly {F : Type} [CommRing F] (E : FFT F) (s h : Nat) (hh : 0 < h)
    (W : Nat → F) (hW : ∀ j, j < h → E.root s j = .ok (W j)) (a : Buffer F) (c : Nat) :
    ∃ b, (List.range c).foldlM (fftButterfly E s (2 * h) h) a = .ok b ∧
      ∀ x, b.get x = if pairIdx h x < c then butterflyValue h W a x else a.get x := by
  induction c with
  | zero => exact ⟨a, rfl, fun x => by simp⟩
  | succ c ih =>
    obtain ⟨b, hb, hget⟩ := ih
    rw [List.range_succ, List.foldlM_append, hb]
    simp only [List.foldlM_cons, List.foldlM_nil]
    have hlow : c / h * (2 * h) + c % h = lowIdx h c := rfl
    unfold fftButterfly
    simp only [hW (c % h) (Nat.mod_lt _ hh), hlow]
    refine ⟨_, rfl, ?_⟩
    intro x
    have hb1 : b.get (lowIdx h c) = a.get (lowIdx h c) := by
      rw [hget, pairIdx_lowIdx h c hh, if_neg (lt_irrefl c)]
    have hb2 : b.get (lowIdx h c + h) = a.get (lowIdx h c + h) := by
      rw [hget, pairIdx_lowIdx_add h c hh, if_neg (lt_irrefl c)]
    simp only [Buffer.get_write, hb1, hb2]
    by_cases hx2 : x = lowIdx h c + h
    · rw [if_pos hx2, hx2, pairIdx_lowIdx_add h c hh, if_pos (Nat.lt_succ_self c)]
      unfold butterflyValue
      rw [lowIdx_add_div h c hh, lowIdx_add_mod, if_neg (by omega), Nat.add_sub_cancel]
    · rw [if_neg hx2]
      by_cases hx1 : x = lowIdx h c
      · rw [if_pos hx1, hx1, pairIdx_lowIdx h c hh, if_pos (Nat.lt_succ_self c)]
        unfold butterflyValue
        rw [lowIdx_div h c hh, lowIdx_mod, if_pos (by omega)]
      · rw [if_neg hx1, hget]
        have hne : pairIdx h x ≠ c := by
          intro hp
          by_cases he : x / h % 2 = 0
          · exact hx1 (hp ▸ eq_lowIdx_of_even h x hh he)
          · exact hx2 (hp ▸ eq_lowIdx_add_of_odd h x hh he)
        by_cases hlt : pairIdx h x < c
        · rw [if_pos hlt, if_pos (by omega)]
        · rw [if_neg hlt, if_neg (by omega)]

theorem intShl1_eq (k : Nat) (hk : k ≤ 30) : intShl1 k = 2 ^ k := by
  unfold intShl1
  rw [if_pos (by omega)]

theorem FFT.TablesOk.root_eq {F : Type} [CommRing F] {E : FFT F} (hE : E.TablesOk) (t j : Nat)
    (hts : t ≤ E.s) (hj : j < 2 ^ t) :
    E.root t j = .ok ((E.roots.getD 1 0 ^ 2 ^ (E.s - t)) ^ j) := by
  unfold FFT.root
  rw [if_pos hts, Nat.shiftLeft_eq]
  have hlt : j * 2 ^ (E.s - t) < 2 ^ E.s := by
    calc j * 2 ^ (E.s - t) < 2 ^ t * 2 ^ (E.s - t) :=
          Nat.mul_lt_mul_of_pos_right hj (by positivity)
      _ = 2 ^ E.s := by rw [← pow_add]; congr 1; omega
  rw [hE.roots_pow _ hlt]
  simp only
  rw [← pow_mul, Nat.mul_comm]

/-- One stage `t` of the forward transform, for `1 ≤ t ≤ s` and `t ≤ 30`. -/
theorem fftStage_spec {F : Type} [CommRing F] {E : FFT F} (hE : E.TablesOk) (t : Nat)
    (ht1 : 1 ≤ t) (hts : t ≤ E.s) (ht30 : t ≤ 30) (n : Nat) (a : Buffer F) :
    ∃ b, fftStage E n a t = .ok b ∧
      ∀ x, b.get x = if pairIdx (2 ^ (t - 1)) x < n >>> 1 then
        butterflyValue (2 ^ (t - 1)) (fun j => (E.roots.getD 1 0 ^ 2 ^ (E.s - t)) ^ j) a x
        else a.get x := by
  unfold fftStage
  have hm : intShl1 t = 2 * 2 ^ (t - 1) := by
    rw [intShl1_eq t ht30, ← pow_succ']
    congr 1; omega
  have hh : (2 * 2 ^ (t - 1)) >>> 1 = 2 ^ (t - 1) := by
    rw [Nat.shiftRight_eq_div_pow]; simp
  simp only [hm, hh]
  apply foldlM_fftButterfly E t (2 ^ (t - 1)) (by positivity)
  intro j hj
  exact hE.root_eq t j hts (lt_of_lt_of_le hj (Nat.pow_le_pow_right (by norm_num) (by omega)))

/-! ## Bit reversal of one more bit -/

theorem BR_succ_low (t l : Nat) (ht : t + 1 ≤ 32) (hl : l < 2 ^ t) :
    BR l (t + 1) = 2 * BR l t := by
  have hl' : l < 2 ^ (t + 1) := lt_of_lt_of_le hl (Nat.pow_le_pow_right (by norm_num) (by omega))
  apply Nat.eq_of_testBit_eq
  intro i
  rw [BR_testBit l (t + 1) i ht hl']
  cases i with
  | zero =>
    rw [Nat.testBit_zero, Nat.mul_mod_right]
    simp only [Nat.zero_lt_succ, decide_True, Bool.true_and, Nat.add_sub_cancel, Nat.sub_zero]
    rw [Nat.testBit_lt_two_pow hl]
    simp
  | succ i =>
    rw [Nat.testBit_succ, Nat.mul_div_cancel_left _ (by norm_num : 0 < 2),
      BR_testBit l t i (by omega) hl]
    simp only [Nat.add_sub_cancel, Nat.succ_lt_succ_iff]
    congr 2
    omega

theorem BR_succ_high (t l : Nat) (ht : t + 1 ≤ 32) (hl : l < 2 ^ t) :
    BR (2 ^ t + l) (t + 1) = 2 * BR l t + 1 := by
  have hl' : 2 ^ t + l < 2 ^ (t + 1) := by rw [pow_succ]; omega
  apply Nat.eq_of_testBit_eq
  intro i
  rw [BR_testBit _ (t + 1) i ht hl']
  cases i with
  | zero =>
    rw [Nat.testBit_zero]
    simp only [Nat.zero_lt_succ, decide_True, Bool.true_and, Nat.add_sub_cancel, Nat.sub_zero]
    rw [Nat.testBit_two_pow_add_eq, Nat.testBit_lt_two_pow hl]
    simp
    omega
  | succ i =>
    rw [Nat.testBit_succ, show (2 * BR l t + 1) / 2 = BR l t by omega,
      BR_testBit l t i (by omega) hl]
    simp only [Nat.add_sub_cancel, Nat.succ_lt_succ_iff]
    by_cases hi : i < t
    · simp only [hi, decide_True, Bool.true_and]
      rw [show t - (i + 1) = t - 1 - i by omega]
      exact Nat.testBit_two_pow_add_gt (by omega) l
    · simp [hi]

/-! ## The forward transform -/

theorem FFT.TablesOk.pow_two_pow_s {F : Type} [CommRing F] {E : FFT F} (hE : E.TablesOk) :
    E.roots.getD 1 0 ^ 2 ^ E.s = 1 := by
  have h := hE.root_prim
  have hs := hE.s_pos
  have : 2 ^ E.s = 2 ^ (E.s - 1) * 2 := by rw [← pow_succ]; congr 1; omega
  rw [this, pow_mul, h]
  simp

/-- The two halves of a block of width `2h` combine into its transform: the algebra of a
butterfly, for `u` with `u^h = -1`. -/
theorem butterfly_sum {F : Type} [CommRing F] (u : F) (t : Nat) (ht : t + 1 ≤ 32)
    (hu : u ^ 2 ^ t = -1) (f : Nat → F) (j : Nat) :
    (∑ l ∈ Finset.range (2 ^ (t + 1)), f l * u ^ (j * BR l (t + 1)) =
      u ^ j * ∑ l ∈ Finset.range (2 ^ t), f (2 ^ t + l) * (u ^ 2) ^ (j * BR l t) +
        ∑ l ∈ Finset.range (2 ^ t), f l * (u ^ 2) ^ (j * BR l t)) ∧
    (∑ l ∈ Finset.range (2 ^ (t + 1)), f l * u ^ ((2 ^ t + j) * BR l (t + 1)) =
      ∑ l ∈ Finset.range (2 ^ t), f l * (u ^ 2) ^ (j * BR l t) -
        u ^ j * ∑ l ∈ Finset.range (2 ^ t), f (2 ^ t + l) * (u ^ 2) ^ (j * BR l t)) := by
  have hsplit : (2 : Nat) ^ (t + 1) = 2 ^ t + 2 ^ t := by rw [pow_succ]; ring
  have hu2 : ∀ B : Nat, u ^ (2 ^ t * (2 * B)) = 1 := by
    intro B
    rw [pow_mul, hu, pow_mul]
    simp
  constructor
  · rw [hsplit, Finset.sum_range_add, Finset.mul_sum, add_comm]
    congr 1
    · apply Finset.sum_congr rfl
      intro l hl
      rw [BR_succ_high t l ht (Finset.mem_range.mp hl)]
      ring
    · apply Finset.sum_congr rfl
      intro l hl
      rw [BR_succ_low t l ht (Finset.mem_range.mp hl)]
      ring
  · rw [hsplit, Finset.sum_range_add, Finset.mul_sum, sub_eq_add_neg, ← Finset.sum_neg_distrib]
    congr 1
    · apply Finset.sum_congr rfl
      intro l hl
      rw [BR_succ_low t l ht (Finset.mem_range.mp hl)]
      rw [show (2 ^ t + j) * (2 * BR l t) = 2 ^ t * (2 * BR l t) + j * (2 * BR l t) by ring,
        pow_add, hu2]
      ring
    · apply Finset.sum_congr rfl
      intro l hl
      rw [BR_succ_high t l ht (Finset.mem_range.mp hl)]
      rw [show (2 ^ t + j) * (2 * BR l t + 1) =
          2 ^ t * (2 * BR l t) + 2 ^ t + j * (2 * BR l t + 1) by ring,
        pow_add, pow_add, hu2, hu]
      ring

/-- After the stages `1 .. t`, every block of width `2^t` holds the transform of its
(bit-reversed) content with the primitive `2^t`-th root of the table. -/
theorem fft_stages_spec {F : Type} [CommRing F] {E : FFT F} (hE : E.TablesOk) (k : Nat)
    (hks : k ≤ E.s) (hk30 : k ≤ 30) (a0 : Buffer F) (t : Nat) (htk : t ≤ k) :
    ∃ b, (List.range' 1 t).foldlM (fftStage E (2 ^ k)) a0 = .ok b ∧
      ∀ q j, q < 2 ^ (k - t) → j < 2 ^ t →
        b.get (q * 2 ^ t + j) =
          ∑ l ∈ Finset.range (2 ^ t),
            a0.get (q * 2 ^ t + l) * (E.roots.getD 1 0 ^ 2 ^ (E.s - t)) ^ (j * BR l t) := by
  induction t with
  | zero =>
    refine ⟨a0, rfl, ?_⟩
    intro q j _ hj
    have hj0 : j = 0 := by simpa using hj
    subst hj0
    simp
  | succ t ih =>
    obtain ⟨b, hb, hinv⟩ := ih (by omega)
    obtain ⟨b', hb', hst⟩ := fftStage_spec hE (t + 1) (by omega) (by omega) (by omega) (2 ^ k) b
    rw [List.range'_concat, List.foldlM_append, hb]
    simp only [List.foldlM_cons, List.foldlM_nil]
    rw [show 1 + 1 * t = t + 1 by omega]
    refine ⟨b', by simp [hb', bind, Except.bind, pure, Except.pure], ?_⟩
    intro q j hq hj
    set ω := E.roots.getD 1 0 with hω
    set u := ω ^ 2 ^ (E.s - (t + 1)) with hu
    have hu2 : u ^ 2 = ω ^ 2 ^ (E.s - t) := by
      rw [hu, ← pow_mul, ← pow_succ]
      congr 2; omega
    have huh : u ^ 2 ^ t = -1 := by
      rw [hu, ← pow_mul, ← pow_add, ← hE.root_prim]
      congr 2; omega
    have hh : 0 < 2 ^ t := by positivity
    simp only [Nat.add_sub_cancel] at hst
    have hqt : q * 2 ^ (t + 1) = (2 * q) * 2 ^ t := by rw [pow_succ]; ring
    have h2q : 2 * q + 1 < 2 ^ (k - t) := by
      have : 2 ^ (k - t) = 2 * 2 ^ (k - (t + 1)) := by
        rw [← pow_succ']; congr 1; omega
      omega
    -- the butterfly that touches this position has been run
    have hpair : ∀ x, x / 2 ^ t / 2 = q → pairIdx (2 ^ t) x < 2 ^ k >>> 1 := by
      intro x hx
      unfold pairIdx
      rw [hx, Nat.shiftRight_eq_div_pow, pow_one]
      have h1 : 2 ^ k / 2 = 2 ^ (k - (t + 1)) * 2 ^ t := by
        rw [← pow_add, show k - (t + 1) + t = k - 1 by omega]
        have : 2 ^ k = 2 ^ (k - 1) * 2 := by rw [← pow_succ]; congr 1; omega
        rw [this]; simp
      rw [h1]
      have := Nat.mod_lt x hh
      calc q * 2 ^ t + x % 2 ^ t < q * 2 ^ t + 2 ^ t := by omega
        _ = (q + 1) * 2 ^ t := by ring
        _ ≤ 2 ^ (k - (t + 1)) * 2 ^ t := Nat.mul_le_mul_right _ hq
    have hsum := butterfly_sum u t (by omega) huh (fun l => a0.get (q * 2 ^ (t + 1) + l))
    by_cases hjl : j < 2 ^ t
    · -- lower half of the block
      have hxd : (q * 2 ^ (t + 1) + j) / 2 ^ t = 2 * q := by
        rw [hqt, Nat.add_comm, Nat.add_mul_div_right _ _ hh, Nat.div_eq_of_lt hjl]; omega
      have hxm : (q * 2 ^ (t + 1) + j) % 2 ^ t = j := by
        rw [hqt, Nat.add_comm, Nat.add_mul_mod_self_right, Nat.mod_eq_of_lt hjl]
      rw [hst, if_pos (hpair _ (by rw [hxd]; omega))]
      unfold butterflyValue
      rw [hxd, hxm, if_pos (by omega)]
      have e1 : q * 2 ^ (t + 1) + j + 2 ^ t = (2 * q + 1) * 2 ^ t + j := by rw [hqt]; ring
      rw [e1, hinv (2 * q + 1) j h2q hjl, hqt, hinv (2 * q) j (by omega) hjl, ← hu2,
        ← hqt, (hsum j).1]
      congr 2
      · apply Finset.sum_congr rfl
        intro l _
        rw [hqt]; congr 2; ring
    · -- upper half of the block
      have hj' : j = 2 ^ t + (j - 2 ^ t) := by omega
      have hjlt : j - 2 ^ t < 2 ^ t := by rw [pow_succ] at hj; omega
      have hxd : (q * 2 ^ (t + 1) + j) / 2 ^ t = 2 * q + 1 := by
        rw [hqt, hj', show 2 * q * 2 ^ t + (2 ^ t + (j - 2 ^ t)) =
          (j - 2 ^ t) + (2 * q + 1) * 2 ^ t by ring,
          Nat.add_mul_div_right _ _ hh, Nat.div_eq_of_lt hjlt]; omega
      have hxm : (q * 2 ^ (t + 1) + j) % 2 ^ t = j - 2 ^ t := by
        rw [hqt, hj', show 2 * q * 2 ^ t + (2 ^ t + (j - 2 ^ t)) =
          (j - 2 ^ t) + (2 * q + 1) * 2 ^ t by ring,
          Nat.add_mul_mod_self_right, Nat.mod_eq_of_lt hjlt]
        omega
      rw [hst, if_pos (hpair _ (by rw [hxd]; omega))]
      unfold butterflyValue
      rw [hxd, hxm, if_neg (by omega)]
      have e1 : q * 2 ^ (t + 1) + j = (2 * q + 1) * 2 ^ t + (j - 2 ^ t) := by
        rw [hqt]; conv_lhs => rw [hj']
        ring
      have e2 : q * 2 ^ (t + 1) + j - 2 ^ t = (2 * q) * 2 ^ t + (j - 2 ^ t) := by
        rw [hqt]; omega
      rw [e2, e1, hinv (2 * q + 1) _ h2q hjlt, hinv (2 * q) _ (by omega) hjlt, ← hu2,
        ← hqt]
      conv_rhs => rw [hj']
      rw [(hsum (j - 2 ^ t)).2]
      congr 2
      · congr 1
        funext l
        rw [hqt]; congr 2; ring

theorem sum_BR_reindex {M : Type} [AddCommMonoid M] (k : Nat) (hk : k ≤ 32) (g : Nat → M) :
    ∑ l ∈ Finset.range (2 ^ k), g (BR l k) = ∑ l ∈ Finset.range (2 ^ k), g l := by
  apply Finset.sum_nbij' (fun l => BR l k) (fun l => BR l k)
  · intro l hl
    exact Finset.mem_range.mpr (BR_lt l k hk (Finset.mem_range.mp hl))
  · intro l hl
    exact Finset.mem_range.mpr (BR_lt l k hk (Finset.mem_range.mp hl))
  · intro l hl
    exact BR_BR l k hk (Finset.mem_range.mp hl)
  · intro l hl
    exact BR_BR l k hk (Finset.mem_range.mp hl)
  · intro l _
    rfl

/-- The forward transform on an engine whose tables are as described: every element of the
result is the naive sum with `w = ω^(2^(s-k))`. -/
theorem fft_spec {F : Type} [CommRing F] {E : FFT F} (hE : E.TablesOk) (k : Nat)
    (hks : k ≤ E.s) (hk30 : k ≤ 30) (v : Buffer F) :
    ∃ A, E.fft v (2 ^ k) = .ok A ∧
      ∀ i, i < 2 ^ k → A.get i = naiveDFT (E.roots.getD 1 0 ^ 2 ^ (E.s - k)) v (2 ^ k) i := by
  obtain ⟨b0, hb0, hrev, _⟩ := reversePermutation_spec k (by omega) v
  obtain ⟨A, hA, hinv⟩ := fft_stages_spec hE k hks hk30 b0 k (le_refl k)
  refine ⟨A, ?_, ?_⟩
  · unfold FFT.fft
    rw [hb0]
    simp only [log2_pow]
    rw [if_neg (by
      rw [Nat.mod_eq_of_lt (Nat.pow_lt_pow_right (by norm_num) (by omega))]; simp)]
    exact hA
  · intro i hi
    have := hinv 0 i (by simp) hi
    simp only [Nat.zero_mul, Nat.zero_add] at this
    rw [this]
    unfold naiveDFT
    rw [← sum_BR_reindex k (by omega) (fun l => v.get l * (E.roots.getD 1 0 ^ 2 ^ (E.s - k)) ^ (i * l))]
    apply Finset.sum_congr rfl
    intro l hl
    rw [hrev l (Finset.mem_range.mp hl)]

/-! ## The root table of the constructor -/

theorem getD_of_getElem? {α : Type} (l : List α) (i : Nat) (d x : α) (h : l[i]? = some x) :
    l.getD i d = x := by
  rw [List.getD_eq_getElem?_getD, h]; rfl

/-- The inner loop of a span: `cnt` entries from `i` on become powers of `ω`, nothing else
changes. -/
theorem fillSpan_spec {F : Type} [Monoid F] [Zero F] (ω : F) (cnt i : Nat) (roots : List F)
    (hi : 1 ≤ i) (hlen : i + cnt ≤ roots.length) (h1 : roots[1]? = some ω)
    (hprev : roots[i - 1]? = some (ω ^ (i - 1))) :
    (fillSpan cnt i roots).length = roots.length ∧
      ∀ j, (fillSpan cnt i roots)[j]? =
        if i ≤ j ∧ j < i + cnt then some (ω ^ j) else roots[j]? := by
  induction cnt generalizing i roots with
  | zero =>
    simp only [fillSpan, true_and]
    intro j
    rw [if_neg (by omega)]
  | succ cnt ih =>
    unfold fillSpan
    have hv : roots.getD (i - 1) 0 * roots.getD 1 0 = ω ^ i := by
      rw [getD_of_getElem? _ _ _ _ hprev, getD_of_getElem? _ _ _ _ h1, ← pow_succ]
      congr 1; omega
    rw [hv]
    have hlen' : (roots.set i (ω ^ i)).length = roots.length := List.length_set _ _ _
    have h1' : (roots.set i (ω ^ i))[1]? = some ω := by
      rw [List.getElem?_set]
      by_cases hi1 : i = 1
      · subst hi1
        rw [if_pos rfl, if_pos (by omega)]; simp
      · rw [if_neg hi1]; exact h1
    have hprev' : (roots.set i (ω ^ i))[i + 1 - 1]? = some (ω ^ (i + 1 - 1)) := by
      rw [List.getElem?_set, Nat.add_sub_cancel, if_pos rfl, if_pos (by omega)]
    obtain ⟨hl, hget⟩ := ih (i + 1) (roots.set i (ω ^ i)) (by omega) (by rw [hlen']; omega)
      h1' hprev'
    refine ⟨by rw [hl, hlen'], ?_⟩
    intro j
    rw [hget j, List.getElem?_set]
    by_cases hj : i + 1 ≤ j ∧ j < i + 1 + cnt
    · rw [if_pos hj, if_pos (by omega)]
    · rw [if_neg hj]
      by_cases hij : i = j
      · subst hij
        rw [if_pos rfl, if_pos (by omega), if_pos (by omega)]
      · rw [if_neg hij, if_neg (by omega)]

/-- One span: the entries of `[start, end)` become powers of `ω`, nothing else changes. -/
theorem spanBody_spec {F : Type} [Monoid F] [Zero F] (ω : F) (nRoots nSpan idSpan : Nat)
    (roots : List F) (hlen : roots.length = nRoots) (h2 : 2 ≤ nRoots)
    (hid : idSpan < nSpan) (h1 : roots[1]? = some ω) :
    let start := if idSpan = 0 then 2 else idSpan * (nRoots / nSpan)
    let stop := if idSpan = nSpan - 1 then nRoots else (idSpan + 1) * (nRoots / nSpan)
    (spanBody nRoots nSpan roots idSpan).length = nRoots ∧
      ∀ j, (spanBody nRoots nSpan roots idSpan)[j]? =
        if start ≤ j ∧ j < stop then some (ω ^ j) else roots[j]? := by
  intro start stop
  have hstop : stop ≤ nRoots := by
    show (if idSpan = nSpan - 1 then nRoots else (idSpan + 1) * (nRoots / nSpan)) ≤ nRoots
    split
    · exact le_refl _
    · calc (idSpan + 1) * (nRoots / nSpan) ≤ nSpan * (nRoots / nSpan) :=
          Nat.mul_le_mul_right _ hid
        _ ≤ nRoots := Nat.mul_div_le _ _
  unfold spanBody
  simp only
  change ((fillSpan (stop - (start + 1)) (start + 1)
      (if stop > start then roots.set start (roots.getD 1 0 ^ start) else roots)).length = nRoots ∧
    ∀ j, (fillSpan (stop - (start + 1)) (start + 1)
      (if stop > start then roots.set start (roots.getD 1 0 ^ start) else roots))[j]? =
        if start ≤ j ∧ j < stop then some (ω ^ j) else roots[j]?)
  by_cases hse : stop > start
  · rw [if_pos hse, getD_of_getElem? _ _ _ _ h1]
    have hlen' : (roots.set start (ω ^ start)).length = nRoots := by
      rw [List.length_set, hlen]
    have h1' : (roots.set start (ω ^ start))[1]? = some ω := by
      rw [List.getElem?_set]
      by_cases hs1 : start = 1
      · rw [if_pos hs1, if_pos (by omega), hs1]; simp
      · rw [if_neg hs1]; exact h1
    have hprev' : (roots.set start (ω ^ start))[start + 1 - 1]? = some (ω ^ (start + 1 - 1)) := by
      rw [List.getElem?_set, Nat.add_sub_cancel, if_pos rfl, if_pos (by omega)]
    obtain ⟨hl, hget⟩ := fillSpan_spec ω (stop - (start + 1)) (start + 1)
      (roots.set start (ω ^ start)) (by omega) (by rw [hlen']; omega) h1' hprev'
    refine ⟨by rw [hl, hlen'], ?_⟩
    intro j
    rw [hget j, List.getElem?_set]
    by_cases hj : start + 1 ≤ j ∧ j < start + 1 + (stop - (start + 1))
    · rw [if_pos hj, if_pos (by omega)]
    · rw [if_neg hj]
      by_cases hsj : start = j
      · subst hsj
        rw [if_pos rfl, if_pos (by omega), if_pos (by omega)]
      · rw [if_neg hsj, if_neg (by omega)]
  · rw [if_neg hse, show stop - (start + 1) = 0 by omega]
    simp only [fillSpan]
    refine ⟨hlen, ?_⟩
    intro j
    rw [if_neg (by omega)]

/-- The span loop over the spans `[0, c)`: the table is filled with powers of `ω` below
`max 2 (c · increment)`, and completely once the last span has run. -/
theorem foldl_spanBody_spec {F : Type} [Monoid F] [Zero F] (ω : F) (nRoots nSpan : Nat)
    (roots : List F) (hlen : roots.length = nRoots) (h2 : 2 ≤ nRoots)
    (h0 : roots[0]? = some 1) (h1 : roots[1]? = some ω) (c : Nat) (hc : c ≤ nSpan) :
    ((List.range c).foldl (spanBody nRoots nSpan) roots).length = nRoots ∧
      ∀ j, j < (if c = nSpan ∧ 0 < c then nRoots else max 2 (c * (nRoots / nSpan))) →
        j < nRoots → ((List.range c).foldl (spanBody nRoots nSpan) roots)[j]? = some (ω ^ j) := by
  induction c with
  | zero =>
    refine ⟨hlen, ?_⟩
    intro j hj _
    simp only [List.range_zero, List.foldl_nil]
    rw [if_neg (by omega)] at hj
    have : j = 0 ∨ j = 1 := by simp at hj; omega
    rcases this with rfl | rfl
    · simpa using h0
    · simpa using h1
  | succ c ih =>
    obtain ⟨hl, hget⟩ := ih (by omega)
    rw [List.range_succ, List.foldl_append]
    simp only [List.foldl_cons, List.foldl_nil]
    set prev := (List.range c).foldl (spanBody nRoots nSpan) roots with hprev
    have hbound : (if c = nSpan ∧ 0 < c then nRoots else max 2 (c * (nRoots / nSpan))) =
        max 2 (c * (nRoots / nSpan)) := by rw [if_neg (by omega)]
    rw [hbound] at hget
    have hp1 : prev[1]? = some ω := by
      have := hget 1 (by simp) (by omega); simpa using this
    obtain ⟨hl', hget'⟩ := spanBody_spec ω nRoots nSpan c prev hl h2 (by omega) hp1
    refine ⟨hl', ?_⟩
    intro j hj hjn
    rw [hget' j]
    by_cases hin : (if c = 0 then 2 else c * (nRoots / nSpan)) ≤ j ∧
        j < if c = nSpan - 1 then nRoots else (c + 1) * (nRoots / nSpan)
    · rw [if_pos hin]
    · rw [if_neg hin]
      apply hget j _ hjn
      by_contra hge
      apply hin
      have hge' : max 2 (c * (nRoots / nSpan)) ≤ j := not_lt.mp hge
      constructor
      · split
        · exact le_trans (le_max_left _ _) hge'
        · exact le_trans (le_max_right _ _) hge'
      · by_cases hlast : c + 1 = nSpan
        · rw [if_pos (by omega)]; exact hjn
        · rw [if_neg (by omega)]
          rw [if_neg (by omega)] at hj
          exact (lt_max_iff.mp hj).resolve_left (by
            have := le_trans (le_max_left 2 (c * (nRoots / nSpan))) hge'
            omega)

/-- The table built by the constructor holds the powers of its entry 1. -/
theorem rootsTable_spec (r nqr aux s nSpan : Nat) (hs : 1 ≤ s) (hn : 1 ≤ nSpan) :
    (rootsTable r nqr aux s nSpan).length = 2 ^ s ∧
      ∀ j, j < 2 ^ s → (rootsTable r nqr aux s nSpan)[j]? =
        some ((((nqr ^ aux % (r - 1 + 1) : Nat) : ZMod r)) ^ j) := by
  have h2 : 2 ≤ 2 ^ s := by
    calc 2 = 2 ^ 1 := rfl
      _ ≤ 2 ^ s := Nat.pow_le_pow_right (by norm_num) hs
  unfold rootsTable rootsTableOn
  simp only
  rw [if_pos (by omega)]
  have hlen : (((List.replicate (2 ^ s) (0 : ZMod r)).set 0 1).set 1
      ((nqr ^ aux % (r - 1 + 1) : Nat) : ZMod r)).length = 2 ^ s := by simp
  obtain ⟨hl, hget⟩ := foldl_spanBody_spec ((nqr ^ aux % (r - 1 + 1) : Nat) : ZMod r) (2 ^ s)
    nSpan _ hlen h2
    (by rw [List.getElem?_set, if_neg (by omega), List.getElem?_set, if_pos rfl,
          if_pos (by simp)])
    (by rw [List.getElem?_set, if_pos rfl, if_pos (by simp; omega)]) nSpan (le_refl _)
  refine ⟨hl, ?_⟩
  intro j hj
  have hb : j < (if nSpan = nSpan ∧ 0 < nSpan then 2 ^ s else max 2 (nSpan * (2 ^ s / nSpan))) := by
    rw [if_pos ⟨rfl, by omega⟩]; exact hj
  exact hget j hb hj

/-! ## The non-residue, the primitive root and the inverses of two -/

/-- The search for `nqr` stops at the least candidate from `start` on whose power is not 1,
provided there is one within the bound. -/
theorem findNqr_spec (q e fuel start x : Nat) (hx1 : start ≤ x) (hx2 : x < start + fuel)
    (hP : x ^ e % q ≠ 1) :
    (findNqr q e fuel start) ^ e % q ≠ 1 ∧ start ≤ findNqr q e fuel start ∧
      findNqr q e fuel start ≤ x ∧
      ∀ z, start ≤ z → z < findNqr q e fuel start → z ^ e % q = 1 := by
  induction fuel generalizing start with
  | zero => omega
  | succ fuel ih =>
    unfold findNqr
    by_cases h : start ^ e % q = 1
    · rw [if_pos h]
      have hne : start ≠ x := fun hs => hP (hs ▸ h)
      obtain ⟨h1, h2, h3, h4⟩ := ih (start + 1) (by omega) (by omega)
      refine ⟨h1, by omega, h3, ?_⟩
      intro z hz1 hz2
      by_cases hzs : z = start
      · rw [hzs]; exact h
      · exact h4 z (by omega) hz2
    · rw [if_neg h]
      exact ⟨h, le_refl _, hx1, fun z hz1 hz2 => by omega⟩

theorem natCast_eq_one_iff (r n : Nat) (hr : 1 < r) : ((n : ZMod r) = 1) ↔ n % r = 1 := by
  have h := ZMod.natCast_eq_natCast_iff' n 1 r
  rw [Nat.cast_one] at h
  rw [h, Nat.mod_eq_of_lt hr]

/-- Over an odd prime `r`, the `nqr` found by the constructor lies in `[2, r)` and its
`(r-1)/2`-th power is `-1`. -/
theorem findNqr_prime (r : Nat) [hp : Fact r.Prime] (hr2 : r ≠ 2) :
    2 ≤ findNqr r ((r - 1) / 2) r 2 ∧ findNqr r ((r - 1) / 2) r 2 < r ∧
      ((findNqr r ((r - 1) / 2) r 2 : Nat) : ZMod r) ^ ((r - 1) / 2) = -1 := by
  have hr1 : 1 < r := hp.out.one_lt
  have hodd : r % 2 = 1 := (hp.out.eq_two_or_odd).resolve_left hr2
  have he : (r - 1) / 2 = r / 2 := by omega
  obtain ⟨a, ha⟩ := FiniteField.exists_nonsquare (F := ZMod r) (by
    rw [ZMod.ringChar_zmod_n]; exact hr2)
  have ha0 : a ≠ 0 := fun h => ha (by rw [h]; exact ⟨0, by simp⟩)
  have ha1 : a ≠ 1 := fun h => ha (by rw [h]; exact ⟨1, by simp⟩)
  have hapow : a ^ (r / 2) ≠ 1 := fun h => ha ((ZMod.euler_criterion r ha0).mpr h)
  have hval : (a.val : ZMod r) = a := ZMod.natCast_zmod_val a
  have hv0 : a.val ≠ 0 := fun h => ha0 ((ZMod.val_eq_zero a).mp h)
  have hv1 : a.val ≠ 1 := by
    intro h
    apply ha1
    rw [← hval, h, Nat.cast_one]
  have hvlt : a.val < r := ZMod.val_lt a
  have hP : a.val ^ ((r - 1) / 2) % r ≠ 1 := by
    intro h
    apply hapow
    rw [← he, ← hval, ← Nat.cast_pow]
    exact (natCast_eq_one_iff r _ hr1).mpr h
  obtain ⟨h1, h2, h3, _⟩ := findNqr_spec r ((r - 1) / 2) r 2 a.val (by omega) (by omega) hP
  set y := findNqr r ((r - 1) / 2) r 2 with hy
  refine ⟨h2, by omega, ?_⟩
  have hy0 : (y : ZMod r) ≠ 0 := by
    intro h
    rw [ZMod.natCast_zmod_eq_zero_iff_dvd] at h
    have := Nat.le_of_dvd (by omega) h
    omega
  have hne1 : (y : ZMod r) ^ ((r - 1) / 2) ≠ 1 := by
    intro h
    apply h1
    rw [← Nat.cast_pow] at h
    exact (natCast_eq_one_iff r _ hr1).mp h
  have hsq : ((y : ZMod r) ^ ((r - 1) / 2)) ^ 2 = 1 := by
    rw [← pow_mul, show (r - 1) / 2 * 2 = r - 1 by omega]
    exact ZMod.pow_card_sub_one_eq_one hy0
  rcases sq_eq_one_iff.mp hsq with h | h
  · exact absurd h hne1
  · exact h

theorem fillPowTwoInv_eq_fillSpan {F : Type} [Mul F] [Zero F] (cnt i : Nat) (t : List F) :
    fillPowTwoInv cnt i t = fillSpan cnt i t := by
  induction cnt generalizing i t with
  | zero => rfl
  | succ cnt ih => unfold fillPowTwoInv fillSpan; exact ih _ _

/-- For odd `r ≥ 3`, `mpz_invert(2, r)` is an inverse of 2 modulo `r`. -/
theorem mpzInvert_two (r : Nat) (hodd : r % 2 = 1) (hr : 3 ≤ r) :
    2 * mpzInvert 2 r % r = 1 := by
  unfold mpzInvert
  have hex : ∃ x ∈ List.range r, (fun x => decide (2 * x % r = 1)) x = true := by
    refine ⟨(r + 1) / 2, List.mem_range.mpr (by omega), ?_⟩
    simp only [decide_eq_true_eq]
    have : 2 * ((r + 1) / 2) = 1 + r := by omega
    rw [this, Nat.add_mod_right, Nat.mod_eq_of_lt (by omega)]
  rcases hf : (List.range r).find? (fun x => decide (2 * x % r = 1)) with _ | x
  · rw [List.find?_eq_none] at hf
    obtain ⟨x, hx, hpx⟩ := hex
    exact absurd hpx (hf x hx)
  · have := List.find?_some hf
    simpa using this

/-- The table `powTwoInv` of the constructor holds the powers of the inverse of 2. -/
theorem powTwoInvTable_spec (r s : Nat) (hodd : r % 2 = 1) (hr : 3 ≤ r) (hs : 1 ≤ s) (k : Nat)
    (hk : k ≤ s) :
    ∃ c, (powTwoInvTable r s)[k]? = some c ∧ c * 2 ^ k = 1 := by
  have h2 : 2 ≤ 2 ^ s := by
    calc 2 = 2 ^ 1 := rfl
      _ ≤ 2 ^ s := Nat.pow_le_pow_right (by norm_num) hs
  have hr1 : r - 1 + 1 = r := by omega
  set c2 : ZMod r := ((mpzInvert 2 r : Nat) : ZMod r) with hc2
  have hinv : c2 * 2 = 1 := by
    have h := mpzInvert_two r hodd hr
    have h' := (natCast_eq_one_iff r _ (by omega)).mpr h
    push_cast at h'
    rw [mul_comm]; exact h'
  unfold powTwoInvTable
  simp only
  rw [if_pos (by omega), fillPowTwoInv_eq_fillSpan, hr1]
  set t0 : List (ZMod r) := ((List.replicate (s + 1) 0).set 0 1).set 1 c2 with ht0
  have hlen : t0.length = s + 1 := by simp [ht0]
  have h1 : t0[1]? = some c2 := by
    rw [ht0, List.getElem?_set, if_pos rfl, if_pos (by simp; omega)]
  have h0 : t0[0]? = some 1 := by
    rw [ht0, List.getElem?_set, if_neg (by omega), List.getElem?_set, if_pos rfl,
      if_pos (by simp)]
  obtain ⟨_, hget⟩ := fillSpan_spec c2 (s - 1) 2 t0 (by omega) (by rw [hlen]; omega) h1
    (by simpa using h1)
  refine ⟨c2 ^ k, ?_, by rw [← mul_pow, hinv, one_pow]⟩
  rw [hget k]
  by_cases hk2 : 2 ≤ k ∧ k < 2 + (s - 1)
  · rw [if_pos hk2]
  · rw [if_neg hk2]
    have : k = 0 ∨ k = 1 := by omega
    rcases this with rfl | rfl
    · simpa using h0
    · simpa using h1

/-- The tables of every engine that the constructor produces over an odd prime `r` are as
the data model describes them. -/
theorem FFT.new_tablesOk (r : Nat) [hp : Fact r.Prime] (hr2 : r ≠ 2) (n nSpan : Nat)
    (hn : 1 ≤ nSpan) (E : FFT (ZMod r)) (h : FFT.new r n nSpan = .ok E) : E.TablesOk := by
  have hr1 : 1 < r := hp.out.one_lt
  have hodd : r % 2 = 1 := (hp.out.eq_two_or_odd).resolve_left hr2
  have hr3 : 3 ≤ r := by omega
  have hrr : r - 1 + 1 = r := by omega
  unfold FFT.new at h
  rcases hlog : log2 n with e | dp
  · rw [hlog] at h; cases h
  · rw [hlog] at h
    simp only [hrr] at h
    obtain ⟨s1, s2, _, _⟩ := sLoop_spec dp dp ((r - 1) / 2) 1 (by omega)
    set res := sLoop dp dp ((r - 1) / 2) 1 with hres
    set y := findNqr r ((r - 1) / 2) r 2 with hy
    obtain ⟨_, _, hyp⟩ := findNqr_prime r hr2
    obtain ⟨hlen, hget⟩ := rootsTable_spec r y res.1 res.2 nSpan s2 hn
    rw [hrr] at hget
    split at h
    · cases h
    · split at h
      · cases h
      · cases h
        have he : res.1 * 2 ^ (res.2 - 1) = (r - 1) / 2 := by
          have h2 : 2 ^ res.2 = 2 ^ (res.2 - 1) * 2 := by
            rw [← pow_succ]; congr 1; omega
          have h3 : res.1 * 2 ^ (res.2 - 1) * 2 = (r - 1) / 2 * 2 := by
            rw [mul_assoc, ← h2, ← s1]; ring
          omega
        have hω : (rootsTable r y res.1 res.2 nSpan).getD 1 0 = (y : ZMod r) ^ res.1 := by
          have h1 := hget 1 (by
            calc 1 < 2 ^ 1 := by norm_num
              _ ≤ 2 ^ res.2 := Nat.pow_le_pow_right (by norm_num) s2)
          rw [getD_of_getElem? _ _ _ _ h1, pow_one, ZMod.natCast_mod, Nat.cast_pow]
        refine ⟨s2, ?_, ?_, ?_⟩
        · intro i hi
          show (rootsTable r y res.1 res.2 nSpan)[i]? = _
          rw [hget i hi, hω, ZMod.natCast_mod, Nat.cast_pow]
        · show (rootsTable r y res.1 res.2 nSpan).getD 1 0 ^ 2 ^ (res.2 - 1) = -1
          rw [hω, ← pow_mul, he]
          exact hyp
        · intro k hk
          exact powTwoInvTable_spec r res.2 hodd hr3 s2 k hk

/-- Over an odd prime, the assertion of the constructor never fails: the constructor
either produces an engine or throws the range error. -/
theorem FFT.new_ok_or_rangeError (r : Nat) [hp : Fact r.Prime] (hr2 : r ≠ 2) (n nSpan : Nat)
    (hn : 1 ≤ nSpan) (hn0 : n ≠ 0) :
    (∃ E, FFT.new r n nSpan = .ok E) ∨ FFT.new r n nSpan = .error .rangeError := by
  have hr1 : 1 < r := hp.out.one_lt
  have hodd : r % 2 = 1 := (hp.out.eq_two_or_odd).resolve_left hr2
  have hrr : r - 1 + 1 = r := by omega
  obtain ⟨dp, hlog⟩ := log2_ok_of_ne_zero n hn0
  unfold FFT.new
  rw [hlog]
  simp only [hrr]
  obtain ⟨s1, s2, _, _⟩ := sLoop_spec dp dp ((r - 1) / 2) 1 (by omega)
  set res := sLoop dp dp ((r - 1) / 2) 1 with hres
  set y := findNqr r ((r - 1) / 2) r 2 with hy
  obtain ⟨_, _, hyp⟩ := findNqr_prime r hr2
  obtain ⟨hlen, hget⟩ := rootsTable_spec r y res.1 res.2 nSpan s2 hn
  rw [hrr] at hget
  by_cases hs : res.2 < dp
  · right; rw [if_pos hs]
  · left
    rw [if_neg hs]
    have h2 : 2 ≤ 2 ^ res.2 := by
      calc 2 = 2 ^ 1 := rfl
        _ ≤ 2 ^ res.2 := Nat.pow_le_pow_right (by norm_num) s2
    have hlast := hget (2 ^ res.2 - 1) (by omega)
    have hone := hget 1 (by omega)
    have hprod : (rootsTable r y res.1 res.2 nSpan).getD (2 ^ res.2 - 1) 0 *
        (rootsTable r y res.1 res.2 nSpan).getD 1 0 = 1 := by
      rw [getD_of_getElem? _ _ _ _ hlast, getD_of_getElem? _ _ _ _ hone, ← pow_add,
        show 2 ^ res.2 - 1 + 1 = 2 ^ (res.2 - 1) * 2 by
          rw [← pow_succ, show res.2 - 1 + 1 = res.2 by omega]; omega,
        ZMod.natCast_mod, Nat.cast_pow, ← pow_mul, ← mul_assoc]
      have he : res.1 * 2 ^ (res.2 - 1) = (r - 1) / 2 := by
        have h2 : 2 ^ res.2 = 2 ^ (res.2 - 1) * 2 := by
          rw [← pow_succ]; congr 1; omega
        have h3 : res.1 * 2 ^ (res.2 - 1) * 2 = (r - 1) / 2 * 2 := by
          rw [mul_assoc, ← h2, ← s1]; ring
        omega
      rw [he, pow_mul, hyp]
      simp
    rw [if_neg (by rw [hprod]; simp)]
    exact ⟨_, rfl⟩

/-! ## The inverse transform -/

theorem FFT.TablesOk.two_ne_zero {F : Type} [Field F] {E : FFT F} (hE : E.TablesOk) :
    (2 : F) ≠ 0 := by
  obtain ⟨c, _, hc⟩ := hE.inv_pow 1 hE.s_pos
  intro h
  rw [pow_one, h, mul_zero] at hc
  exact zero_ne_one hc

/-- The swap loop of `ifft` over the indices `[1, 1 + c)`: the positions `x` of `[1, c]` and
`[n - c, n - 1]` hold `a[n - x] · powTwoInv[domainPow]`, the others are untouched. -/
theorem foldlM_ifftSwap {F : Type} [CommRing F] (E : FFT F) (n dp : Nat) (κ : F)
    (hκ : E.powTwoInvAt dp = .ok κ) (a : Buffer F) (c : Nat) (hc : c ≤ n >>> 1 - 1) :
    ∃ b, (List.range' 1 c).foldlM (ifftSwap E n dp (n >>> 1)) a = .ok b ∧
      ∀ x, b.get x = if (1 ≤ x ∧ x ≤ c) ∨ (n - c ≤ x ∧ x < n) then a.get (n - x) * κ
        else a.get x := by
  have hn2 : n >>> 1 = n / 2 := by rw [Nat.shiftRight_eq_div_pow, pow_one]
  rw [hn2] at hc
  induction c with
  | zero =>
    refine ⟨a, rfl, ?_⟩
    intro x
    rw [if_neg (by omega)]
  | succ c ih =>
    obtain ⟨b, hb, hget⟩ := ih (by omega)
    rw [List.range'_concat, List.foldlM_append, hb]
    simp only [List.foldlM_cons, List.foldlM_nil, bind, Except.bind, pure, Except.pure]
    unfold ifftSwap
    rw [if_neg (by rw [hn2]; omega), hκ]
    refine ⟨_, rfl, ?_⟩
    intro x
    have e1 : 1 + 1 * c = c + 1 := by omega
    simp only [Buffer.get_write, e1]
    have hb1 : b.get (c + 1) = a.get (c + 1) := by rw [hget, if_neg (by omega)]
    have hb2 : b.get (n - (c + 1)) = a.get (n - (c + 1)) := by rw [hget, if_neg (by omega)]
    rw [hb1, hb2]
    by_cases hx2 : x = n - (c + 1)
    · rw [if_pos hx2, if_pos (by omega), hx2]
      congr 2; omega
    · rw [if_neg hx2]
      by_cases hx1 : x = c + 1
      · rw [if_pos hx1, if_pos (by omega), hx1]
      · rw [if_neg hx1, hget]
        by_cases hin : (1 ≤ x ∧ x ≤ c) ∨ (n - c ≤ x ∧ x < n)
        · rw [if_pos hin, if_pos (by omega)]
        · rw [if_neg hin, if_neg (by omega)]

/-- Sum of the powers of an `n`-th root of unity `z ≠ 1` in a field. -/
theorem geom_sum_root {F : Type} [Field F] (z : F) (n : Nat) (hz : z ^ n = 1) (h : z ≠ 1) :
    ∑ j ∈ Finset.range n, z ^ j = 0 := by
  have := geom_sum_mul z n
  rw [hz, sub_self] at this
  rcases mul_eq_zero.mp this with h0 | h0
  · exact h0
  · exact absurd (sub_eq_zero.mp h0) h

/-- Transforming twice: the naive transform of the naive transform is `n` times the input
read backwards, for `w` of order exactly `n`. -/
theorem naiveDFT_naiveDFT {F : Type} [Field F] (w : F) (n : Nat) (hw : w ^ n = 1)
    (hord : ∀ e, w ^ e = 1 → n ∣ e) (v A : Buffer F)
    (hA : ∀ j, j < n → A.get j = naiveDFT w v n j) (x : Nat) (hx : x < n) :
    naiveDFT w A n ((n - x) % n) = (n : F) * v.get x := by
  unfold naiveDFT
  have h1 : ∀ j ∈ Finset.range n, A.get j * w ^ ((n - x) % n * j) =
      ∑ l ∈ Finset.range n, v.get l * (w ^ (l + (n - x) % n)) ^ j := by
    intro j hj
    rw [hA j (Finset.mem_range.mp hj)]
    unfold naiveDFT
    rw [Finset.sum_mul]
    apply Finset.sum_congr rfl
    intro l _
    rw [mul_assoc, ← pow_add, ← pow_mul]
    congr 2; ring
  rw [Finset.sum_congr rfl h1, Finset.sum_comm]
  have h2 : ∀ l ∈ Finset.range n, ∑ j ∈ Finset.range n, v.get l * (w ^ (l + (n - x) % n)) ^ j =
      if l = x then (n : F) * v.get x else 0 := by
    intro l hl
    have hl' := Finset.mem_range.mp hl
    rw [← Finset.mul_sum]
    have hzn : (w ^ (l + (n - x) % n)) ^ n = 1 := by
      rw [← pow_mul, mul_comm, pow_mul, hw, one_pow]
    have hiff : w ^ (l + (n - x) % n) = 1 ↔ l = x := by
      constructor
      · intro h
        have hd := hord _ h
        by_cases hx0 : x = 0
        · subst hx0
          rw [Nat.sub_zero, Nat.mod_self, Nat.add_zero] at hd
          exact Nat.eq_zero_of_dvd_of_lt hd hl'
        · rw [Nat.mod_eq_of_lt (by omega)] at hd
          obtain ⟨q, hq⟩ := hd
          rcases q with _ | _ | q
          · rw [Nat.mul_zero] at hq; omega
          · rw [Nat.mul_one] at hq; omega
          · rw [show q + 1 + 1 = q + 2 by rfl, Nat.mul_add] at hq
            have := Nat.zero_le (n * q)
            omega
      · intro h
        subst h
        by_cases hx0 : l = 0
        · subst hx0; simp
        · rw [Nat.mod_eq_of_lt (by omega), show l + (n - l) = n by omega, hw]
    by_cases hlx : l = x
    · rw [if_pos hlx, hiff.mpr hlx, hlx]
      simp only [one_pow, Finset.sum_const, Finset.card_range, nsmul_eq_mul, mul_one]
      ring
    · rw [if_neg hlx, geom_sum_root _ n hzn (fun h => hlx (hiff.mp h)), mul_zero]
  rw [Finset.sum_congr rfl h2, Finset.sum_ite_eq' (Finset.range n) x]
  rw [if_pos (Finset.mem_range.mpr hx)]

/-- The root used for length `2^k` has order exactly `2^k`. -/
theorem FFT.TablesOk.stage_root_order {F : Type} [Field F] {E : FFT F} (hE : E.TablesOk)
    (k : Nat) (hks : k ≤ E.s) :
    (E.roots.getD 1 0 ^ 2 ^ (E.s - k)) ^ 2 ^ k = 1 ∧
      ∀ e, (E.roots.getD 1 0 ^ 2 ^ (E.s - k)) ^ e = 1 → 2 ^ k ∣ e := by
  have hone : (E.roots.getD 1 0 ^ 2 ^ (E.s - k)) ^ 2 ^ k = 1 := by
    rw [← pow_mul, ← pow_add, show E.s - k + k = E.s by omega]
    exact hE.pow_two_pow_s
  refine ⟨hone, ?_⟩
  intro e he
  cases k with
  | zero => simp
  | succ k =>
    have hneg : ¬ (E.roots.getD 1 0 ^ 2 ^ (E.s - (k + 1))) ^ 2 ^ k = 1 := by
      rw [← pow_mul, ← pow_add, show E.s - (k + 1) + k = E.s - 1 by omega, hE.root_prim]
      intro h
      have h2 : (2 : F) = 0 := by
        have : (1 : F) + 1 = 0 := by
          nth_rewrite 1 [← h]; simp
        rw [← this]; norm_num
      exact hE.two_ne_zero h2
    haveI : Fact (Nat.Prime 2) := ⟨Nat.prime_two⟩
    have hord := orderOf_eq_prime_pow hneg hone
    rw [← hord]
    exact orderOf_dvd_of_pow_eq_one he

/-- The inverse transform on an engine whose tables are as described: position `x` of the
result is `powTwoInv[k]` times the naive sum at index `(n - x) mod n`. -/
theorem ifft_spec {F : Type} [CommRing F] {E : FFT F} (hE : E.TablesOk) (k : Nat)
    (hks : k ≤ E.s) (hk30 : k ≤ 30) (A : Buffer F) :
    ∃ R κ, E.ifft A (2 ^ k) = .ok R ∧ κ * 2 ^ k = 1 ∧
      ∀ x, x < 2 ^ k → R.get x =
        naiveDFT (E.roots.getD 1 0 ^ 2 ^ (E.s - k)) A (2 ^ k) ((2 ^ k - x) % 2 ^ k) * κ := by
  obtain ⟨B, hB, hBget⟩ := fft_spec hE k hks hk30 A
  obtain ⟨κ, hκ, hκ1⟩ := hE.inv_pow k hks
  have hκ' : E.powTwoInvAt k = .ok κ := by unfold FFT.powTwoInvAt; rw [hκ]
  obtain ⟨b, hb, hbget⟩ := foldlM_ifftSwap E (2 ^ k) k κ hκ' B (2 ^ k >>> 1 - 1) (le_refl _)
  have hn2 : 2 ^ k >>> 1 = 2 ^ k / 2 := by rw [Nat.shiftRight_eq_div_pow, pow_one]
  refine ⟨(b.write 0 (b.get 0 * κ)).write (2 ^ k >>> 1)
    ((b.write 0 (b.get 0 * κ)).get (2 ^ k >>> 1) * κ), κ, ?_, hκ1, ?_⟩
  · unfold FFT.ifft
    rw [hB]
    simp only [log2_pow, hb, hκ']
  · intro x hx
    simp only [Buffer.get_write]
    rw [hn2] at hbget ⊢
    cases k with
    | zero =>
      have hx0 : x = 0 := by simpa using hx
      subst hx0
      have hκone : κ = 1 := by simpa using hκ1
      simp only [pow_zero, Nat.reduceDiv, if_true, Nat.sub_zero, Nat.mod_self]
      rw [hbget 0, if_neg (by omega), hBget 0 (by simp), hκone]
      simp
    | succ k =>
      have heven : 2 ^ (k + 1) = 2 * 2 ^ k := by rw [pow_succ]; ring
      have hpos : 0 < 2 ^ k := by positivity
      have hhalf : 2 ^ (k + 1) / 2 = 2 ^ k := by omega
      rw [hhalf] at hbget ⊢
      by_cases hx2 : x = 2 ^ k
      · rw [if_pos hx2, if_neg (by omega), hbget, if_neg (by omega), hBget _ (by omega), hx2,
          show (2 ^ (k + 1) - 2 ^ k) % 2 ^ (k + 1) = 2 ^ k by
            rw [Nat.mod_eq_of_lt (by omega)]; omega]
      · rw [if_neg hx2]
        by_cases hx0 : x = 0
        · rw [if_pos hx0, hbget, if_neg (by omega), hBget _ (by omega), hx0, Nat.sub_zero,
            Nat.mod_self]
        · rw [if_neg hx0, hbget, if_pos (by omega), hBget _ (by omega),
            Nat.mod_eq_of_lt (by omega)]

/-- C3. On every engine that the constructor produces over an odd prime `r`, for every
vector `v` of length `n = 2^k` with `k ≤ s` (and `k ≤ 30`, the range in which the `int`
expression `1 << s` of the stage loop is exact), `fft(v, n)` returns, and the element at
index `i` is the naive sum `Σ_{j<n} v[j] · w^(i·j)` with `w = roots[2^s / n]` (for `n = 1`
the sum is `v[0]` whatever `w` is). -/
theorem fft_eq_naive (r : Nat) [Fact r.Prime] (hr2 : r ≠ 2) (maxDomainSize nSpan : Nat)
    (hn : 1 ≤ nSpan) (E : FFT (ZMod r)) (hE : FFT.new r maxDomainSize nSpan = .ok E)
    (k : Nat) (hks : k ≤ E.s) (hk30 : k ≤ 30) (v : Buffer (ZMod r)) :
    ∃ A, E.fft v (2 ^ k) = .ok A ∧
      ∀ i, i < 2 ^ k → A.get i = naiveDFT (E.roots.getD (2 ^ E.s / 2 ^ k) 0) v (2 ^ k) i := by
  have hT := FFT.new_tablesOk r hr2 maxDomainSize nSpan hn E hE
  obtain ⟨A, hA, hAget⟩ := fft_spec hT k hks hk30 v
  refine ⟨A, hA, ?_⟩
  intro i hi
  rw [hAget i hi]
  by_cases hk0 : k = 0
  · -- a single element: the sum does not depend on the root
    subst hk0
    have hi0 : i = 0 := by simpa using hi
    subst hi0
    simp [naiveDFT]
  · have hw : E.roots.getD (2 ^ E.s / 2 ^ k) 0 = E.roots.getD 1 0 ^ 2 ^ (E.s - k) := by
      rw [Nat.pow_div hks (by norm_num)]
      exact getD_of_getElem? _ _ _ _
        (hT.roots_pow _ (Nat.pow_lt_pow_right (by norm_num) (by omega)))
    rw [hw]

/-- C3 on the engine built over `r = 17` for `maxDomainSize = 4`, at `n = 4`. -/
theorem fft_eq_naive_witness :
    (17 ≠ 2 ∧ 1 ≤ 10 ∧ FFT.new 17 4 10 = .ok ⟨2, 3, [1, 13, 16, 4], [1, 9, 13]⟩ ∧
      2 ≤ (⟨2, 3, [1, 13, 16, 4], [1, 9, 13]⟩ : FFT (ZMod 17)).s ∧ 2 ≤ 30) ∧
    ∃ A, (⟨2, 3, [1, 13, 16, 4], [1, 9, 13]⟩ : FFT (ZMod 17)).fft ⟨fun i => i⟩ (2 ^ 2) = .ok A ∧
      ∀ i, i < 2 ^ 2 → A.get i =
        naiveDFT ((⟨2, 3, [1, 13, 16, 4], [1, 9, 13]⟩ : FFT (ZMod 17)).roots.getD
          (2 ^ (⟨2, 3, [1, 13, 16, 4], [1, 9, 13]⟩ : FFT (ZMod 17)).s / 2 ^ 2) 0)
          ⟨fun i => i⟩ (2 ^ 2) i :=
  ⟨⟨by decide, by decide, rfl, by decide, by decide⟩,
    @fft_eq_naive 17 ⟨by norm_num⟩ (by decide) 4 10 (by decide) _ rfl 2 (by decide)
      (by decide) ⟨fun i => i⟩⟩

/-- C2. On every engine that the constructor produces over an odd prime `r`, for every
vector `v` of length `n = 2^k` with `k ≤ s` (and `k ≤ 30`), `fft` followed by `ifft` returns
and leaves every element equal to the original element of `v`. -/
theorem ifft_fft (r : Nat) [Fact r.Prime] (hr2 : r ≠ 2) (maxDomainSize nSpan : Nat)
    (hn : 1 ≤ nSpan) (E : FFT (ZMod r)) (hE : FFT.new r maxDomainSize nSpan = .ok E)
    (k : Nat) (hks : k ≤ E.s) (hk30 : k ≤ 30) (v : Buffer (ZMod r)) :
    ∃ A R, E.fft v (2 ^ k) = .ok A ∧ E.ifft A (2 ^ k) = .ok R ∧
      ∀ i, i < 2 ^ k → R.get i = v.get i := by
  have hT := FFT.new_tablesOk r hr2 maxDomainSize nSpan hn E hE
  obtain ⟨A, hA, hAget⟩ := fft_spec hT k hks hk30 v
  obtain ⟨R, κ, hR, hκ, hRget⟩ := ifft_spec hT k hks hk30 A
  obtain ⟨hw, hord⟩ := hT.stage_root_order k hks
  refine ⟨A, R, hA, hR, ?_⟩
  intro i hi
  rw [hRget i hi, naiveDFT_naiveDFT _ (2 ^ k) hw hord v A hAget i hi]
  push_cast
  rw [mul_comm, ← mul_assoc, hκ, one_mul]

/-- C2 on the engine built over `r = 17` for `maxDomainSize = 4`, at `n = 4`. -/
theorem ifft_fft_witness :
    (17 ≠ 2 ∧ 1 ≤ 10 ∧ FFT.new 17 4 10 = .ok ⟨2, 3, [1, 13, 16, 4], [1, 9, 13]⟩ ∧
      2 ≤ (⟨2, 3, [1, 13, 16, 4], [1, 9, 13]⟩ : FFT (ZMod 17)).s ∧ 2 ≤ 30) ∧
    ∃ A R, (⟨2, 3, [1, 13, 16, 4], [1, 9, 13]⟩ : FFT (ZMod 17)).fft ⟨fun i => i⟩ (2 ^ 2) = .ok A ∧
      (⟨2, 3, [1, 13, 16, 4], [1, 9, 13]⟩ : FFT (ZMod 17)).ifft A (2 ^ 2) = .ok R ∧
      ∀ i, i < 2 ^ 2 → R.get i = (⟨fun i => i⟩ : Buffer (ZMod 17)).get i :=
  ⟨⟨by decide, by decide, rfl, by decide, by decide⟩,
    @ifft_fft 17 ⟨by norm_num⟩ (by decide) 4 10 (by decide) _ rfl 2 (by decide)
      (by decide) ⟨fun i => i⟩⟩


/-! ## multiexp: scatter -/

theorem scatterInto_get {G : Type} [AddCommGroup G] (pm : ParallelMultiexp G)
    (c t : Nat) (accs : Buffer G) (i idx : Nat) :
    (pm.scatterInto c t accs i).get idx =
      accs.get idx + (if pm.getChunk i c ≠ 0 ∧ t * pm.accsPerChunk + pm.getChunk i c = idx
        then pm.bases i else 0) := by
  unfold ParallelMultiexp.scatterInto
  by_cases h : pm.getChunk i c ≠ 0
  · simp only [h, if_true, Buffer.get_write, ne_eq, not_false_eq_true, true_and]
    by_cases hx : idx = t * pm.accsPerChunk + pm.getChunk i c
    · rw [if_pos hx, if_pos hx.symm, hx]
    · rw [if_neg hx, if_neg (fun h' => hx h'.symm), add_zero]
  · simp only [h, if_false, false_and, add_zero]

/-- The scatter loop with an inclusion test `incl` in front of the common tail: every
bucket receives the bases of the included indices whose chunk value and worker select it. -/
theorem foldl_scatter_get {G : Type} [AddCommGroup G] (pm : ParallelMultiexp G) (c : Nat)
    (tid : Nat → Nat) (incl : Nat → Prop) [DecidablePred incl] (accs : Buffer G)
    (N idx : Nat) :
    ((List.range N).foldl
        (fun accs i => if incl i then pm.scatterInto c (tid i) accs i else accs) accs).get idx =
      accs.get idx + ∑ i ∈ Finset.range N,
        (if incl i ∧ pm.getChunk i c ≠ 0 ∧ tid i * pm.accsPerChunk + pm.getChunk i c = idx
          then pm.bases i else 0) := by
  induction N with
  | zero => simp
  | succ N ih =>
    rw [List.range_succ, List.foldl_append, Finset.sum_range_succ]
    simp only [List.foldl_cons, List.foldl_nil]
    by_cases hin : incl N
    · rw [if_pos hin, scatterInto_get, ih]
      simp only [hin, true_and]
      abel
    · rw [if_neg hin, ih]
      simp only [hin, false_and, if_false, add_zero]

theorem processChunk_eq {G : Type} [AddCommGroup G] [DecidableEq G] (pm : ParallelMultiexp G)
    (c : Nat) (tid : Nat → Fin pm.nThreads) (accs : Buffer G) :
    pm.processChunk c tid accs =
      (List.range (pm.n % 2 ^ 32)).foldl
        (fun accs i => if pm.bases i ≠ 0 then pm.scatterInto c (tid i).val accs i else accs)
        accs := by
  unfold ParallelMultiexp.processChunk
  congr 1
  funext accs i
  unfold ParallelMultiexp.processChunkStep
  by_cases h : pm.bases i = 0 <;> simp [h]

/-- The mask of the masked overload: index `i` is kept when `i ≤ len · nX + mod`, computed on
`uint64_t`. -/
theorem processChunkMasked_eq {G : Type} [AddCommGroup G] [DecidableEq G]
    (pm : ParallelMultiexp G) (c nX : Nat) (size : Nat → Nat) (tid : Nat → Fin pm.nThreads)
    (accs : Buffer G) :
    pm.processChunkMasked c nX size tid accs =
      (List.range pm.n).foldl
        (fun accs i =>
          if i ≤ ((size (i % nX) + 2 ^ 64 - 1) % 2 ^ 64 * nX + i % nX) % 2 ^ 64 ∧ pm.bases i ≠ 0
          then pm.scatterInto c (tid i).val accs i else accs) accs := by
  unfold ParallelMultiexp.processChunkMasked
  congr 1
  funext accs i
  unfold ParallelMultiexp.processChunkMaskedStep
  simp only
  by_cases h1 : i > ((size (i % nX) + 2 ^ 64 - 1) % 2 ^ 64 * nX + i % nX) % 2 ^ 64
  · rw [if_pos h1, if_neg (by omega)]
  · rw [if_neg h1]
    by_cases h2 : pm.bases i = 0
    · rw [if_pos h2, if_neg (by simp [h2])]
    · rw [if_neg h2, if_pos ⟨by omega, h2⟩]

/-! ## multiexp: pack -/

theorem packStep_get {G : Type} [AddCommGroup G] [DecidableEq G] (pm : ParallelMultiexp G)
    (i j : Nat) (accs : Buffer G) (x : Nat) :
    (pm.packStep i accs j).get x =
      if x = j * pm.accsPerChunk + i then 0
      else if x = i then accs.get i + accs.get (j * pm.accsPerChunk + i) else accs.get x := by
  unfold ParallelMultiexp.packStep
  by_cases h : accs.get (j * pm.accsPerChunk + i) ≠ 0
  · simp only [h, if_true, Buffer.get_write, ne_eq, not_false_eq_true]
  · have h0 : accs.get (j * pm.accsPerChunk + i) = 0 := by simpa using h
    simp only [h, if_false]
    by_cases hx : x = j * pm.accsPerChunk + i
    · rw [if_pos hx, hx, h0]
    · rw [if_neg hx]
      by_cases hxi : x = i
      · rw [if_pos hxi, h0, add_zero, hxi]
      · rw [if_neg hxi]

/-- The inner loop of `packThreads` for bucket `i`, over the stripes `[1, 1 + m)`. -/
theorem foldl_packStep_get {G : Type} [AddCommGroup G] [DecidableEq G]
    (pm : ParallelMultiexp G) (hA : 0 < pm.accsPerChunk) (i : Nat) (hi : i < pm.accsPerChunk)
    (accs : Buffer G) (m x : Nat) :
    ((List.range' 1 m).foldl (pm.packStep i) accs).get x =
      if x = i then ∑ t ∈ Finset.range (m + 1), accs.get (t * pm.accsPerChunk + i)
      else if x % pm.accsPerChunk = i ∧ x / pm.accsPerChunk ≤ m then 0 else accs.get x := by
  induction m generalizing x with
  | zero =>
    simp only [List.range'_zero, List.foldl_nil, Finset.range_one, Finset.sum_singleton,
      Nat.zero_mul, Nat.zero_add, Nat.le_zero]
    by_cases hx : x = i
    · rw [if_pos hx, hx]
    · rw [if_neg hx, if_neg]
      rintro ⟨h1, h2⟩
      apply hx
      have := Nat.div_add_mod x pm.accsPerChunk
      rw [h2, h1] at this
      simpa using this.symm
  | succ m ih =>
    rw [List.range'_concat, List.foldl_append]
    simp only [List.foldl_cons, List.foldl_nil]
    have e1 : 1 + 1 * m = m + 1 := by omega
    rw [e1]
    have hmod : ((m + 1) * pm.accsPerChunk + i) % pm.accsPerChunk = i := by
      rw [Nat.add_comm, Nat.add_mul_mod_self_right, Nat.mod_eq_of_lt hi]
    have hdiv : ((m + 1) * pm.accsPerChunk + i) / pm.accsPerChunk = m + 1 := by
      rw [Nat.add_comm, Nat.add_mul_div_right _ _ hA, Nat.div_eq_of_lt hi]; omega
    have hne : (m + 1) * pm.accsPerChunk + i ≠ i := by
      intro h
      have := congrArg (· / pm.accsPerChunk) h
      simp only [hdiv, Nat.div_eq_of_lt hi] at this
      omega
    rw [packStep_get pm i (m + 1)]
    by_cases hx1 : x = (m + 1) * pm.accsPerChunk + i
    · rw [if_pos hx1, if_neg (hx1 ▸ hne), if_pos]
      rw [hx1, hmod, hdiv]
      exact ⟨rfl, le_refl _⟩
    · rw [if_neg hx1]
      by_cases hx : x = i
      · rw [if_pos hx, if_pos hx, ih i, if_pos rfl, ih, if_neg hne,
          if_neg (by rw [hmod, hdiv]; omega), Finset.sum_range_succ (n := m + 1)]
      · rw [if_neg hx, if_neg hx, ih x, if_neg hx]
        by_cases hc : x % pm.accsPerChunk = i ∧ x / pm.accsPerChunk ≤ m
        · rw [if_pos hc, if_pos ⟨hc.1, by omega⟩]
        · rw [if_neg hc, if_neg]
          rintro ⟨h1, h2⟩
          have h3 : x / pm.accsPerChunk = m + 1 := by
            by_contra h3
            exact hc ⟨h1, by omega⟩
          apply hx1
          have := Nat.div_add_mod x pm.accsPerChunk
          rw [h3, h1] at this
          rw [← this]; ring

/-- `packThreads`: bucket `x` of stripe 0 receives the sum of bucket `x` over all stripes,
the buckets of the other stripes are zero, and nothing else changes. -/
theorem packThreads_get {G : Type} [AddCommGroup G] [DecidableEq G]
    (pm : ParallelMultiexp G) (hA : 0 < pm.accsPerChunk) (hP : 1 ≤ pm.nThreads)
    (accs : Buffer G) (x : Nat) :
    (pm.packThreads accs).get x =
      if x < pm.accsPerChunk then
        ∑ t ∈ Finset.range pm.nThreads, accs.get (t * pm.accsPerChunk + x)
      else if x / pm.accsPerChunk < pm.nThreads then 0 else accs.get x := by
  unfold ParallelMultiexp.packThreads
  have key : ∀ m, m ≤ pm.accsPerChunk → ∀ x,
      ((List.range m).foldl
        (fun accs i => (List.range' 1 (pm.nThreads - 1)).foldl (pm.packStep i) accs) accs).get x =
      if x % pm.accsPerChunk < m then
        (if x < pm.accsPerChunk then
          ∑ t ∈ Finset.range pm.nThreads, accs.get (t * pm.accsPerChunk + x)
        else if x / pm.accsPerChunk < pm.nThreads then 0 else accs.get x)
      else accs.get x := by
    intro m
    induction m with
    | zero => intro _ x; simp
    | succ m ih =>
      intro hm x
      have ih' := ih (by omega)
      rw [List.range_succ, List.foldl_append]
      simp only [List.foldl_cons, List.foldl_nil]
      rw [foldl_packStep_get pm hA m (by omega), show pm.nThreads - 1 + 1 = pm.nThreads by omega]
      have hstripe : ∀ t, ((List.range m).foldl
          (fun accs i => (List.range' 1 (pm.nThreads - 1)).foldl (pm.packStep i) accs)
            accs).get (t * pm.accsPerChunk + m) = accs.get (t * pm.accsPerChunk + m) := by
        intro t
        rw [ih', if_neg]
        rw [Nat.add_comm, Nat.add_mul_mod_self_right, Nat.mod_eq_of_lt (by omega)]
        omega
      by_cases hxm : x = m
      · rw [if_pos hxm, hxm, if_pos (by rw [Nat.mod_eq_of_lt (by omega)]; omega),
          if_pos (by omega)]
        exact Finset.sum_congr rfl (fun t _ => hstripe t)
      · rw [if_neg hxm]
        by_cases hc : x % pm.accsPerChunk = m ∧ x / pm.accsPerChunk ≤ pm.nThreads - 1
        · rw [if_pos hc, if_pos (by omega)]
          have hxA : ¬ x < pm.accsPerChunk := by
            intro h
            rw [Nat.mod_eq_of_lt h] at hc
            exact hxm hc.1
          rw [if_neg hxA, if_pos (by omega)]
        · rw [if_neg hc, ih' x]
          by_cases hlt : x % pm.accsPerChunk < m
          · rw [if_pos hlt, if_pos (show x % pm.accsPerChunk < m + 1 by omega)]
          · rw [if_neg hlt]
            by_cases heq : x % pm.accsPerChunk = m
            · have hge : ¬ x / pm.accsPerChunk < pm.nThreads := by
                intro h; exact hc ⟨heq, by omega⟩
              have hxA : ¬ x < pm.accsPerChunk := by
                intro h
                rw [Nat.div_eq_of_lt h] at hge
                omega
              rw [if_pos (show x % pm.accsPerChunk < m + 1 by omega), if_neg hxA, if_neg hge]
            · rw [if_neg (show ¬ x % pm.accsPerChunk < m + 1 by omega)]
  rw [key pm.accsPerChunk (le_refl _) x, if_pos (Nat.mod_lt _ hA)]

/-! ## multiexp: reduce -/

theorem reduceStep_fst_get {G : Type} [AddCommGroup G] [DecidableEq G] {nThreads : Nat}
    (ndiv2 : Nat) (tid : Nat → Fin nThreads) (st : Buffer G × Buffer G) (i x : Nat) :
    (reduceStep ndiv2 tid st i).1.get x =
      if x = ndiv2 + i then 0
      else if x = i then st.1.get i + st.1.get (ndiv2 + i) else st.1.get x := by
  unfold reduceStep
  by_cases h : st.1.get (ndiv2 + i) ≠ 0
  · simp only [h, if_true, Buffer.get_write, ne_eq, not_false_eq_true]
  · have h0 : st.1.get (ndiv2 + i) = 0 := by simpa using h
    simp only [h, if_false]
    by_cases hx : x = ndiv2 + i
    · rw [if_pos hx, hx, h0]
    · rw [if_neg hx]
      by_cases hxi : x = i
      · rw [if_pos hxi, h0, add_zero, hxi]
      · rw [if_neg hxi]

theorem sum_write {G : Type} [AddCommGroup G] (s : Buffer G) (P t : Nat) (ht : t < P) (v : G) :
    ∑ u ∈ Finset.range P, (s.write t v).get u =
      ∑ u ∈ Finset.range P, s.get u - s.get t + v := by
  have h1 := Finset.add_sum_erase (Finset.range P) (fun u => (s.write t v).get u)
    (Finset.mem_range.mpr ht)
  have h2 := Finset.add_sum_erase (Finset.range P) (fun u => s.get u) (Finset.mem_range.mpr ht)
  have h3 : ∑ u ∈ (Finset.range P).erase t, (s.write t v).get u =
      ∑ u ∈ (Finset.range P).erase t, s.get u := by
    apply Finset.sum_congr rfl
    intro u hu
    rw [Buffer.get_write, if_neg (Finset.ne_of_mem_erase hu)]
  rw [← h1, ← h2, h3]
  simp only [Buffer.get_write, if_true]
  abel

theorem reduceStep_snd_sum {G : Type} [AddCommGroup G] [DecidableEq G] {nThreads : Nat}
    (ndiv2 : Nat) (hnd : 0 < ndiv2) (tid : Nat → Fin nThreads) (st : Buffer G × Buffer G)
    (i : Nat) :
    ∑ u ∈ Finset.range nThreads, (reduceStep ndiv2 tid st i).2.get u =
      ∑ u ∈ Finset.range nThreads, st.2.get u + st.1.get (ndiv2 + i) := by
  unfold reduceStep
  by_cases h : st.1.get (ndiv2 + i) ≠ 0
  · simp only [h, if_true, ne_eq, not_false_eq_true]
    rw [sum_write _ _ _ (tid i).isLt, Buffer.get_write, if_neg (by omega)]
    abel
  · have h0 : st.1.get (ndiv2 + i) = 0 := by simpa using h
    simp only [h, if_false]
    rw [h0, add_zero]

/-- The folding loop of `reduce` over the indices `[0, m)`. -/
theorem foldl_reduceStep {G : Type} [AddCommGroup G] [DecidableEq G] {nThreads : Nat}
    (ndiv2 : Nat) (hnd : 0 < ndiv2) (tid : Nat → Fin nThreads) (accs sall : Buffer G)
    (m : Nat) (hm : m ≤ ndiv2) :
    (∀ x, ((List.range m).foldl (reduceStep ndiv2 tid) (accs, sall)).1.get x =
      if x < m then accs.get x + accs.get (ndiv2 + x)
      else if ndiv2 ≤ x ∧ x < ndiv2 + m then 0 else accs.get x) ∧
    ∑ u ∈ Finset.range nThreads,
        ((List.range m).foldl (reduceStep ndiv2 tid) (accs, sall)).2.get u =
      ∑ u ∈ Finset.range nThreads, sall.get u +
        ∑ i ∈ Finset.range m, accs.get (ndiv2 + i) := by
  induction m with
  | zero =>
    constructor
    · intro x
      simp only [List.range_zero, List.foldl_nil]
      rw [if_neg (by omega), if_neg (by omega)]
    · simp
  | succ m ih =>
    obtain ⟨ih1, ih2⟩ := ih (by omega)
    rw [List.range_succ, List.foldl_append]
    simp only [List.foldl_cons, List.foldl_nil]
    have hm1 : ((List.range m).foldl (reduceStep ndiv2 tid) (accs, sall)).1.get m =
        accs.get m := by
      rw [ih1 m, if_neg (lt_irrefl m), if_neg (by omega)]
    have hm2 : ((List.range m).foldl (reduceStep ndiv2 tid) (accs, sall)).1.get (ndiv2 + m) =
        accs.get (ndiv2 + m) := by
      rw [ih1 (ndiv2 + m), if_neg (by omega), if_neg (by omega)]
    constructor
    · intro x
      rw [reduceStep_fst_get, hm1, hm2, ih1 x]
      split_ifs <;> first | rfl | (exfalso; omega) | (subst_vars; rfl)
    · rw [reduceStep_snd_sum ndiv2 hnd, ih2, hm2, Finset.sum_range_succ]
      abel

theorem foldl_addSall_get {G : Type} [AddCommGroup G] (nd : Nat) (sall : Buffer G) (P : Nat)
    (a : Buffer G) (x : Nat) :
    ((List.range P).foldl (fun accs i => accs.write nd (accs.get nd + sall.get i)) a).get x =
      if x = nd then a.get nd + ∑ i ∈ Finset.range P, sall.get i else a.get x := by
  induction P with
  | zero =>
    simp only [List.range_zero, List.foldl_nil, Finset.range_zero, Finset.sum_empty, add_zero]
    split_ifs with h
    · rw [h]
    · rfl
  | succ P ih =>
    rw [List.range_succ, List.foldl_append, Finset.sum_range_succ]
    simp only [List.foldl_cons, List.foldl_nil, Buffer.get_write]
    by_cases hx : x = nd
    · rw [if_pos hx, if_pos hx]
      have := ih
      rw [if_pos hx] at this
      rw [hx] at this
      rw [this]; abel
    · rw [if_neg hx, if_neg hx, ih, if_neg hx]

theorem foldl_dbl_get {G : Type} [AddCommGroup G] (nd m : Nat) (a : Buffer G) (x : Nat) :
    ((List.range m).foldl (fun accs _ => accs.write nd (accs.get nd + accs.get nd)) a).get x =
      if x = nd then 2 ^ m • a.get nd else a.get x := by
  induction m generalizing x with
  | zero =>
    simp only [List.range_zero, List.foldl_nil, pow_zero, one_smul]
    split_ifs with h
    · rw [h]
    · rfl
  | succ m ih =>
    rw [List.range_succ, List.foldl_append]
    simp only [List.foldl_cons, List.foldl_nil, Buffer.get_write]
    by_cases hx : x = nd
    · rw [if_pos hx, if_pos hx, ih nd, if_pos rfl, pow_succ, mul_smul, two_nsmul, smul_add]
    · rw [if_neg hx, if_neg hx, ih x, if_neg hx]

/-- `reduce(res, nBits)` for `1 ≤ nBits ≤ 31`, whatever the worker assignment: `res` is
`Σ_b b · accs[b]` over the buckets `b < 2^nBits`, these buckets except bucket 0 are zero
afterwards, and the buckets from `2^nBits` on are untouched. -/
theorem reduce_spec {G : Type} [AddCommGroup G] [DecidableEq G] (nThreads : Nat)
    (tid : Nat → Nat → Fin nThreads) (k : Nat) (hk : k + 1 ≤ 31) (accs : Buffer G) :
    (reduce nThreads tid (k + 1) accs).1 =
        ∑ v ∈ Finset.range (2 ^ (k + 1)), v • accs.get v ∧
      (∀ x, 1 ≤ x → x < 2 ^ (k + 1) → (reduce nThreads tid (k + 1) accs).2.get x = 0) ∧
      (∀ x, 2 ^ (k + 1) ≤ x → (reduce nThreads tid (k + 1) accs).2.get x = accs.get x) := by
  induction k generalizing accs with
  | zero =>
    refine ⟨?_, ?_, ?_⟩
    · show accs.get 1 = _
      simp [Finset.sum_range_succ]
    · intro x h1 h2
      show (accs.write 1 0).get x = 0
      rw [Buffer.get_write, if_pos (by omega)]
    · intro x h1
      show (accs.write 1 0).get x = _
      rw [Buffer.get_write, if_neg (by simp at h1; omega)]
  | succ k ih =>
    have hnd : intShl1 (k + 1) = 2 ^ (k + 1) := intShl1_eq _ (by omega)
    have hpos : 0 < 2 ^ (k + 1) := by positivity
    -- the state after the folding loop and the serial fold
    obtain ⟨hf1, hf2⟩ := foldl_reduceStep (2 ^ (k + 1)) hpos (tid (k + 2)) accs
      (Buffer.fill 0) (2 ^ (k + 1)) (le_refl _)
    set st := (List.range (2 ^ (k + 1))).foldl (reduceStep (2 ^ (k + 1)) (tid (k + 2)))
      (accs, Buffer.fill 0) with hst
    set a2 := (List.range nThreads).foldl
      (fun accs i => accs.write (2 ^ (k + 1)) (accs.get (2 ^ (k + 1)) + st.2.get i)) st.1
      with ha2
    have hS : ∑ u ∈ Finset.range nThreads, st.2.get u =
        ∑ i ∈ Finset.range (2 ^ (k + 1)), accs.get (2 ^ (k + 1) + i) := by
      rw [hf2]; simp
    have ha2get : ∀ x, a2.get x =
        if x = 2 ^ (k + 1) then ∑ i ∈ Finset.range (2 ^ (k + 1)), accs.get (2 ^ (k + 1) + i)
        else st.1.get x := by
      intro x
      rw [ha2, foldl_addSall_get, hS]
      by_cases hx : x = 2 ^ (k + 1)
      · rw [if_pos hx, if_pos hx, hf1, if_neg (by omega), if_pos (by omega), zero_add]
      · rw [if_neg hx, if_neg hx]
    obtain ⟨hr1, hr2, hr3⟩ := ih (by omega) a2
    set rec := reduce nThreads tid (k + 1) a2 with hrec
    set a4 := (List.range (k + 1)).foldl
      (fun accs _ => accs.write (2 ^ (k + 1)) (accs.get (2 ^ (k + 1)) + accs.get (2 ^ (k + 1))))
      rec.2 with ha4
    have hunfold : reduce nThreads tid (k + 1 + 1) accs =
        (rec.1 + a4.get (2 ^ (k + 1)), a4.write (2 ^ (k + 1)) 0) := by
      show reduce nThreads tid (k + 2) accs = _
      rw [reduce]
      simp only [hnd]
    rw [hunfold]
    have ha4get : ∀ x, a4.get x =
        if x = 2 ^ (k + 1) then 2 ^ (k + 1) • rec.2.get (2 ^ (k + 1)) else rec.2.get x := by
      intro x; rw [ha4, foldl_dbl_get]
    have hrecnd : rec.2.get (2 ^ (k + 1)) =
        ∑ i ∈ Finset.range (2 ^ (k + 1)), accs.get (2 ^ (k + 1) + i) := by
      rw [hr3 _ (le_refl _), ha2get, if_pos rfl]
    refine ⟨?_, ?_, ?_⟩
    · show rec.1 + a4.get (2 ^ (k + 1)) = _
      rw [ha4get, if_pos rfl, hrecnd, hr1]
      have hsplit : (2 : Nat) ^ (k + 1 + 1) = 2 ^ (k + 1) + 2 ^ (k + 1) := by
        rw [pow_succ]; ring
      rw [hsplit, Finset.sum_range_add, Finset.smul_sum, ← Finset.sum_add_distrib,
        ← Finset.sum_add_distrib]
      apply Finset.sum_congr rfl
      intro v hv
      have hv' := Finset.mem_range.mp hv
      rw [ha2get, if_neg (by omega), hf1, if_pos hv']
      rw [smul_add, add_smul]
      abel
    · intro x h1 h2
      show (a4.write (2 ^ (k + 1)) 0).get x = 0
      rw [Buffer.get_write]
      by_cases hx : x = 2 ^ (k + 1)
      · rw [if_pos hx]
      · rw [if_neg hx, ha4get, if_neg hx]
        by_cases hlt : x < 2 ^ (k + 1)
        · exact hr2 x h1 hlt
        · rw [hr3 x (by omega), ha2get, if_neg hx, hf1, if_neg (by omega), if_pos]
          rw [pow_succ] at h2
          omega
    · intro x h1
      show (a4.write (2 ^ (k + 1)) 0).get x = _
      have h2 : 2 ^ (k + 1 + 1) = 2 ^ (k + 1) + 2 ^ (k + 1) := by rw [pow_succ]; ring
      rw [Buffer.get_write, if_neg (by omega), ha4get, if_neg (by omega), hr3 x (by omega),
        ha2get, if_neg (by omega), hf1, if_neg (by omega), if_neg (by omega)]

/-! ## multiexp: chunk extraction -/

theorem loadLE_lt (mem : Nat → Fin 256) (a k : Nat) : loadLE mem a k < 256 ^ k := by
  induction k generalizing a with
  | zero => simp [loadLE]
  | succ k ih =>
    unfold loadLE
    have h1 := (mem a).isLt
    have h2 := ih (a + 1)
    rw [pow_succ]
    omega

theorem loadLE_add (mem : Nat → Fin 256) (a x y : Nat) :
    loadLE mem a (x + y) = loadLE mem a x + 256 ^ x * loadLE mem (a + x) y := by
  induction x generalizing a with
  | zero => simp [loadLE]
  | succ x ih =>
    have e1 : loadLE mem a (x + 1 + y) = (mem a).val + 256 * loadLE mem (a + 1) (x + y) := by
      rw [show x + 1 + y = (x + y) + 1 by omega]; rfl
    have e2 : loadLE mem a (x + 1) = (mem a).val + 256 * loadLE mem (a + 1) x := rfl
    rw [e1, e2, ih (a + 1), show a + 1 + x = a + (x + 1) by omega, pow_succ]
    ring

/-- The 8-byte load at offset `B` inside a scalar of `W ≥ B + 8` bytes. -/
theorem loadLE_window (mem : Nat → Fin 256) (a W B : Nat) (hB : B + 8 ≤ W) :
    loadLE mem (a + B) 8 = loadLE mem a W / 256 ^ B % 256 ^ 8 := by
  have hW : W = B + (8 + (W - B - 8)) := by omega
  rw [hW, loadLE_add, loadLE_add mem (a + B)]
  have h1 := loadLE_lt mem a B
  have h2 := loadLE_lt mem (a + B) 8
  rw [Nat.add_comm (loadLE mem a B), Nat.mul_add_div (by positivity),
    Nat.div_eq_of_lt h1, Nat.add_zero, Nat.add_mul_mod_self_left, Nat.mod_eq_of_lt h2]

theorem scalarValue_lt (scalars : Nat → Fin 256) (W i : Nat) :
    scalarValue scalars W i < 2 ^ (W * 8) := by
  unfold scalarValue
  have := loadLE_lt scalars (i * W) W
  rw [show (256 : Nat) = 2 ^ 8 by norm_num, ← pow_mul, Nat.mul_comm 8 W] at this
  exact this

theorem mod_div_mod (X sh e : Nat) (h : sh + e ≤ 64) :
    (X % 2 ^ 64) / 2 ^ sh % 2 ^ e = X / 2 ^ sh % 2 ^ e := by
  have h64 : (2 : Nat) ^ 64 = 2 ^ sh * 2 ^ (64 - sh) := by
    rw [← pow_add]; congr 1; omega
  rw [h64, Nat.mod_mul_right_div_self]
  exact Nat.mod_mod_of_dvd _ (Nat.pow_dvd_pow 2 (by omega))

/-- What `getChunk` returns: the `bitsPerChunk` bits of scalar `i` from bit
`c · bitsPerChunk` on, for scalars of at least 8 bytes, chunks of 1 to 16 bits, and a chunk
that starts inside the scalar. -/
theorem getChunk_eq {G : Type} (pm : ParallelMultiexp G) (hW : 8 ≤ pm.scalarSize)
    (hb1 : 1 ≤ pm.bitsPerChunk) (hb : pm.bitsPerChunk ≤ 16) (i c : Nat)
    (hc : c * pm.bitsPerChunk < pm.scalarSize * 8) :
    pm.getChunk i c =
      scalarValue pm.scalars pm.scalarSize i / 2 ^ (c * pm.bitsPerChunk) %
        2 ^ pm.bitsPerChunk := by
  unfold ParallelMultiexp.getChunk
  simp only
  have hlim : (if pm.scalarSize < 8 then pm.scalarSize + 2 ^ 64 - 8 else pm.scalarSize - 8) =
      pm.scalarSize - 8 := if_neg (by omega)
  rw [hlim]
  set W := pm.scalarSize with hWdef
  set b := pm.bitsPerChunk with hbdef
  set S := scalarValue pm.scalars W i with hS
  have hSlt : S < 2 ^ (W * 8) := scalarValue_lt _ _ _
  -- the clamped byte offset and the effective width
  set B := (if c * b / 8 > W - 8 then W - 8 else c * b / 8) with hBdef
  set e := (if c * b + b > W * 8 then W * 8 - c * b else b) with hedef
  have hB8 : B + 8 ≤ W := by
    rw [hBdef]; split <;> omega
  have hBle : B * 8 ≤ c * b := by
    rw [hBdef]; split <;> omega
  have he1 : e ≤ 16 := by
    rw [hedef]; split <;> omega
  have hsh : c * b - B * 8 + e ≤ 64 := by
    rw [hBdef, hedef]; split <;> split <;> omega
  have hmask : (intShl1 e + 2 ^ 64 - 1) % 2 ^ 64 = 2 ^ e - 1 := by
    rw [intShl1_eq e (by omega)]
    have h1 : 1 ≤ 2 ^ e := Nat.one_le_two_pow
    have h2 : 2 ^ e ≤ 2 ^ 16 := Nat.pow_le_pow_right (by norm_num) he1
    omega
  rw [hmask, Nat.and_pow_two_sub_one_eq_mod, Nat.shiftRight_eq_div_pow]
  have hload : loadLE pm.scalars (i * W + B) 8 = S / 2 ^ (B * 8) % 2 ^ 64 := by
    rw [loadLE_window pm.scalars (i * W) W B hB8, hS]
    unfold scalarValue
    rw [show (256 : Nat) = 2 ^ 8 by norm_num, ← pow_mul, ← pow_mul, Nat.mul_comm 8 B]
  rw [hload, mod_div_mod _ _ _ hsh, Nat.div_div_eq_div_mul, ← pow_add,
    show B * 8 + (c * b - B * 8) = c * b by omega]
  -- the effective width loses nothing
  by_cases hfull : c * b + b > W * 8
  · have hee : e = W * 8 - c * b := by rw [hedef, if_pos hfull]
    have hq : S / 2 ^ (c * b) < 2 ^ e := by
      rw [Nat.div_lt_iff_lt_mul (by positivity), ← pow_add, hee,
        show W * 8 - c * b + c * b = W * 8 by omega]
      exact hSlt
    rw [Nat.mod_eq_of_lt hq, Nat.mod_eq_of_lt
      (lt_of_lt_of_le hq (Nat.pow_le_pow_right (by norm_num) (by omega)))]
  · rw [show e = b by rw [hedef, if_neg hfull]]

theorem getChunk_lt {G : Type} (pm : ParallelMultiexp G) (hW : 8 ≤ pm.scalarSize)
    (hb1 : 1 ≤ pm.bitsPerChunk) (hb : pm.bitsPerChunk ≤ 16) (i c : Nat)
    (hc : c * pm.bitsPerChunk < pm.scalarSize * 8) :
    pm.getChunk i c < 2 ^ pm.bitsPerChunk := by
  rw [getChunk_eq pm hW hb1 hb i c hc]
  exact Nat.mod_lt _ (by positivity)

/-- The digits of `S` in base `2^b` recompose `S` modulo `2^(m·b)`. -/
theorem sum_digits (S b m : Nat) :
    ∑ c ∈ Finset.range m, (S / 2 ^ (c * b) % 2 ^ b) * 2 ^ (c * b) = S % 2 ^ (m * b) := by
  induction m with
  | zero => simp [Nat.mod_one]
  | succ m ih =>
    rw [Finset.sum_range_succ, ih, show (m + 1) * b = m * b + b by ring, pow_add,
      Nat.mod_mul, Nat.mul_comm (2 ^ (m * b)) (S / 2 ^ (m * b) % 2 ^ b)]


/-! ## multiexp: one chunk -/

theorem stripe_decomp (A t v u x : Nat) (hv : v < A) (hx : x < A) :
    t * A + v = u * A + x ↔ t = u ∧ v = x := by
  constructor
  · intro h
    have h1 : (t * A + v) / A = t := by
      rw [Nat.add_comm, Nat.add_mul_div_right _ _ (by omega), Nat.div_eq_of_lt hv, Nat.zero_add]
    have h2 : (u * A + x) / A = u := by
      rw [Nat.add_comm, Nat.add_mul_div_right _ _ (by omega), Nat.div_eq_of_lt hx, Nat.zero_add]
    have htu : t = u := by rw [← h1, ← h2, h]
    subst htu
    exact ⟨rfl, by omega⟩
  · rintro ⟨rfl, rfl⟩; rfl

/-- Scatter, `packThreads` and `reduce` for one chunk, from buckets that are zero from index 1
on: the chunk result is the sum of `chunk_i · bases[i]` over the included indices, and the
buckets are zero from index 1 on again. -/
theorem chunkResult_spec {G : Type} [AddCommGroup G] [DecidableEq G] (pm : ParallelMultiexp G)
    (hb1 : 1 ≤ pm.bitsPerChunk) (hb : pm.bitsPerChunk ≤ 16)
    (hA : pm.accsPerChunk = 2 ^ pm.bitsPerChunk) (c N : Nat) (tid : Nat → Fin pm.nThreads)
    (ftid : Nat → Nat → Fin pm.nThreads) (incl : Nat → Prop) [DecidablePred incl]
    (hch : ∀ i, pm.getChunk i c < 2 ^ pm.bitsPerChunk) (accs : Buffer G)
    (hinv : ∀ x, 1 ≤ x → accs.get x = 0) :
    (reduce pm.nThreads ftid pm.bitsPerChunk (pm.packThreads ((List.range N).foldl
        (fun accs i => if incl i then pm.scatterInto c (tid i).val accs i else accs) accs))).1 =
      ∑ i ∈ Finset.range N, (if incl i then pm.getChunk i c • pm.bases i else 0) ∧
    ∀ x, 1 ≤ x → (reduce pm.nThreads ftid pm.bitsPerChunk (pm.packThreads ((List.range N).foldl
        (fun accs i => if incl i then pm.scatterInto c (tid i).val accs i else accs)
        accs))).2.get x = 0 := by
  have hP : 1 ≤ pm.nThreads := by
    have := (tid 0).isLt; omega
  have hApos : 0 < pm.accsPerChunk := by rw [hA]; positivity
  set a1 := (List.range N).foldl
        (fun accs i => if incl i then pm.scatterInto c (tid i).val accs i else accs) accs
    with ha1
  have h1 : ∀ idx, a1.get idx = accs.get idx + ∑ i ∈ Finset.range N,
        (if incl i ∧ pm.getChunk i c ≠ 0 ∧
            (tid i).val * pm.accsPerChunk + pm.getChunk i c = idx
          then pm.bases i else 0) := fun idx =>
    foldl_scatter_get pm c (fun i => (tid i).val) incl accs N idx
  -- packed buckets
  have h2lo : ∀ x, 1 ≤ x → x < pm.accsPerChunk → (pm.packThreads a1).get x =
      ∑ i ∈ Finset.range N, (if incl i ∧ pm.getChunk i c = x then pm.bases i else 0) := by
    intro x hx1 hxA
    rw [packThreads_get pm hApos hP, if_pos hxA]
    simp only [h1]
    rw [Finset.sum_add_distrib]
    rw [Finset.sum_eq_zero (fun t _ => hinv (t * pm.accsPerChunk + x) (by omega)), zero_add,
      Finset.sum_comm]
    refine Finset.sum_congr rfl (fun i _ => ?_)
    by_cases hi : incl i ∧ pm.getChunk i c = x
    · rw [if_pos hi]
      rw [Finset.sum_eq_single (tid i).val]
      · rw [if_pos ⟨hi.1, by omega, by rw [hi.2]⟩]
      · intro t _ ht
        rw [if_neg]
        rintro ⟨_, _, h⟩
        exact ht ((stripe_decomp _ _ _ _ _ (by rw [hA]; exact hch i) hxA).mp h).1.symm
      · intro h
        exact absurd (Finset.mem_range.mpr (tid i).isLt) h
    · rw [if_neg hi]
      refine Finset.sum_eq_zero (fun t _ => ?_)
      rw [if_neg]
      rintro ⟨h1, _, h⟩
      exact hi ⟨h1, ((stripe_decomp _ _ _ _ _ (by rw [hA]; exact hch i) hxA).mp h).2⟩
  have h2hi : ∀ x, pm.accsPerChunk ≤ x → (pm.packThreads a1).get x = 0 := by
    intro x hx
    rw [packThreads_get pm hApos hP, if_neg (by omega)]
    split_ifs with hq
    · rfl
    · rw [h1, hinv x (by omega), zero_add]
      refine Finset.sum_eq_zero (fun i _ => ?_)
      rw [if_neg]
      rintro ⟨_, _, h⟩
      apply hq
      rw [← h, Nat.add_comm, Nat.add_mul_div_right _ _ hApos,
        Nat.div_eq_of_lt (by rw [hA]; exact hch i), Nat.zero_add]
      exact (tid i).isLt
  obtain ⟨k, hk⟩ : ∃ k, pm.bitsPerChunk = k + 1 := ⟨pm.bitsPerChunk - 1, by omega⟩
  have hr := reduce_spec pm.nThreads ftid k (by omega) (pm.packThreads a1)
  rw [← hk] at hr
  obtain ⟨hr1, hr2, hr3⟩ := hr
  refine ⟨?_, ?_⟩
  · rw [hr1]
    have e : ∀ v ∈ Finset.range (2 ^ pm.bitsPerChunk), v • (pm.packThreads a1).get v =
        ∑ i ∈ Finset.range N,
          (if incl i then (if pm.getChunk i c = v then v • pm.bases i else 0) else 0) := by
      intro v hv
      rw [Finset.mem_range] at hv
      rcases Nat.eq_zero_or_pos v with h0 | hpos
      · subst h0
        rw [zero_smul]
        symm
        refine Finset.sum_eq_zero (fun i _ => ?_)
        split_ifs <;> simp
      · rw [h2lo v hpos (by rw [hA]; exact hv), Finset.smul_sum]
        refine Finset.sum_congr rfl (fun i _ => ?_)
        by_cases h1 : incl i <;> by_cases h2 : pm.getChunk i c = v <;> simp [h1, h2]
    rw [Finset.sum_congr rfl e, Finset.sum_comm]
    refine Finset.sum_congr rfl (fun i _ => ?_)
    by_cases hi : incl i
    · simp only [hi, if_true]
      rw [Finset.sum_eq_single (pm.getChunk i c)]
      · rw [if_pos rfl]
      · intro v _ hv
        rw [if_neg (Ne.symm hv)]
      · intro h
        exact absurd (Finset.mem_range.mpr (hch i)) h
    · simp [hi]
  · intro x hx
    by_cases hxA : x < 2 ^ pm.bitsPerChunk
    · exact hr2 x hx hxA
    · rw [hr3 x (by omega)]
      exact h2hi x (by rw [hA]; omega)

/-! ## multiexp: the final combination -/

theorem foldl_double {G : Type} [AddCommGroup G] (b : Nat) (r : G) :
    (List.range b).foldl (fun r _ => r + r) r = 2 ^ b • r := by
  induction b with
  | zero => simp
  | succ b ih =>
    rw [List.range_succ, List.foldl_append, ih]
    simp only [List.foldl_cons, List.foldl_nil]
    rw [pow_succ, mul_smul, two_nsmul, smul_add]

theorem foldl_horner {G : Type} [AddCommGroup G] (b : Nat) (cr : Buffer G) (m : Nat) (r : G) :
    (List.range m).reverse.foldl
        (fun r j => (List.range b).foldl (fun r _ => r + r) r + cr.get j) r =
      2 ^ (m * b) • r + ∑ c ∈ Finset.range m, 2 ^ (c * b) • cr.get c := by
  induction m generalizing r with
  | zero => simp
  | succ m ih =>
    rw [List.range_succ, List.reverse_append, List.reverse_singleton, List.singleton_append,
      List.foldl_cons, ih, foldl_double, Finset.sum_range_succ, smul_add, ← mul_smul,
      ← pow_add, show m * b + b = (m + 1) * b by ring]
    abel

theorem combine_eq {G : Type} [AddCommGroup G] (pm : ParallelMultiexp G)
    (hn : 1 ≤ pm.nChunks) (cr : Buffer G) :
    pm.combine cr = ∑ c ∈ Finset.range pm.nChunks, 2 ^ (c * pm.bitsPerChunk) • cr.get c := by
  unfold ParallelMultiexp.combine
  rw [foldl_horner]
  obtain ⟨m, hm⟩ : ∃ m, pm.nChunks = m + 1 := ⟨pm.nChunks - 1, by omega⟩
  rw [hm, Finset.sum_range_succ, Nat.add_sub_cancel]
  abel

/-! ## multiexp: the whole computation -/

theorem setup_bits {G : Type} (bases : Nat → G) (scalars : Nat → Fin 256)
    (scalarSize n nThreads : Nat) :
    2 ≤ (ParallelMultiexp.setup bases scalars scalarSize n nThreads).bitsPerChunk ∧
      (ParallelMultiexp.setup bases scalars scalarSize n nThreads).bitsPerChunk ≤ 16 := by
  unfold ParallelMultiexp.setup PME2_MAX_CHUNK_SIZE_BITS PME2_MIN_CHUNK_SIZE_BITS
  simp only
  constructor <;> split_ifs <;> omega

theorem setup_accs {G : Type} (bases : Nat → G) (scalars : Nat → Fin 256)
    (scalarSize n nThreads : Nat) :
    (ParallelMultiexp.setup bases scalars scalarSize n nThreads).accsPerChunk =
      2 ^ (ParallelMultiexp.setup bases scalars scalarSize n nThreads).bitsPerChunk := by
  have h := (setup_bits bases scalars scalarSize n nThreads).2
  exact intShl1_eq _ (le_trans h (by norm_num))

theorem setup_nChunks {G : Type} (bases : Nat → G) (scalars : Nat → Fin 256)
    (scalarSize n nThreads : Nat) :
    (ParallelMultiexp.setup bases scalars scalarSize n nThreads).nChunks =
      (scalarSize * 8 - 1) /
        (ParallelMultiexp.setup bases scalars scalarSize n nThreads).bitsPerChunk + 1 := rfl

/-- The chunk loop followed by the final combination, for any loop body that scatters the
included indices below `N`, packs and reduces: the result is the sum of `s_i · bases[i]` over
the included indices. -/
theorem chunks_combine {G : Type} [AddCommGroup G] [DecidableEq G] (pm : ParallelMultiexp G)
    (hW : 8 ≤ pm.scalarSize) (hb1 : 1 ≤ pm.bitsPerChunk) (hb : pm.bitsPerChunk ≤ 16)
    (hA : pm.accsPerChunk = 2 ^ pm.bitsPerChunk)
    (hN : pm.nChunks = (pm.scalarSize * 8 - 1) / pm.bitsPerChunk + 1)
    (N : Nat) (incl : Nat → Prop) [DecidablePred incl] (sch : Schedule pm.nThreads)
    (step : Buffer G × Buffer G → Nat → Buffer G × Buffer G)
    (hstep : ∀ st c, step st c =
      ((reduce pm.nThreads (sch.fold c) pm.bitsPerChunk (pm.packThreads ((List.range N).foldl
          (fun accs i => if incl i then pm.scatterInto c (sch.scatter c i).val accs i else accs)
          st.1))).2,
        st.2.write c (reduce pm.nThreads (sch.fold c) pm.bitsPerChunk
          (pm.packThreads ((List.range N).foldl
          (fun accs i => if incl i then pm.scatterInto c (sch.scatter c i).val accs i else accs)
          st.1))).1)) :
    pm.combine ((List.range pm.nChunks).foldl step (Buffer.fill 0, Buffer.fill 0)).2 =
      ∑ i ∈ Finset.range N,
        (if incl i then scalarValue pm.scalars pm.scalarSize i • pm.bases i else 0) := by
  have hcb : ∀ c, c < pm.nChunks → c * pm.bitsPerChunk < pm.scalarSize * 8 := by
    intro c hc
    rw [hN] at hc
    have h1 : c ≤ (pm.scalarSize * 8 - 1) / pm.bitsPerChunk := by omega
    have h2 := Nat.mul_le_mul_right pm.bitsPerChunk h1
    have h3 := Nat.div_mul_le_self (pm.scalarSize * 8 - 1) pm.bitsPerChunk
    omega
  have hfull : pm.scalarSize * 8 ≤ pm.nChunks * pm.bitsPerChunk := by
    rw [hN]
    have h1 := Nat.div_add_mod (pm.scalarSize * 8 - 1) pm.bitsPerChunk
    have h2 := Nat.mod_lt (pm.scalarSize * 8 - 1) (show 0 < pm.bitsPerChunk by omega)
    have h3 : ((pm.scalarSize * 8 - 1) / pm.bitsPerChunk + 1) * pm.bitsPerChunk =
        pm.bitsPerChunk * ((pm.scalarSize * 8 - 1) / pm.bitsPerChunk) + pm.bitsPerChunk := by
      ring
    rw [h3]
    omega
  -- the state after `m` chunks
  have key : ∀ m, m ≤ pm.nChunks →
      (∀ x, 1 ≤ x → ((List.range m).foldl step (Buffer.fill 0, Buffer.fill 0)).1.get x = 0) ∧
      ∀ c, c < m → ((List.range m).foldl step (Buffer.fill 0, Buffer.fill 0)).2.get c =
        ∑ i ∈ Finset.range N, (if incl i then pm.getChunk i c • pm.bases i else 0) := by
    intro m
    induction m with
    | zero =>
      intro _
      exact ⟨fun x _ => rfl, fun c hc => absurd hc (by omega)⟩
    | succ m ih =>
      intro hm
      obtain ⟨ih1, ih2⟩ := ih (by omega)
      rw [List.range_succ, List.foldl_append]
      simp only [List.foldl_cons, List.foldl_nil]
      rw [hstep]
      have hc := chunkResult_spec pm hb1 hb hA m N (sch.scatter m) (sch.fold m) incl
        (fun i => getChunk_lt pm hW hb1 hb i m (hcb m (by omega))) _ ih1
      refine ⟨hc.2, ?_⟩
      intro c hcm
      simp only [Buffer.get_write]
      split_ifs with h
      · subst h; exact hc.1
      · exact ih2 c (by omega)
  have hn1 : 1 ≤ pm.nChunks := by rw [hN]; exact Nat.le_add_left 1 _
  rw [combine_eq pm hn1]
  have e : ∀ c ∈ Finset.range pm.nChunks,
      2 ^ (c * pm.bitsPerChunk) •
          ((List.range pm.nChunks).foldl step (Buffer.fill 0, Buffer.fill 0)).2.get c =
        ∑ i ∈ Finset.range N, (if incl i then
          ((scalarValue pm.scalars pm.scalarSize i / 2 ^ (c * pm.bitsPerChunk) %
            2 ^ pm.bitsPerChunk) * 2 ^ (c * pm.bitsPerChunk)) • pm.bases i else 0) := by
    intro c hc
    rw [Finset.mem_range] at hc
    rw [(key pm.nChunks le_rfl).2 c hc, Finset.smul_sum]
    refine Finset.sum_congr rfl (fun i _ => ?_)
    split_ifs
    · rw [getChunk_eq pm hW hb1 hb i c (hcb c hc), ← mul_smul, Nat.mul_comm]
    · exact smul_zero _
  rw [Finset.sum_congr rfl e, Finset.sum_comm]
  refine Finset.sum_congr rfl (fun i _ => ?_)
  split_ifs
  · rw [← Finset.sum_smul, sum_digits, Nat.mod_eq_of_lt]
    exact lt_of_lt_of_le (scalarValue_lt _ _ _) (Nat.pow_le_pow_right (by norm_num) hfull)
  · exact Finset.sum_const_zero

/-- The standard `multiexp` for `n ≥ 2` and scalars of at least 8 bytes: the sum of
`s_i · bases[i]` over the indices the 32-bit range of `processChunk` visits. -/
theorem multiexp_eq_sum {G : Type} [AddCommGroup G] [DecidableEq G] (nThreads : Nat)
    (sch : Schedule nThreads) (bases : Nat → G) (scalars : Nat → Fin 256)
    (scalarSize n : Nat) (hW : 8 ≤ scalarSize) (hn : 2 ≤ n) :
    multiexp nThreads sch bases scalars scalarSize n =
      ∑ i ∈ Finset.range (n % 2 ^ 32), scalarValue scalars scalarSize i • bases i := by
  unfold multiexp
  rw [if_neg (by omega), if_neg (by omega)]
  simp only
  have hbits := setup_bits bases scalars scalarSize n nThreads
  rw [chunks_combine (ParallelMultiexp.setup bases scalars scalarSize n nThreads) hW
    (by omega) hbits.2 (setup_accs _ _ _ _ _) (setup_nChunks _ _ _ _ _) (n % 2 ^ 32)
    (fun i => bases i ≠ 0) sch _ (fun st c => by
      unfold ParallelMultiexp.chunkLoop
      simp only [processChunk_eq]
      rfl)]
  refine Finset.sum_congr rfl (fun i _ => ?_)
  show (if bases i ≠ 0 then scalarValue scalars scalarSize i • bases i else 0) = _
  split_ifs with h
  · rfl
  · rw [not_not.mp h, smul_zero]

/-- The masked `multiexp` for `n ≥ 2` and scalars of at least 8 bytes: the sum of
`s_i · bases[i]` over the indices that pass the test of the masked `processChunk`. -/
theorem multiexpMasked_eq_sum {G : Type} [AddCommGroup G] [DecidableEq G] (nThreads : Nat)
    (sch : Schedule nThreads) (bases : Nat → G) (scalars : Nat → Fin 256)
    (scalarSize n nx : Nat) (x : Nat → Nat) (hW : 8 ≤ scalarSize) (hn : 2 ≤ n) :
    multiexpMasked nThreads sch bases scalars scalarSize n nx x =
      ∑ i ∈ Finset.range n,
        (if i ≤ ((x (i % nx) + 2 ^ 64 - 1) % 2 ^ 64 * nx + i % nx) % 2 ^ 64
          then scalarValue scalars scalarSize i • bases i else 0) := by
  unfold multiexpMasked
  rw [if_neg (by omega), if_neg (by omega)]
  simp only
  have hbits := setup_bits bases scalars scalarSize n nThreads
  rw [chunks_combine (ParallelMultiexp.setup bases scalars scalarSize n nThreads) hW
    (by omega) hbits.2 (setup_accs _ _ _ _ _) (setup_nChunks _ _ _ _ _) n
    (fun i => i ≤ ((x (i % nx) + 2 ^ 64 - 1) % 2 ^ 64 * nx + i % nx) % 2 ^ 64 ∧ bases i ≠ 0)
    sch _ (fun st c => by
      unfold ParallelMultiexp.chunkLoopMasked
      simp only [processChunkMasked_eq]
      rfl)]
  refine Finset.sum_congr rfl (fun i _ => ?_)
  show (if i ≤ ((x (i % nx) + 2 ^ 64 - 1) % 2 ^ 64 * nx + i % nx) % 2 ^ 64 ∧ bases i ≠ 0
    then scalarValue scalars scalarSize i • bases i else 0) = _
  by_cases h1 : i ≤ ((x (i % nx) + 2 ^ 64 - 1) % 2 ^ 64 * nx + i % nx) % 2 ^ 64
  · by_cases h2 : bases i = 0
    · rw [if_neg (fun h => h.2 h2), if_pos h1, h2, smul_zero]
    · rw [if_pos ⟨h1, h2⟩, if_pos h1]
  · rw [if_neg (fun h => h1 h.1), if_neg h1]


/-! ## multiexp against the naive sum -/

theorem loadLE_zero (mem : Nat → Fin 256) (a k : Nat) (h : ∀ j, j < k → mem (a + j) = 0) :
    loadLE mem a k = 0 := by
  induction k generalizing a with
  | zero => rfl
  | succ k ih =>
    have e : loadLE mem a (k + 1) = (mem a).val + 256 * loadLE mem (a + 1) k := rfl
    have h0 := h 0 (by omega)
    rw [Nat.add_zero] at h0
    rw [e, h0, ih (a + 1) (fun j hj => by
      have := h (j + 1) (by omega)
      rw [show a + 1 + j = a + (j + 1) by omega]
      exact this)]
    rfl

theorem scalarValue_constScalars (W v i : Nat) (hW : 1 ≤ W) :
    scalarValue (constScalars W v) W i = v % 256 := by
  obtain ⟨k, rfl⟩ : ∃ k, W = k + 1 := ⟨W - 1, by omega⟩
  have e : scalarValue (constScalars (k + 1) v) (k + 1) i =
      (constScalars (k + 1) v (i * (k + 1))).val +
        256 * loadLE (constScalars (k + 1) v) (i * (k + 1) + 1) k := rfl
  rw [e, loadLE_zero]
  · unfold constScalars
    rw [if_pos (Nat.mul_mod_left _ _)]
    rfl
  · intro j hj
    unfold constScalars
    rw [if_neg]
    rw [show i * (k + 1) + 1 + j = 1 + j + i * (k + 1) by omega, Nat.add_mul_mod_self_right,
      Nat.mod_eq_of_lt (by omega)]
    omega

/-- The standard `multiexp` equals the naive sum whenever `n` fits in 32 bits. -/
theorem multiexp_eq_naiveSum {G : Type} [AddCommGroup G] [DecidableEq G] (nThreads : Nat)
    (sch : Schedule nThreads) (bases : Nat → G) (scalars : Nat → Fin 256)
    (scalarSize n : Nat) (hW : 8 ≤ scalarSize) (hn : n < 2 ^ 32) :
    multiexp nThreads sch bases scalars scalarSize n = naiveSum bases scalars scalarSize n := by
  by_cases h2 : 2 ≤ n
  · rw [multiexp_eq_sum nThreads sch bases scalars scalarSize n hW h2, Nat.mod_eq_of_lt hn]
    rfl
  · have h01 : n = 0 ∨ n = 1 := by omega
    rcases h01 with rfl | rfl
    · rfl
    · unfold multiexp naiveSum scalarValue
      rw [if_neg (by omega), if_pos rfl, Finset.sum_range_one, Nat.zero_mul]

/-- C1, at the input on which the code leaves the claim: `n = 2^32` bases all equal to the
same point (here `1 : ℤ`) and `2^32` scalars of 32 bytes all equal to one. The range of
`processChunk` is a `blocked_range<uint32_t>(0, n)`, which is empty for this `n`: no bucket
is touched and `multiexp` returns the identity, while the naive sum is `2^32` times the
point. -/
theorem multiexp_at_two_pow_32 (nThreads : Nat) (sch : Schedule nThreads) :
    multiexp nThreads sch (fun _ => (1 : ℤ)) (constScalars 32 1) 32 (2 ^ 32) = 0 ∧
      naiveSum (fun _ => (1 : ℤ)) (constScalars 32 1) 32 (2 ^ 32) = 2 ^ 32 := by
  constructor
  · rw [multiexp_eq_sum nThreads sch _ _ 32 (2 ^ 32) (by norm_num) (by norm_num),
      Nat.mod_self]
    rfl
  · unfold naiveSum
    rw [Finset.sum_congr rfl (fun i _ => by
      rw [scalarValue_constScalars 32 1 i (by norm_num)]), Finset.sum_const,
      Finset.card_range]
    norm_num

/-- C8. `multiexp` is linear in the scalars: when every scalar of `u` is the integer sum of
the scalars of `s` and `t` at the same index, `multiexp(B, u) = multiexp(B, s) +
multiexp(B, t)`, for scalars of at least 8 bytes, whatever the worker counts and
schedules of the three runs. -/
theorem multiexp_add {G : Type} [AddCommGroup G] [DecidableEq G] (P1 P2 P3 : Nat)
    (sch1 : Schedule P1) (sch2 : Schedule P2) (sch3 : Schedule P3) (bases : Nat → G)
    (s t u : Nat → Fin 256) (W n : Nat) (hW : 8 ≤ W)
    (hsum : ∀ i, i < n → scalarValue u W i = scalarValue s W i + scalarValue t W i) :
    multiexp P1 sch1 bases u W n =
      multiexp P2 sch2 bases s W n + multiexp P3 sch3 bases t W n := by
  by_cases h2 : 2 ≤ n
  · rw [multiexp_eq_sum P1 sch1 bases u W n hW h2, multiexp_eq_sum P2 sch2 bases s W n hW h2,
      multiexp_eq_sum P3 sch3 bases t W n hW h2, ← Finset.sum_add_distrib]
    refine Finset.sum_congr rfl (fun i hi => ?_)
    rw [Finset.mem_range] at hi
    have hlt : i < n := lt_of_lt_of_le hi (Nat.mod_le _ _)
    rw [hsum i hlt, add_smul]
  · have h01 : n = 0 ∨ n = 1 := by omega
    rcases h01 with rfl | rfl
    · unfold multiexp
      rw [if_pos rfl, if_pos rfl, if_pos rfl, add_zero]
    · have h0 := hsum 0 (by omega)
      unfold scalarValue at h0
      rw [Nat.zero_mul] at h0
      unfold multiexp
      rw [if_neg (by omega), if_pos rfl, if_neg (by omega), if_pos rfl, if_neg (by omega),
        if_pos rfl, h0, add_smul]

/-- C8 at three bases `1, 2, 3` in `ℤ` with 8-byte scalars `s_i = 1`, `t_i = 2`,
`u_i = 3`. -/
theorem multiexp_add_witness :
    (8 ≤ 8 ∧ ∀ i, i < 3 → scalarValue (constScalars 8 3) 8 i =
      scalarValue (constScalars 8 1) 8 i + scalarValue (constScalars 8 2) 8 i) ∧
    multiexp 1 oneWorker (fun i => (i + 1 : ℤ)) (constScalars 8 3) 8 3 =
      multiexp 1 oneWorker (fun i => (i + 1 : ℤ)) (constScalars 8 1) 8 3 +
        multiexp 1 oneWorker (fun i => (i + 1 : ℤ)) (constScalars 8 2) 8 3 :=
  have h : ∀ i, i < 3 → scalarValue (constScalars 8 3) 8 i =
      scalarValue (constScalars 8 1) 8 i + scalarValue (constScalars 8 2) 8 i := by
    intro i _
    simp [scalarValue_constScalars]
  ⟨⟨by decide, h⟩, multiexp_add 1 1 1 oneWorker oneWorker oneWorker _ _ _ _ 8 3 (by decide) h⟩

/-- C9. `multiexp` over any bases with all `n` scalars zero returns the identity, and
`multiexp` over `n` identity bases with any scalars returns the identity, for every `n` and
scalars of at least 8 bytes; and in `processChunk` an identity base, or a zero scalar in any
of the chunks, leaves every bucket as it was. -/
theorem multiexp_zero {G : Type} [AddCommGroup G] [DecidableEq G] (nThreads : Nat)
    (sch : Schedule nThreads) (bases : Nat → G) (scalars : Nat → Fin 256) (W n : Nat)
    (hW : 8 ≤ W) :
    ((∀ i, i < n → scalarValue scalars W i = 0) →
      multiexp nThreads sch bases scalars W n = 0) ∧
    multiexp nThreads sch (fun _ => (0 : G)) scalars W n = 0 ∧
    ∀ (c : Nat) (tid : Nat → Fin (ParallelMultiexp.setup bases scalars W n nThreads).nThreads)
      (accs : Buffer G) (i : Nat),
      bases i = 0 ∨
        (scalarValue scalars W i = 0 ∧
          c < (ParallelMultiexp.setup bases scalars W n nThreads).nChunks) →
      (ParallelMultiexp.setup bases scalars W n nThreads).processChunkStep c tid accs i =
        accs := by
  refine ⟨?_, ?_, ?_⟩
  · intro h0
    by_cases h2 : 2 ≤ n
    · rw [multiexp_eq_sum nThreads sch bases scalars W n hW h2]
      refine Finset.sum_eq_zero (fun i hi => ?_)
      rw [Finset.mem_range] at hi
      rw [h0 i (lt_of_lt_of_le hi (Nat.mod_le _ _)), zero_smul]
    · have h01 : n = 0 ∨ n = 1 := by omega
      rcases h01 with rfl | rfl
      · rfl
      · have h := h0 0 (by omega)
        unfold scalarValue at h
        rw [Nat.zero_mul] at h
        unfold multiexp
        rw [if_neg (by omega), if_pos rfl, h, zero_smul]
  · by_cases h2 : 2 ≤ n
    · rw [multiexp_eq_sum nThreads sch _ scalars W n hW h2]
      exact Finset.sum_eq_zero (fun i _ => smul_zero _)
    · have h01 : n = 0 ∨ n = 1 := by omega
      rcases h01 with rfl | rfl
      · rfl
      · unfold multiexp
        rw [if_neg (by omega), if_pos rfl, smul_zero]
  · intro c tid accs i h
    unfold ParallelMultiexp.processChunkStep
    rcases h with hb | ⟨hs, hc⟩
    · exact if_pos hb
    · split_ifs
      · rfl
      · have hbits := setup_bits bases scalars W n nThreads
        have hcb : c * (ParallelMultiexp.setup bases scalars W n nThreads).bitsPerChunk <
            W * 8 := by
          rw [setup_nChunks] at hc
          have h1 : c ≤ (W * 8 - 1) /
              (ParallelMultiexp.setup bases scalars W n nThreads).bitsPerChunk := by omega
          have h2 := Nat.mul_le_mul_right
            (ParallelMultiexp.setup bases scalars W n nThreads).bitsPerChunk h1
          have h3 := Nat.div_mul_le_self (W * 8 - 1)
            (ParallelMultiexp.setup bases scalars W n nThreads).bitsPerChunk
          omega
        have hg : (ParallelMultiexp.setup bases scalars W n nThreads).getChunk i c = 0 := by
          rw [getChunk_eq _ hW (by omega) hbits.2 i c hcb]
          show scalarValue scalars W i / _ % _ = 0
          rw [hs, Nat.zero_div, Nat.zero_mod]
        unfold ParallelMultiexp.scatterInto
        simp only [hg, ne_eq, not_true_eq_false, if_false]

/-- C9 at three bases `1, 2, 3` in `ℤ` with 8-byte scalars. -/
theorem multiexp_zero_witness :
    8 ≤ 8 ∧
    (((∀ i, i < 3 → scalarValue (constScalars 8 0) 8 i = 0) →
      multiexp 1 oneWorker (fun i => (i + 1 : ℤ)) (constScalars 8 0) 8 3 = 0) ∧
    multiexp 1 oneWorker (fun _ => (0 : ℤ)) (constScalars 8 0) 8 3 = 0 ∧
    ∀ (c : Nat) (tid : Nat → Fin (ParallelMultiexp.setup (fun i => (i + 1 : ℤ))
        (constScalars 8 0) 8 3 1).nThreads)
      (accs : Buffer ℤ) (i : Nat),
      (fun i => (i + 1 : ℤ)) i = 0 ∨
        (scalarValue (constScalars 8 0) 8 i = 0 ∧
          c < (ParallelMultiexp.setup (fun i => (i + 1 : ℤ)) (constScalars 8 0) 8 3
            1).nChunks) →
      (ParallelMultiexp.setup (fun i => (i + 1 : ℤ)) (constScalars 8 0) 8 3
        1).processChunkStep c tid accs i = accs) :=
  ⟨by decide, multiexp_zero 1 oneWorker (fun i => (i + 1 : ℤ)) (constScalars 8 0) 8 3
    (by decide)⟩

theorem mask_test_iff (nx sz i : Nat) (hnx : 1 ≤ nx) (hsz : 1 ≤ sz) :
    i ≤ (sz - 1) * nx + i % nx ↔ i / nx < sz := by
  have hi := Nat.div_add_mod i nx
  constructor
  · intro h
    by_contra hc
    have h1 : sz ≤ i / nx := not_lt.mp hc
    have h2 : nx * sz ≤ nx * (i / nx) := Nat.mul_le_mul_left nx h1
    have h3 : nx * sz = (sz - 1) * nx + nx := by
      obtain ⟨k, rfl⟩ : ∃ k, sz = k + 1 := ⟨sz - 1, by omega⟩
      rw [Nat.add_sub_cancel]; ring
    omega
  · intro h
    have h1 : i / nx ≤ sz - 1 := by omega
    have h2 : nx * (i / nx) ≤ nx * (sz - 1) := Nat.mul_le_mul_left nx h1
    have h3 : nx * (sz - 1) = (sz - 1) * nx := Nat.mul_comm _ _
    omega

theorem mask_test_exact (nx sz m : Nat) (hnx : 1 ≤ nx) (hsz : 1 ≤ sz)
    (hfit : (sz - 1) * nx + m < 2 ^ 64) :
    ((sz + 2 ^ 64 - 1) % 2 ^ 64 * nx + m) % 2 ^ 64 = (sz - 1) * nx + m := by
  have h1 : sz - 1 ≤ (sz - 1) * nx := Nat.le_mul_of_pos_right _ hnx
  have h2 : (sz + 2 ^ 64 - 1) % 2 ^ 64 = sz - 1 := by
    rw [show sz + 2 ^ 64 - 1 = sz - 1 + 2 ^ 64 by omega, Nat.add_mod_right,
      Nat.mod_eq_of_lt (by omega)]
  rw [h2, Nat.mod_eq_of_lt hfit]

/-- C4, amended. For every `n`, `nx ≥ 1` and `sizes[0..nx)` with every `sizes[m] ≥ 1` and
`(sizes[m] − 1)·nx + m < 2^64`, the masked `multiexp` (scalars of at least 8 bytes) returns
the sum of `s_i · B_i` over exactly those `i < n` with
`i ≤ (sizes[i mod nx] − 1)·nx + (i mod nx)`, that is `⌊i / nx⌋ < sizes[i mod nx]`; the
excluded indices contribute nothing, and for `n < 2^32` the result is that of the standard
`multiexp` on the bases with the excluded ones replaced by the identity (the `n = 1` fast
path included). -/
theorem multiexpMasked_spec {G : Type} [AddCommGroup G] [DecidableEq G] (nThreads : Nat)
    (sch : Schedule nThreads) (bases : Nat → G) (scalars : Nat → Fin 256)
    (W n nx : Nat) (sizes : Nat → Nat) (hW : 8 ≤ W) (hnx : 1 ≤ nx)
    (hsz : ∀ m, m < nx → 1 ≤ sizes m)
    (hfit : ∀ m, m < nx → (sizes m - 1) * nx + m < 2 ^ 64) :
    multiexpMasked nThreads sch bases scalars W n nx sizes =
        ∑ i ∈ Finset.range n,
          (if i ≤ (sizes (i % nx) - 1) * nx + i % nx then scalarValue scalars W i • bases i
            else 0) ∧
    (∀ i, i ≤ (sizes (i % nx) - 1) * nx + i % nx ↔ i / nx < sizes (i % nx)) ∧
    (n < 2 ^ 32 → ∀ (P : Nat) (sch2 : Schedule P),
      multiexpMasked nThreads sch bases scalars W n nx sizes =
        multiexp P sch2 (fun i => if i / nx < sizes (i % nx) then bases i else 0)
          scalars W n) := by
  have hm : ∀ i, i % nx < nx := fun i => Nat.mod_lt i (by omega)
  have hiff : ∀ i, i ≤ (sizes (i % nx) - 1) * nx + i % nx ↔ i / nx < sizes (i % nx) :=
    fun i => mask_test_iff nx (sizes (i % nx)) i hnx (hsz _ (hm i))
  have hsum : multiexpMasked nThreads sch bases scalars W n nx sizes =
        ∑ i ∈ Finset.range n,
          (if i ≤ (sizes (i % nx) - 1) * nx + i % nx then scalarValue scalars W i • bases i
            else 0) := by
    by_cases h2 : 2 ≤ n
    · rw [multiexpMasked_eq_sum nThreads sch bases scalars W n nx sizes hW h2]
      refine Finset.sum_congr rfl (fun i _ => ?_)
      rw [mask_test_exact nx (sizes (i % nx)) (i % nx) hnx (hsz _ (hm i)) (hfit _ (hm i))]
    · have h01 : n = 0 ∨ n = 1 := by omega
      rcases h01 with rfl | rfl
      · rfl
      · unfold multiexpMasked scalarValue
        rw [if_neg (by omega), if_pos rfl, Finset.sum_range_one, Nat.zero_mul,
          if_pos (Nat.zero_le _)]
  refine ⟨hsum, hiff, ?_⟩
  intro hn P sch2
  rw [hsum, multiexp_eq_naiveSum P sch2 _ scalars W n hW hn]
  unfold naiveSum
  refine Finset.sum_congr rfl (fun i _ => ?_)
  beta_reduce
  by_cases h : i / nx < sizes (i % nx)
  · rw [if_pos ((hiff i).mpr h), if_pos h]
  · rw [if_neg (fun h1 => h ((hiff i).mp h1)), if_neg h, smul_zero]

/-- C4 (amended) at seven bases `1, …, 7` in `ℤ`, 8-byte scalars equal to 3, `nx = 2` and
`sizes = [2, 1]`. -/
theorem multiexpMasked_spec_witness :
    (8 ≤ 8 ∧ 1 ≤ 2 ∧ (∀ m, m < 2 → 1 ≤ (fun m => if m = 0 then 2 else 1) m) ∧
      ∀ m, m < 2 → ((fun m => if m = 0 then 2 else 1) m - 1) * 2 + m < 2 ^ 64) ∧
    multiexpMasked 1 oneWorker (fun i => (i + 1 : ℤ)) (constScalars 8 3) 8 7 2
        (fun m => if m = 0 then 2 else 1) =
      ∑ i ∈ Finset.range 7,
        (if i ≤ ((fun m => if m = 0 then 2 else 1) (i % 2) - 1) * 2 + i % 2
          then scalarValue (constScalars 8 3) 8 i • (fun i => (i + 1 : ℤ)) i else 0) :=
  have h1 : ∀ m, m < 2 → 1 ≤ (fun m => if m = 0 then 2 else 1) m := by
    intro m _; simp only; split <;> decide
  have h2 : ∀ m, m < 2 → ((fun m => if m = 0 then 2 else 1) m - 1) * 2 + m < 2 ^ 64 := by
    intro m hm; simp only; split <;> omega
  ⟨⟨by decide, by decide, h1, h2⟩,
    (multiexpMasked_spec 1 oneWorker (fun i => (i + 1 : ℤ)) (constScalars 8 3) 8 7 2
      (fun m => if m = 0 then 2 else 1) (by decide) (by decide) h1 h2).1⟩

/-- C4 fails as stated. With `nx = 2`, `sizes = [2^63 + 1, 1]`, four bases equal to `1 : ℤ`
and four 8-byte scalars equal to one, index 2 satisfies `2 ≤ (sizes[0] − 1)·2 + 0`, but the
code computes `(sizes[0] − 1)·2` on `uint64_t`, which is 0, and skips it: the masked
`multiexp` returns 2 and the sum of the claim is 3. And with `n = 2^32`, `nx = 1`,
`sizes = [2^32]`, which includes every index, the masked `multiexp` returns `2^32` while the
standard `multiexp` on the same input, whose range is 32 bits wide, returns 0. -/
theorem multiexpMasked_wrap_counterexample :
    ((1 ≤ 2 ∧ ∀ m, m < 2 → 1 ≤ (fun m => if m = 0 then 2 ^ 63 + 1 else 1) m) ∧
      multiexpMasked 1 oneWorker (fun _ => (1 : ℤ)) (constScalars 8 1) 8 4 2
          (fun m => if m = 0 then 2 ^ 63 + 1 else 1) = 2 ∧
      multiexpMasked 1 oneWorker (fun _ => (1 : ℤ)) (constScalars 8 1) 8 4 2
          (fun m => if m = 0 then 2 ^ 63 + 1 else 1) ≠
        ∑ i ∈ Finset.range 4,
          (if i ≤ ((fun m => if m = 0 then 2 ^ 63 + 1 else 1) (i % 2) - 1) * 2 + i % 2
            then scalarValue (constScalars 8 1) 8 i • (1 : ℤ) else 0)) ∧
    (multiexpMasked 1 oneWorker (fun _ => (1 : ℤ)) (constScalars 8 1) 8 (2 ^ 32) 1
        (fun _ => 2 ^ 32) = 2 ^ 32 ∧
      multiexp 1 oneWorker (fun _ => (1 : ℤ)) (constScalars 8 1) 8 (2 ^ 32) = 0) := by
  have hv : multiexpMasked 1 oneWorker (fun _ => (1 : ℤ)) (constScalars 8 1) 8 4 2
        (fun m => if m = 0 then 2 ^ 63 + 1 else 1) = 2 := by
    rw [multiexpMasked_eq_sum 1 oneWorker _ _ 8 4 2 _ (by decide) (by decide)]
    simp only [Finset.sum_range_succ, Finset.sum_range_zero, scalarValue_constScalars 8 1 _
      (by decide : 1 ≤ 8)]
    norm_num
  refine ⟨⟨⟨by decide, ?_⟩, hv, ?_⟩, ?_, ?_⟩
  · intro m _
    simp only
    split <;> norm_num
  · rw [hv]
    simp only [Finset.sum_range_succ, Finset.sum_range_zero, scalarValue_constScalars 8 1 _
      (by decide : 1 ≤ 8)]
    norm_num
  · rw [multiexpMasked_eq_sum 1 oneWorker _ _ 8 (2 ^ 32) 1 _ (by decide) (by norm_num)]
    have hb : ∀ i, ((2 ^ 32 + 2 ^ 64 - 1) % 2 ^ 64 * 1 + i % 1) % 2 ^ 64 = 2 ^ 32 - 1 := by
      intro i
      rw [Nat.mod_one]
      norm_num
    rw [Finset.sum_congr rfl (fun i hi => by
      rw [hb i, if_pos (by have := Finset.mem_range.mp hi; omega),
        scalarValue_constScalars 8 1 i (by decide)]), Finset.sum_const, Finset.card_range]
    norm_num
  · rw [multiexp_eq_sum 1 oneWorker _ _ 8 (2 ^ 32) (by norm_num) (by norm_num), Nat.mod_self]
    rfl

/-! ## The constructor: what it stores -/

theorem log2Loop_spec (fuel n res : Nat) (hn : 1 ≤ n) (hf : n ≤ fuel) :
    res ≤ log2Loop fuel n res ∧ 2 ^ (log2Loop fuel n res - res) ≤ n ∧
      n < 2 ^ (log2Loop fuel n res - res + 1) := by
  induction fuel generalizing n res with
  | zero => omega
  | succ fuel ih =>
    unfold log2Loop
    by_cases h1 : n = 1
    · rw [if_pos h1, h1, Nat.sub_self]
      exact ⟨le_refl _, by norm_num, by norm_num⟩
    · rw [if_neg h1, Nat.shiftRight_eq_div_pow, pow_one]
      obtain ⟨a, b, c⟩ := ih (n / 2) (res + 1) (by omega) (by omega)
      set L := log2Loop fuel (n / 2) (res + 1) with hL
      have e : L - res = (L - (res + 1)) + 1 := by omega
      refine ⟨by omega, ?_, ?_⟩
      · rw [e, pow_succ]; omega
      · rw [e, pow_succ]
        rw [pow_succ] at c
        omega

/-- `FFT::log2` returns the floor of the binary logarithm. -/
theorem log2_spec (n d : Nat) (h : log2 n = .ok d) : 2 ^ d ≤ n ∧ n < 2 ^ (d + 1) := by
  unfold log2 at h
  by_cases h0 : n = 0
  · rw [if_pos h0] at h; cases h
  · rw [if_neg h0] at h
    cases h
    have := log2Loop_spec n n 0 (by omega) (le_refl _)
    simpa using this.2

/-- The fields of an engine that the constructor returns. -/
theorem FFT.new_eq (r n nSpan : Nat) (E : FFT (ZMod r)) (h : FFT.new r n nSpan = .ok E) :
    ∃ dp, log2 n = .ok dp ∧ ¬ (sLoop dp dp ((r - 1) / 2) 1).2 < dp ∧
      E.s = (sLoop dp dp ((r - 1) / 2) 1).2 ∧
      E.nqr = ((findNqr (r - 1 + 1) ((r - 1) / 2) (r - 1 + 1) 2 : Nat) : ZMod r) ∧
      E.roots = rootsTable r (findNqr (r - 1 + 1) ((r - 1) / 2) (r - 1 + 1) 2)
        (sLoop dp dp ((r - 1) / 2) 1).1 (sLoop dp dp ((r - 1) / 2) 1).2 nSpan ∧
      E.powTwoInv = powTwoInvTable r (sLoop dp dp ((r - 1) / 2) 1).2 := by
  unfold FFT.new at h
  rcases hlog : log2 n with e | dp
  · rw [hlog] at h; cases h
  · rw [hlog] at h
    simp only at h
    refine ⟨dp, rfl, ?_⟩
    split at h
    · cases h
    · rename_i hs
      split at h
      · cases h
      · cases h
        exact ⟨hs, rfl, rfl, rfl, rfl⟩

/-- On success the constructor has `s = max(1, domainPow)`, and over an odd modulus the
final `aux` is `(r - 1) / 2^s` exactly. -/
theorem sLoop_success (r dp : Nat) (hodd : r % 2 = 1) (hr : 3 ≤ r)
    (hs : ¬ (sLoop dp dp ((r - 1) / 2) 1).2 < dp) :
    (sLoop dp dp ((r - 1) / 2) 1).2 = max 1 dp ∧
      (sLoop dp dp ((r - 1) / 2) 1).1 * 2 ^ (sLoop dp dp ((r - 1) / 2) 1).2 = r - 1 := by
  obtain ⟨h1, h2, h3, _⟩ := sLoop_spec dp dp ((r - 1) / 2) 1 (by omega)
  refine ⟨?_, ?_⟩
  · rcases le_total 1 dp with h | h
    · rw [max_eq_right h] at h3 ⊢; omega
    · rw [max_eq_left h] at h3 ⊢; omega
  · rw [← h1]; omega

theorem fillSpan_length {F : Type} [Mul F] [Zero F] (cnt i : Nat) (l : List F) :
    (fillSpan cnt i l).length = l.length := by
  induction cnt generalizing i l with
  | zero => rfl
  | succ cnt ih =>
    unfold fillSpan
    rw [ih, List.length_set]

theorem powTwoInvTable_length (r s : Nat) : (powTwoInvTable r s).length = s + 1 := by
  unfold powTwoInvTable
  simp only
  rw [fillPowTwoInv_eq_fillSpan, fillSpan_length]
  split <;> simp

/-! ## The span loop in any order -/

/-- Every index from 2 on lies in the range of some span. -/
theorem span_cover (nRoots nSpan j : Nat) (hn : 1 ≤ nSpan) (hj2 : 2 ≤ j) (hj : j < nRoots) :
    ∃ k, k < nSpan ∧ (if k = 0 then 2 else k * (nRoots / nSpan)) ≤ j ∧
      j < (if k = nSpan - 1 then nRoots else (k + 1) * (nRoots / nSpan)) := by
  by_cases hlast : (nSpan - 1) * (nRoots / nSpan) ≤ j
  · refine ⟨nSpan - 1, by omega, ?_, ?_⟩
    · split
      · exact hj2
      · exact hlast
    · rw [if_pos rfl]; exact hj
  · have hlt : j < (nSpan - 1) * (nRoots / nSpan) := not_le.mp hlast
    have hinc : 0 < nRoots / nSpan := by
      rcases Nat.eq_zero_or_pos (nRoots / nSpan) with h | h
      · rw [h, Nat.mul_zero] at hlt; omega
      · exact h
    have hk : j / (nRoots / nSpan) < nSpan - 1 := by
      rw [Nat.div_lt_iff_lt_mul hinc]; exact hlt
    refine ⟨j / (nRoots / nSpan), by omega, ?_, ?_⟩
    · split
      · exact hj2
      · exact Nat.div_mul_le_self _ _
    · rw [if_neg (by omega)]
      have hm := Nat.div_add_mod j (nRoots / nSpan)
      have hr := Nat.mod_lt j hinc
      rw [Nat.add_mul, Nat.one_mul, Nat.mul_comm]
      omega

/-- The span loop over any list of span indices: entries that hold the right power keep it,
and the range of every span of the list holds the right powers afterwards. -/
theorem foldl_spanBody_any {F : Type} [Monoid F] [Zero F] (ω : F) (nRoots nSpan : Nat)
    (h2 : 2 ≤ nRoots) (order : List Nat) (hord : ∀ k ∈ order, k < nSpan) (roots : List F)
    (hlen : roots.length = nRoots) (h1 : roots[1]? = some ω) :
    (order.foldl (spanBody nRoots nSpan) roots).length = nRoots ∧
      (∀ j, roots[j]? = some (ω ^ j) →
        (order.foldl (spanBody nRoots nSpan) roots)[j]? = some (ω ^ j)) ∧
      ∀ k ∈ order, ∀ j, (if k = 0 then 2 else k * (nRoots / nSpan)) ≤ j →
        j < (if k = nSpan - 1 then nRoots else (k + 1) * (nRoots / nSpan)) →
        (order.foldl (spanBody nRoots nSpan) roots)[j]? = some (ω ^ j) := by
  induction order generalizing roots with
  | nil =>
    exact ⟨hlen, fun j hj => hj, fun k hk => absurd hk (List.not_mem_nil k)⟩
  | cons k rest ih =>
    obtain ⟨hl, hget⟩ := spanBody_spec ω nRoots nSpan k roots hlen h2
      (hord k (List.mem_cons_self k rest)) h1
    have hmono : ∀ j, roots[j]? = some (ω ^ j) →
        (spanBody nRoots nSpan roots k)[j]? = some (ω ^ j) := by
      intro j hj
      rw [hget j]
      by_cases hin : (if k = 0 then 2 else k * (nRoots / nSpan)) ≤ j ∧
          j < (if k = nSpan - 1 then nRoots else (k + 1) * (nRoots / nSpan))
      · rw [if_pos hin]
      · rw [if_neg hin]; exact hj
    have h1' : (spanBody nRoots nSpan roots k)[1]? = some ω := by
      have := hmono 1 (by rw [pow_one]; exact h1)
      rw [pow_one] at this
      exact this
    obtain ⟨a, b, c⟩ := ih (fun k' hk' => hord k' (List.mem_cons_of_mem k hk'))
      (spanBody nRoots nSpan roots k) hl h1'
    rw [List.foldl_cons]
    refine ⟨a, fun j hj => b j (hmono j hj), ?_⟩
    intro k' hk' j hj1 hj2
    rcases List.mem_cons.mp hk' with rfl | hmem
    · apply b j
      rw [hget j, if_pos ⟨hj1, hj2⟩]
    · exact c k' hmem j hj1 hj2


/-- The table built with the spans run in any order that visits every span of `[0, nSpan)`
holds the powers of its entry 1. -/
theorem rootsTableOn_spec (order : List Nat) (r nqr aux s nSpan : Nat) (hs : 1 ≤ s)
    (hn : 1 ≤ nSpan) (hperm : order.Perm (List.range nSpan)) :
    (rootsTableOn order r nqr aux s nSpan).length = 2 ^ s ∧
      ∀ j, j < 2 ^ s → (rootsTableOn order r nqr aux s nSpan)[j]? =
        some ((((nqr ^ aux % (r - 1 + 1) : Nat) : ZMod r)) ^ j) := by
  have h2 : 2 ≤ 2 ^ s := by
    calc 2 = 2 ^ 1 := rfl
      _ ≤ 2 ^ s := Nat.pow_le_pow_right (by norm_num) hs
  unfold rootsTableOn
  simp only
  rw [if_pos (by omega)]
  set ω : ZMod r := ((nqr ^ aux % (r - 1 + 1) : Nat) : ZMod r) with hω
  set t0 : List (ZMod r) := ((List.replicate (2 ^ s) (0 : ZMod r)).set 0 1).set 1 ω with ht0
  have hlen : t0.length = 2 ^ s := by simp [ht0]
  have h0 : t0[0]? = some 1 := by
    rw [ht0, List.getElem?_set, if_neg (by omega), List.getElem?_set, if_pos rfl,
      if_pos (by simp)]
  have h1 : t0[1]? = some ω := by
    rw [ht0, List.getElem?_set, if_pos rfl, if_pos (by simp; omega)]
  obtain ⟨a, b, c⟩ := foldl_spanBody_any ω (2 ^ s) nSpan h2 order
    (fun k hk => List.mem_range.mp (hperm.mem_iff.mp hk)) t0 hlen h1
  refine ⟨a, ?_⟩
  intro j hj
  by_cases hj2 : 2 ≤ j
  · obtain ⟨k, hk, hk1, hk2⟩ := span_cover (2 ^ s) nSpan j hn hj2 hj
    exact c k (hperm.mem_iff.mpr (List.mem_range.mpr hk)) j hk1 hk2
  · have : j = 0 ∨ j = 1 := by omega
    rcases this with rfl | rfl
    · exact b 0 (by rw [pow_zero]; exact h0)
    · exact b 1 (by rw [pow_one]; exact h1)

/-- The order in which the spans run does not change the table. -/
theorem rootsTableOn_eq (order : List Nat) (r nqr aux s nSpan : Nat) (hs : 1 ≤ s)
    (hn : 1 ≤ nSpan) (hperm : order.Perm (List.range nSpan)) :
    rootsTableOn order r nqr aux s nSpan = rootsTable r nqr aux s nSpan := by
  obtain ⟨l1, g1⟩ := rootsTableOn_spec order r nqr aux s nSpan hs hn hperm
  obtain ⟨l2, g2⟩ := rootsTable_spec r nqr aux s nSpan hs hn
  apply List.ext_getElem?
  intro j
  by_cases hj : j < 2 ^ s
  · rw [g1 j hj, g2 j hj]
  · rw [List.getElem?_eq_none (by omega), List.getElem?_eq_none (by omega)]

/-- C12. After a successful construction, for every span count `nSpan ≥ 1` (whatever the
increment `2^s / nSpan` is, 0, 1 and 2 included), the table has `2^s` entries, `roots[0] = 1`
and `roots[i] = w^i` for every `i < 2^s`, with `w = roots[1]`: every index is written, with
the right power; and the table is the same in whatever order the spans run. -/
theorem FFT_new_roots_pow (r n nSpan : Nat) (hn : 1 ≤ nSpan) (E : FFT (ZMod r))
    (h : FFT.new r n nSpan = .ok E) :
    E.roots.length = 2 ^ E.s ∧ E.roots[0]? = some 1 ∧
      (∀ i, i < 2 ^ E.s → E.roots[i]? = some (E.roots.getD 1 0 ^ i)) ∧
      ∃ m_nqr m_aux, E.roots = rootsTable r m_nqr m_aux E.s nSpan ∧
        ∀ order : List Nat, order.Perm (List.range nSpan) →
          rootsTableOn order r m_nqr m_aux E.s nSpan = E.roots := by
  obtain ⟨dp, _, _, hs, _, hroots, _⟩ := FFT.new_eq r n nSpan E h
  obtain ⟨_, s2, _, _⟩ := sLoop_spec dp dp ((r - 1) / 2) 1 (by omega)
  obtain ⟨hlen, hget⟩ := rootsTable_spec r (findNqr (r - 1 + 1) ((r - 1) / 2) (r - 1 + 1) 2)
    (sLoop dp dp ((r - 1) / 2) 1).1 (sLoop dp dp ((r - 1) / 2) 1).2 nSpan s2 hn
  rw [← hroots, ← hs] at hlen hget
  have h2 : 2 ≤ 2 ^ E.s := by
    calc 2 = 2 ^ 1 := rfl
      _ ≤ 2 ^ E.s := Nat.pow_le_pow_right (by norm_num) (by rw [hs]; exact s2)
  have hw := getD_of_getElem? _ _ 0 _ (hget 1 (by omega))
  rw [pow_one] at hw
  refine ⟨hlen, ?_, ?_, ?_⟩
  · have := hget 0 (by omega)
    rw [pow_zero] at this
    exact this
  · intro i hi
    rw [hget i hi, hw]
  · refine ⟨findNqr (r - 1 + 1) ((r - 1) / 2) (r - 1 + 1) 2, (sLoop dp dp ((r - 1) / 2) 1).1,
      by rw [hs]; exact hroots, ?_⟩
    intro order hperm
    rw [hs, hroots]
    exact rootsTableOn_eq order _ _ _ _ _ s2 hn hperm

/-- C12 on the engine built over `r = 17` for `maxDomainSize = 4` with 10 spans (more spans
than roots, so the increment is 0), at index 3. -/
theorem FFT_new_roots_pow_witness :
    (1 ≤ 10 ∧ FFT.new 17 4 10 = .ok ⟨2, 3, [1, 13, 16, 4], [1, 9, 13]⟩) ∧
    (⟨2, 3, [1, 13, 16, 4], [1, 9, 13]⟩ : FFT (ZMod 17)).roots[3]? =
      some ((⟨2, 3, [1, 13, 16, 4], [1, 9, 13]⟩ : FFT (ZMod 17)).roots.getD 1 0 ^ 3) :=
  ⟨⟨by decide, rfl⟩,
    (FFT_new_roots_pow 17 4 10 (by decide) ⟨2, 3, [1, 13, 16, 4], [1, 9, 13]⟩ rfl).2.2.1 3
      (by decide)⟩

/-- C11. After a successful construction over an odd prime `r`, the table has `2^s` entries,
`roots[i] · roots[2^s − i] = 1` for every `0 < i < 2^s` and `roots[i]^(2^s) = 1` for every
`i < 2^s`; and the assertion `roots[2^s − 1] · roots[1] = 1` of the constructor never fails
(for `maxDomainSize ≠ 0`, where `log2` does not assert). -/
theorem FFT_new_roots_inverse (r : Nat) [hp : Fact r.Prime] (hr2 : r ≠ 2) (n nSpan : Nat)
    (hn : 1 ≤ nSpan) :
    (∀ E, FFT.new r n nSpan = .ok E →
      E.roots.length = 2 ^ E.s ∧
      (∀ i, 0 < i → i < 2 ^ E.s → E.roots.getD i 0 * E.roots.getD (2 ^ E.s - i) 0 = 1) ∧
      (∀ i, i < 2 ^ E.s → E.roots.getD i 0 ^ 2 ^ E.s = 1)) ∧
    (n ≠ 0 → FFT.new r n nSpan ≠ .error .assertion) := by
  constructor
  · intro E h
    have hE := FFT.new_tablesOk r hr2 n nSpan hn E h
    have hone := hE.pow_two_pow_s
    obtain ⟨dp, _, _, hs, _, hroots, _⟩ := FFT.new_eq r n nSpan E h
    obtain ⟨_, s2, _, _⟩ := sLoop_spec dp dp ((r - 1) / 2) 1 (by omega)
    have hlen := (rootsTable_spec r (findNqr (r - 1 + 1) ((r - 1) / 2) (r - 1 + 1) 2)
      (sLoop dp dp ((r - 1) / 2) 1).1 (sLoop dp dp ((r - 1) / 2) 1).2 nSpan s2 hn).1
    rw [← hroots, ← hs] at hlen
    refine ⟨hlen, ?_, ?_⟩
    · intro i hi0 hi
      rw [getD_of_getElem? _ _ _ _ (hE.roots_pow i hi),
        getD_of_getElem? _ _ _ _ (hE.roots_pow (2 ^ E.s - i) (by omega)), ← pow_add,
        show i + (2 ^ E.s - i) = 2 ^ E.s by omega, hone]
    · intro i hi
      rw [getD_of_getElem? _ _ _ _ (hE.roots_pow i hi), ← pow_mul, Nat.mul_comm, pow_mul,
        hone, one_pow]
  · intro hn0 hc
    rcases FFT.new_ok_or_rangeError r hr2 n nSpan hn hn0 with ⟨E, hE⟩ | he
    · rw [hE] at hc; cases hc
    · rw [he] at hc; cases hc

/-- C11 on the engine built over `r = 17` for `maxDomainSize = 4`. -/
theorem FFT_new_roots_inverse_witness :
    (17 ≠ 2 ∧ 1 ≤ 10 ∧ FFT.new 17 4 10 = .ok ⟨2, 3, [1, 13, 16, 4], [1, 9, 13]⟩) ∧
    ((⟨2, 3, [1, 13, 16, 4], [1, 9, 13]⟩ : FFT (ZMod 17)).roots.length =
        2 ^ (⟨2, 3, [1, 13, 16, 4], [1, 9, 13]⟩ : FFT (ZMod 17)).s ∧
      (∀ i, 0 < i → i < 2 ^ (⟨2, 3, [1, 13, 16, 4], [1, 9, 13]⟩ : FFT (ZMod 17)).s →
        (⟨2, 3, [1, 13, 16, 4], [1, 9, 13]⟩ : FFT (ZMod 17)).roots.getD i 0 *
          (⟨2, 3, [1, 13, 16, 4], [1, 9, 13]⟩ : FFT (ZMod 17)).roots.getD
            (2 ^ (⟨2, 3, [1, 13, 16, 4], [1, 9, 13]⟩ : FFT (ZMod 17)).s - i) 0 = 1) ∧
      (∀ i, i < 2 ^ (⟨2, 3, [1, 13, 16, 4], [1, 9, 13]⟩ : FFT (ZMod 17)).s →
        (⟨2, 3, [1, 13, 16, 4], [1, 9, 13]⟩ : FFT (ZMod 17)).roots.getD i 0 ^
          2 ^ (⟨2, 3, [1, 13, 16, 4], [1, 9, 13]⟩ : FFT (ZMod 17)).s = 1)) :=
  ⟨⟨by decide, by decide, rfl⟩,
    (@FFT_new_roots_inverse 17 ⟨by norm_num⟩ (by decide) 4 10 (by decide)).1 _ rfl⟩

/-- C13 fails: over `r = 17` (`r − 1 = 2^4`) the engine built for `maxDomainSize = 4` has
`s = 2` and a table of 4 roots, although `2^4` divides `r − 1`; and the engine built for
`maxDomainSize = 5` has `s = 2` as well, so that `2^s < maxDomainSize`. -/
theorem FFT_new_s_counterexample :
    (FFT.new 17 4 10 = .ok ⟨2, 3, [1, 13, 16, 4], [1, 9, 13]⟩ ∧
      (⟨2, 3, [1, 13, 16, 4], [1, 9, 13]⟩ : FFT (ZMod 17)).roots.length = 4 ∧
      2 ^ 4 ∣ 17 - 1 ∧ (⟨2, 3, [1, 13, 16, 4], [1, 9, 13]⟩ : FFT (ZMod 17)).s < 4) ∧
    (FFT.new 17 5 10 = .ok ⟨2, 3, [1, 13, 16, 4], [1, 9, 13]⟩ ∧
      2 ^ (⟨2, 3, [1, 13, 16, 4], [1, 9, 13]⟩ : FFT (ZMod 17)).s < 5) :=
  ⟨⟨rfl, rfl, by decide, by decide⟩, rfl, by decide⟩

/-- C13, amended. After a successful construction over an odd modulus `r ≥ 3`, the
engine's `s` is `max(1, domainPow)` with `domainPow = ⌊log2(maxDomainSize)⌋`: the loop stops
as soon as `s` reaches `domainPow`. `2^s` divides `r − 1`, so `s` is at most the two-adicity
of `r − 1`, the largest `t` with `2^t` dividing `r − 1`, and equals it exactly when
`max(1, domainPow)` does. `2^(s+1) > maxDomainSize`, and `2^s ≥ maxDomainSize` when
`maxDomainSize` is a power of two. The root table has `2^s` entries. -/
theorem FFT_new_s_eq (r n nSpan : Nat) (hodd : r % 2 = 1) (hr : 3 ≤ r) (hn : 1 ≤ nSpan)
    (E : FFT (ZMod r)) (h : FFT.new r n nSpan = .ok E) :
    ∃ domainPow, log2 n = .ok domainPow ∧ 2 ^ domainPow ≤ n ∧ n < 2 ^ (domainPow + 1) ∧
      E.s = max 1 domainPow ∧ 2 ^ E.s ∣ r - 1 ∧ E.roots.length = 2 ^ E.s ∧
      (∀ t, 2 ^ t ∣ r - 1 ↔ t ≤ twoAdicity (r - 1)) ∧
      E.s ≤ twoAdicity (r - 1) ∧
      (E.s = twoAdicity (r - 1) ↔ max 1 domainPow = twoAdicity (r - 1)) ∧
      n < 2 ^ (E.s + 1) ∧ ((∃ k, n = 2 ^ k) → n ≤ 2 ^ E.s) := by
  obtain ⟨dp, hlog, hnot, hs, _, hroots, _⟩ := FFT.new_eq r n nSpan E h
  obtain ⟨hmax, hmul⟩ := sLoop_success r dp hodd hr hnot
  obtain ⟨_, s2, _, _⟩ := sLoop_spec dp dp ((r - 1) / 2) 1 (by omega)
  have hlen := (rootsTable_spec r (findNqr (r - 1 + 1) ((r - 1) / 2) (r - 1 + 1) 2)
    (sLoop dp dp ((r - 1) / 2) 1).1 (sLoop dp dp ((r - 1) / 2) 1).2 nSpan s2 hn).1
  rw [← hroots, ← hs] at hlen
  obtain ⟨hl1, hl2⟩ := log2_spec n dp hlog
  have hsmax : E.s = max 1 dp := by rw [hs, hmax]
  have hdvd : 2 ^ E.s ∣ r - 1 := by
    rw [hs]
    exact ⟨(sLoop dp dp ((r - 1) / 2) 1).1, by rw [Nat.mul_comm]; exact hmul.symm⟩
  have hpos : 0 < r - 1 := by omega
  have hle : E.s ≤ twoAdicity (r - 1) := (two_pow_dvd_iff_le_twoAdicity _ _ hpos).mp hdvd
  have hdp : dp ≤ E.s := by rw [hsmax]; exact le_max_right _ _
  have hlt : n < 2 ^ (E.s + 1) :=
    lt_of_lt_of_le hl2 (Nat.pow_le_pow_right (by norm_num) (by omega))
  refine ⟨dp, hlog, hl1, hl2, hsmax, hdvd, hlen,
    fun t => two_pow_dvd_iff_le_twoAdicity _ t hpos, hle, by rw [hsmax], hlt, ?_⟩
  rintro ⟨k, rfl⟩
  rw [log2_pow] at hlog
  cases hlog
  exact Nat.pow_le_pow_right (by norm_num) hdp

/-- C13 (amended) on the engine built over `r = 17` for `maxDomainSize = 4`. -/
theorem FFT_new_s_eq_witness :
    (17 % 2 = 1 ∧ 3 ≤ 17 ∧ 1 ≤ 10 ∧
      FFT.new 17 4 10 = .ok ⟨2, 3, [1, 13, 16, 4], [1, 9, 13]⟩) ∧
    ∃ domainPow, log2 4 = .ok domainPow ∧ 2 ^ domainPow ≤ 4 ∧ 4 < 2 ^ (domainPow + 1) ∧
      (⟨2, 3, [1, 13, 16, 4], [1, 9, 13]⟩ : FFT (ZMod 17)).s = max 1 domainPow ∧
      2 ^ (⟨2, 3, [1, 13, 16, 4], [1, 9, 13]⟩ : FFT (ZMod 17)).s ∣ 17 - 1 ∧
      (⟨2, 3, [1, 13, 16, 4], [1, 9, 13]⟩ : FFT (ZMod 17)).roots.length =
        2 ^ (⟨2, 3, [1, 13, 16, 4], [1, 9, 13]⟩ : FFT (ZMod 17)).s ∧
      (∀ t, 2 ^ t ∣ 17 - 1 ↔ t ≤ twoAdicity (17 - 1)) ∧
      (⟨2, 3, [1, 13, 16, 4], [1, 9, 13]⟩ : FFT (ZMod 17)).s ≤ twoAdicity (17 - 1) ∧
      ((⟨2, 3, [1, 13, 16, 4], [1, 9, 13]⟩ : FFT (ZMod 17)).s = twoAdicity (17 - 1) ↔
        max 1 domainPow = twoAdicity (17 - 1)) ∧
      4 < 2 ^ ((⟨2, 3, [1, 13, 16, 4], [1, 9, 13]⟩ : FFT (ZMod 17)).s + 1) ∧
      ((∃ k, 4 = 2 ^ k) → 4 ≤ 2 ^ (⟨2, 3, [1, 13, 16, 4], [1, 9, 13]⟩ : FFT (ZMod 17)).s) :=
  ⟨⟨by decide, by decide, by decide, rfl⟩,
    FFT_new_s_eq 17 4 10 (by decide) (by decide) (by decide) _ rfl⟩

/-- C14. For every odd prime `r` the search of the constructor ends, at the least integer
`nqr ≥ 2` with `nqr^((r−1)/2) ≠ 1 mod r`; the engine stores it, and
`roots[1] = nqr^((r−1)/2^s)` is a primitive `2^s`-th root of unity:
`roots[1]^(2^s) = 1` and `roots[1]^(2^(s−1)) ≠ 1`. -/
theorem FFT_new_nqr (r : Nat) [hp : Fact r.Prime] (hr2 : r ≠ 2) (n nSpan : Nat)
    (hn : 1 ≤ nSpan) :
    (2 ≤ findNqr r ((r - 1) / 2) r 2 ∧ findNqr r ((r - 1) / 2) r 2 < r ∧
      (findNqr r ((r - 1) / 2) r 2) ^ ((r - 1) / 2) % r ≠ 1 ∧
      ∀ z, 2 ≤ z → z < findNqr r ((r - 1) / 2) r 2 → z ^ ((r - 1) / 2) % r = 1) ∧
    ∀ E, FFT.new r n nSpan = .ok E →
      E.nqr = ((findNqr r ((r - 1) / 2) r 2 : Nat) : ZMod r) ∧
      E.roots.getD 1 0 = E.nqr ^ ((r - 1) / 2 ^ E.s) ∧
      E.roots.getD 1 0 ^ 2 ^ E.s = 1 ∧ E.roots.getD 1 0 ^ 2 ^ (E.s - 1) ≠ 1 := by
  have hr1 : 1 < r := hp.out.one_lt
  have hodd : r % 2 = 1 := (hp.out.eq_two_or_odd).resolve_left hr2
  have hr3 : 3 ≤ r := by omega
  have hrr : r - 1 + 1 = r := by omega
  haveI : Fact (2 < r) := ⟨by omega⟩
  obtain ⟨hy2, hyr, hyp⟩ := findNqr_prime r hr2
  set y := findNqr r ((r - 1) / 2) r 2 with hy
  have hne : y ^ ((r - 1) / 2) % r ≠ 1 := by
    intro hc
    have h1 := (natCast_eq_one_iff r _ hr1).mpr hc
    rw [Nat.cast_pow, hyp] at h1
    exact ZMod.neg_one_ne_one h1
  have hmin := (findNqr_spec r ((r - 1) / 2) r 2 y hy2 (by omega) hne).2.2.2
  rw [← hy] at hmin
  refine ⟨⟨hy2, hyr, hne, hmin⟩, ?_⟩
  intro E h
  have hE := FFT.new_tablesOk r hr2 n nSpan hn E h
  obtain ⟨dp, _, hnot, hs, hnqr, hroots, _⟩ := FFT.new_eq r n nSpan E h
  rw [hrr] at hnqr hroots
  obtain ⟨_, hmul⟩ := sLoop_success r dp hodd hr3 hnot
  obtain ⟨_, s2, _, _⟩ := sLoop_spec dp dp ((r - 1) / 2) 1 (by omega)
  have hget := (rootsTable_spec r y (sLoop dp dp ((r - 1) / 2) 1).1
    (sLoop dp dp ((r - 1) / 2) 1).2 nSpan s2 hn).2 1 (by
      calc 1 < 2 ^ 1 := by norm_num
        _ ≤ 2 ^ (sLoop dp dp ((r - 1) / 2) 1).2 := Nat.pow_le_pow_right (by norm_num) s2)
  rw [hrr, ← hroots] at hget
  have haux : (r - 1) / 2 ^ E.s = (sLoop dp dp ((r - 1) / 2) 1).1 := by
    rw [hs]
    exact Nat.div_eq_of_eq_mul_left (by positivity) hmul.symm
  refine ⟨hnqr, ?_, hE.pow_two_pow_s, ?_⟩
  · rw [getD_of_getElem? _ _ _ _ hget, pow_one, ZMod.natCast_mod, Nat.cast_pow, hnqr, haux]
  · rw [hE.root_prim]
    exact ZMod.neg_one_ne_one

/-- C14 over `r = 17`, on the engine built for `maxDomainSize = 4`: `nqr = 3`. -/
theorem FFT_new_nqr_witness :
    (17 ≠ 2 ∧ 1 ≤ 10 ∧ FFT.new 17 4 10 = .ok ⟨2, 3, [1, 13, 16, 4], [1, 9, 13]⟩) ∧
    ((⟨2, 3, [1, 13, 16, 4], [1, 9, 13]⟩ : FFT (ZMod 17)).nqr =
        ((findNqr 17 ((17 - 1) / 2) 17 2 : Nat) : ZMod 17) ∧
      (⟨2, 3, [1, 13, 16, 4], [1, 9, 13]⟩ : FFT (ZMod 17)).roots.getD 1 0 =
        (⟨2, 3, [1, 13, 16, 4], [1, 9, 13]⟩ : FFT (ZMod 17)).nqr ^
          ((17 - 1) / 2 ^ (⟨2, 3, [1, 13, 16, 4], [1, 9, 13]⟩ : FFT (ZMod 17)).s) ∧
      (⟨2, 3, [1, 13, 16, 4], [1, 9, 13]⟩ : FFT (ZMod 17)).roots.getD 1 0 ^
        2 ^ (⟨2, 3, [1, 13, 16, 4], [1, 9, 13]⟩ : FFT (ZMod 17)).s = 1 ∧
      (⟨2, 3, [1, 13, 16, 4], [1, 9, 13]⟩ : FFT (ZMod 17)).roots.getD 1 0 ^
        2 ^ ((⟨2, 3, [1, 13, 16, 4], [1, 9, 13]⟩ : FFT (ZMod 17)).s - 1) ≠ 1) :=
  ⟨⟨by decide, by decide, rfl⟩,
    (@FFT_new_nqr 17 ⟨by norm_num⟩ (by decide) 4 10 (by decide)).2 _ rfl⟩

theorem FFT.new_powTwoInv_get (r n nSpan : Nat) (hodd : r % 2 = 1) (hr : 3 ≤ r)
    (E : FFT (ZMod r)) (h : FFT.new r n nSpan = .ok E) :
    ∀ k, k ≤ E.s → ∃ c, E.powTwoInv[k]? = some c ∧ c * 2 ^ k = 1 := by
  obtain ⟨dp, _, _, hs, _, _, hinv⟩ := FFT.new_eq r n nSpan E h
  obtain ⟨_, s2, _, _⟩ := sLoop_spec dp dp ((r - 1) / 2) 1 (by omega)
  rw [hinv, hs]
  exact fun k hk => powTwoInvTable_spec r _ hodd hr s2 k hk

/-- C15. After a successful construction over an odd modulus `r ≥ 3`, `powTwoInv` has
`s + 1` entries and `powTwoInv[k] · 2^k = 1` for every `k ≤ s`. -/
theorem FFT_new_powTwoInv (r n nSpan : Nat) (hodd : r % 2 = 1) (hr : 3 ≤ r)
    (E : FFT (ZMod r)) (h : FFT.new r n nSpan = .ok E) :
    E.powTwoInv.length = E.s + 1 ∧
      ∀ k, k ≤ E.s → ∃ c, E.powTwoInv[k]? = some c ∧ c * 2 ^ k = 1 := by
  obtain ⟨dp, _, _, hs, _, _, hinv⟩ := FFT.new_eq r n nSpan E h
  obtain ⟨_, s2, _, _⟩ := sLoop_spec dp dp ((r - 1) / 2) 1 (by omega)
  rw [hinv, hs]
  exact ⟨powTwoInvTable_length r _, fun k hk => powTwoInvTable_spec r _ hodd hr s2 k hk⟩

/-- C15 on the engine built over `r = 17` for `maxDomainSize = 4`. -/
theorem FFT_new_powTwoInv_witness :
    (17 % 2 = 1 ∧ 3 ≤ 17 ∧ FFT.new 17 4 10 = .ok ⟨2, 3, [1, 13, 16, 4], [1, 9, 13]⟩) ∧
    ((⟨2, 3, [1, 13, 16, 4], [1, 9, 13]⟩ : FFT (ZMod 17)).powTwoInv.length =
        (⟨2, 3, [1, 13, 16, 4], [1, 9, 13]⟩ : FFT (ZMod 17)).s + 1 ∧
      ∀ k, k ≤ (⟨2, 3, [1, 13, 16, 4], [1, 9, 13]⟩ : FFT (ZMod 17)).s →
        ∃ c, (⟨2, 3, [1, 13, 16, 4], [1, 9, 13]⟩ : FFT (ZMod 17)).powTwoInv[k]? = some c ∧
          c * 2 ^ k = 1) :=
  ⟨⟨by decide, by decide, rfl⟩, FFT_new_powTwoInv 17 4 10 (by decide) (by decide) _ rfl⟩

/-! ## The transforms at `n = 1` -/

theorem fft_one {F : Type} [CommRing F] (E : FFT F) (a : Buffer F) : E.fft a 1 = .ok a := rfl

theorem ifft_one {F : Type} [CommRing F] (E : FFT F) (a : Buffer F)
    (h0 : E.powTwoInv[0]? = some 1) : E.ifft a 1 = .ok a := by
  unfold FFT.ifft
  rw [fft_one]
  have hl : log2 1 = .ok 0 := rfl
  simp only [hl]
  have hp : E.powTwoInvAt 0 = .ok 1 := by
    unfold FFT.powTwoInvAt
    rw [h0]
  have hnil : (List.range' 1 ((1 >>> 1) - 1)) = [] := rfl
  rw [hnil]
  simp only [List.foldlM_nil, pure, Except.pure, hp]
  congr 1
  apply Buffer.ext
  intro x
  simp only [Buffer.get_write]
  split_ifs <;> simp_all

/-- C16. On every engine the constructor returns (odd modulus `r ≥ 3`), `fft(a, 1)` and
`ifft(a, 1)` succeed and return the buffer as it was: `a[0]` is unchanged and no other index
is written; `powTwoInv[0]`, by which `ifft` scales `a[0]`, is 1. -/
theorem fft_ifft_one (r n nSpan : Nat) (hodd : r % 2 = 1) (hr : 3 ≤ r) (E : FFT (ZMod r))
    (h : FFT.new r n nSpan = .ok E) (a : Buffer (ZMod r)) :
    E.fft a 1 = .ok a ∧ E.ifft a 1 = .ok a ∧ E.powTwoInv[0]? = some 1 := by
  obtain ⟨c, hc, hc1⟩ := (FFT.new_powTwoInv_get r n nSpan hodd hr E h) 0 (Nat.zero_le _)
  rw [pow_zero, mul_one] at hc1
  rw [hc1] at hc
  exact ⟨fft_one E a, ifft_one E a hc, hc⟩

/-- C16 on the engine built over `r = 17` for `maxDomainSize = 4`, with `a[i] = i`. -/
theorem fft_ifft_one_witness :
    (17 % 2 = 1 ∧ 3 ≤ 17 ∧ FFT.new 17 4 10 = .ok ⟨2, 3, [1, 13, 16, 4], [1, 9, 13]⟩) ∧
    ((⟨2, 3, [1, 13, 16, 4], [1, 9, 13]⟩ : FFT (ZMod 17)).fft ⟨fun i => i⟩ 1 =
        .ok ⟨fun i => i⟩ ∧
      (⟨2, 3, [1, 13, 16, 4], [1, 9, 13]⟩ : FFT (ZMod 17)).ifft ⟨fun i => i⟩ 1 =
        .ok ⟨fun i => i⟩ ∧
      (⟨2, 3, [1, 13, 16, 4], [1, 9, 13]⟩ : FFT (ZMod 17)).powTwoInv[0]? = some 1) :=
  ⟨⟨by decide, by decide, rfl⟩, fft_ifft_one 17 4 10 (by decide) (by decide) _ rfl _⟩

/-! ## The GPU dispatch of the masked multiexp -/

/-- With a backend that succeeds and returns the exact sum, the masked `multiexp` built
with the GPU dispatch returns the sum over all `i < n`, whatever `nx` and `sizes` are
(32-byte scalars, `1 ≤ n < 2^31`). -/
theorem multiexpMaskedGpu_exact {G : Type} [AddCommGroup G] [DecidableEq G] (nThreads : Nat)
    (sch : Schedule nThreads) (bases : Nat → G) (scalars : Nat → Fin 256) (n nx : Nat)
    (x : Nat → Nat) (h1 : 1 ≤ n) (hn : n < 2 ^ 31) :
    multiexpMaskedGpu exactMsm nThreads sch bases scalars 32 n nx x =
      naiveSum bases scalars 32 n := by
  have hc : castInt n = (n : Int) := by
    unfold castInt
    rw [Nat.mod_eq_of_lt (by omega), if_pos hn]
  unfold multiexpMaskedGpu msm_g1 exactMsm
  rw [if_neg (by omega), if_neg (by simp), hc, Int.toNat_natCast]
  rfl

/-- C17, at the input on which the code leaves the claim: two bases equal to `1 : ℤ`, two
32-byte scalars equal to one, `nx = 1` and `sizes = [1]`, which selects index 0 only. The
CPU path returns 1; with the GPU dispatch and a backend that returns the exact sum, the
masked `multiexp` hands `bases`, `scalars` and `n` to the shim without `nx` and `sizes`,
and returns 2. -/
theorem multiexpMaskedGpu_at_masked_input :
    multiexpMaskedGpu exactMsm 1 oneWorker (fun _ => (1 : ℤ)) (constScalars 32 1) 32 2 1
        (fun _ => 1) = 2 ∧
      multiexpMasked 1 oneWorker (fun _ => (1 : ℤ)) (constScalars 32 1) 32 2 1
        (fun _ => 1) = 1 := by
  constructor
  · rw [multiexpMaskedGpu_exact 1 oneWorker _ _ 2 1 _ (by decide) (by decide)]
    unfold naiveSum
    simp only [Finset.sum_range_succ, Finset.sum_range_zero, scalarValue_constScalars 32 1 _
      (by decide : 1 ≤ 32)]
    norm_num
  · rw [multiexpMasked_eq_sum 1 oneWorker _ _ 32 2 1 _ (by decide) (by decide)]
    simp only [Finset.sum_range_succ, Finset.sum_range_zero, scalarValue_constScalars 32 1 _
      (by decide : 1 ≤ 32)]
    norm_num

/-! ## `getChunk` -/

theorem chunk_bitStart_lt {G : Type} (pm : ParallelMultiexp G) (hW : 8 ≤ pm.scalarSize)
    (hN : pm.nChunks = (pm.scalarSize * 8 - 1) / pm.bitsPerChunk + 1) (c : Nat)
    (hc : c < pm.nChunks) : c * pm.bitsPerChunk < pm.scalarSize * 8 := by
  rw [hN] at hc
  have h1 : c ≤ (pm.scalarSize * 8 - 1) / pm.bitsPerChunk := by omega
  have h2 := Nat.mul_le_mul_right pm.bitsPerChunk h1
  have h3 := Nat.div_mul_le_self (pm.scalarSize * 8 - 1) pm.bitsPerChunk
  omega

theorem chunks_cover {G : Type} (pm : ParallelMultiexp G) (hb1 : 1 ≤ pm.bitsPerChunk)
    (hN : pm.nChunks = (pm.scalarSize * 8 - 1) / pm.bitsPerChunk + 1) :
    pm.scalarSize * 8 ≤ pm.nChunks * pm.bitsPerChunk := by
  rw [hN]
  have h1 := Nat.div_add_mod (pm.scalarSize * 8 - 1) pm.bitsPerChunk
  have h2 := Nat.mod_lt (pm.scalarSize * 8 - 1) (show 0 < pm.bitsPerChunk by omega)
  have h3 : ((pm.scalarSize * 8 - 1) / pm.bitsPerChunk + 1) * pm.bitsPerChunk =
      pm.bitsPerChunk * ((pm.scalarSize * 8 - 1) / pm.bitsPerChunk) + pm.bitsPerChunk := by
    ring
  rw [h3]
  omega

/-- C18. For scalars of `W ≥ 8` bytes, `bitsPerChunk = b` in `[1, 16]` and
`nChunks = (8W − 1) / b + 1`, `getChunk(i, c)` is `⌊S_i / 2^(c·b)⌋ mod 2^b` for every scalar
index `i` and every chunk `c < nChunks`, `S_i` being the `W`-byte little-endian integer of
scalar `i`; the trailing chunks, where `byteStart` is clamped or fewer than `b` bits remain,
are included. -/
theorem getChunk_spec {G : Type} (pm : ParallelMultiexp G) (hW : 8 ≤ pm.scalarSize)
    (hb1 : 1 ≤ pm.bitsPerChunk) (hb : pm.bitsPerChunk ≤ 16)
    (hN : pm.nChunks = (pm.scalarSize * 8 - 1) / pm.bitsPerChunk + 1) (i c : Nat)
    (hc : c < pm.nChunks) :
    pm.getChunk i c =
      scalarValue pm.scalars pm.scalarSize i / 2 ^ (c * pm.bitsPerChunk) %
        2 ^ pm.bitsPerChunk :=
  getChunk_eq pm hW hb1 hb i c (chunk_bitStart_lt pm hW hN c hc)

/-- C18 at 8-byte scalars with all bytes `0xFF`, `b = 3`, and the last chunk `c = 21`, which
starts at bit 63: one bit remains. -/
theorem getChunk_spec_witness :
    (8 ≤ 8 ∧ 1 ≤ 3 ∧ 3 ≤ 16 ∧ 22 = (8 * 8 - 1) / 3 + 1 ∧ 21 < 22) ∧
    (⟨fun _ => (0 : ℤ), fun _ => 255, 8, 1, 1, 3, 8, 22⟩ : ParallelMultiexp ℤ).getChunk 0 21 =
      scalarValue (fun _ => 255) 8 0 / 2 ^ (21 * 3) % 2 ^ 3 :=
  ⟨by decide, getChunk_spec ⟨fun _ => (0 : ℤ), fun _ => 255, 8, 1, 1, 3, 8, 22⟩ (by decide)
    (by decide) (by decide) (by decide) 0 21 (by decide)⟩

/-- C19. For scalars of `W ≥ 8` bytes, `b` in `[1, 16]` and `nChunks = (8W − 1) / b + 1`,
which is `⌈8W / b⌉`, the chunks recompose the scalar:
`Σ_{c < nChunks} getChunk(i, c) · 2^(c·b) = S_i`. -/
theorem getChunk_sum {G : Type} (pm : ParallelMultiexp G) (hW : 8 ≤ pm.scalarSize)
    (hb1 : 1 ≤ pm.bitsPerChunk) (hb : pm.bitsPerChunk ≤ 16)
    (hN : pm.nChunks = (pm.scalarSize * 8 - 1) / pm.bitsPerChunk + 1) (i : Nat) :
    ∑ c ∈ Finset.range pm.nChunks, pm.getChunk i c * 2 ^ (c * pm.bitsPerChunk) =
        scalarValue pm.scalars pm.scalarSize i ∧
      (pm.nChunks - 1) * pm.bitsPerChunk < pm.scalarSize * 8 ∧
      pm.scalarSize * 8 ≤ pm.nChunks * pm.bitsPerChunk := by
  have hfull := chunks_cover pm hb1 hN
  have hpos : 1 ≤ pm.nChunks := by rw [hN]; exact Nat.le_add_left 1 _
  refine ⟨?_, chunk_bitStart_lt pm hW hN (pm.nChunks - 1) (by omega), hfull⟩
  rw [Finset.sum_congr rfl (fun c hc => by
    rw [getChunk_eq pm hW hb1 hb i c
      (chunk_bitStart_lt pm hW hN c (Finset.mem_range.mp hc))]), sum_digits,
    Nat.mod_eq_of_lt]
  exact lt_of_lt_of_le (scalarValue_lt _ _ _) (Nat.pow_le_pow_right (by norm_num) hfull)

/-- C19 at 8-byte scalars with all bytes `0xFF` and `b = 3`: 22 chunks for 64 bits. -/
theorem getChunk_sum_witness :
    (8 ≤ 8 ∧ 1 ≤ 3 ∧ 3 ≤ 16 ∧ 22 = (8 * 8 - 1) / 3 + 1) ∧
    (∑ c ∈ Finset.range 22,
        (⟨fun _ => (0 : ℤ), fun _ => 255, 8, 1, 1, 3, 8, 22⟩ : ParallelMultiexp ℤ).getChunk 0 c *
          2 ^ (c * 3) = scalarValue (fun _ => 255) 8 0 ∧
      (22 - 1) * 3 < 8 * 8 ∧ 8 * 8 ≤ 22 * 3) :=
  ⟨by decide, getChunk_sum ⟨fun _ => (0 : ℤ), fun _ => 255, 8, 1, 1, 3, 8, 22⟩ (by decide)
    (by decide) (by decide) (by decide) 0⟩

/-- C20. For scalars of `W ≥ 8` bytes, `b` in `[1, 16]` and every chunk `c < nChunks`,
the 8-byte load of `getChunk` stays inside scalar `i`: `byteStart = min(bitStart / 8, W − 8)`,
so `byteStart + 8 ≤ W`; the shift `bitStart − 8·byteStart` does not wrap, is at most 63, and
leaves at least `efectiveBitsPerChunk` bits above it in the loaded word. -/
theorem getChunk_load_in_bounds {G : Type} (pm : ParallelMultiexp G) (hW : 8 ≤ pm.scalarSize)
    (hb1 : 1 ≤ pm.bitsPerChunk) (hb : pm.bitsPerChunk ≤ 16)
    (hN : pm.nChunks = (pm.scalarSize * 8 - 1) / pm.bitsPerChunk + 1) (i c : Nat)
    (hc : c < pm.nChunks) :
    pm.getChunk i c =
        (loadLE pm.scalars (i * pm.scalarSize + pm.byteStart c) 8 >>> pm.shift c) &&&
          ((intShl1 (pm.efectiveBitsPerChunk c) + 2 ^ 64 - 1) % 2 ^ 64) ∧
      pm.byteStart c = min (c * pm.bitsPerChunk / 8) (pm.scalarSize - 8) ∧
      pm.byteStart c + 8 ≤ pm.scalarSize ∧
      i * pm.scalarSize + pm.byteStart c + 8 ≤ (i + 1) * pm.scalarSize ∧
      pm.byteStart c * 8 ≤ c * pm.bitsPerChunk ∧
      pm.shift c ≤ 63 ∧
      pm.shift c + pm.efectiveBitsPerChunk c ≤ 64 := by
  have hcb := chunk_bitStart_lt pm hW hN c hc
  have hB : pm.byteStart c = min (c * pm.bitsPerChunk / 8) (pm.scalarSize - 8) := by
    unfold ParallelMultiexp.byteStart
    simp only
    have hlim : (if pm.scalarSize < 8 then pm.scalarSize + 2 ^ 64 - 8 else pm.scalarSize - 8) =
        pm.scalarSize - 8 := if_neg (by omega)
    rw [hlim]
    split_ifs with h
    · rw [min_eq_right (by omega)]
    · rw [min_eq_left (by omega)]
  have hB8 : pm.byteStart c + 8 ≤ pm.scalarSize := by
    rw [hB]; have := min_le_right (c * pm.bitsPerChunk / 8) (pm.scalarSize - 8); omega
  have hBle : pm.byteStart c * 8 ≤ c * pm.bitsPerChunk := by
    rw [hB]; have := min_le_left (c * pm.bitsPerChunk / 8) (pm.scalarSize - 8); omega
  have hsh : pm.shift c + pm.efectiveBitsPerChunk c ≤ 64 := by
    unfold ParallelMultiexp.shift ParallelMultiexp.efectiveBitsPerChunk
    simp only
    rcases min_choice (c * pm.bitsPerChunk / 8) (pm.scalarSize - 8) with hm | hm
    · rw [hB, hm]; split_ifs <;> omega
    · rw [hB, hm]; split_ifs <;> omega
  have heff : 1 ≤ pm.efectiveBitsPerChunk c := by
    unfold ParallelMultiexp.efectiveBitsPerChunk
    simp only
    split_ifs <;> omega
  refine ⟨rfl, hB, hB8, ?_, hBle, by omega, hsh⟩
  rw [Nat.add_mul, Nat.one_mul]
  omega

/-- C20 at 8-byte scalars, `b = 3` and the last chunk `c = 21` (bit 63), where
`byteStart` is clamped to 0. -/
theorem getChunk_load_in_bounds_witness :
    (8 ≤ 8 ∧ 1 ≤ 3 ∧ 3 ≤ 16 ∧ 22 = (8 * 8 - 1) / 3 + 1 ∧ 21 < 22) ∧
    ((⟨fun _ => (0 : ℤ), fun _ => 255, 8, 1, 1, 3, 8, 22⟩ : ParallelMultiexp ℤ).byteStart 21 +
        8 ≤ 8 ∧
      (⟨fun _ => (0 : ℤ), fun _ => 255, 8, 1, 1, 3, 8, 22⟩ : ParallelMultiexp ℤ).shift 21 ≤
        63 ∧
      (⟨fun _ => (0 : ℤ), fun _ => 255, 8, 1, 1, 3, 8, 22⟩ : ParallelMultiexp ℤ).shift 21 +
        (⟨fun _ => (0 : ℤ), fun _ => 255, 8, 1, 1, 3, 8, 22⟩ :
          ParallelMultiexp ℤ).efectiveBitsPerChunk 21 ≤ 64) :=
  have h := getChunk_load_in_bounds
    (⟨fun _ => (0 : ℤ), fun _ => 255, 8, 1, 1, 3, 8, 22⟩ : ParallelMultiexp ℤ) (by decide)
    (by decide) (by decide) (by decide) 0 21 (by decide)
  ⟨by decide, h.2.2.1, h.2.2.2.2.2.1, h.2.2.2.2.2.2⟩


/-! ## `reduce` and the specified procedure -/

/-- The folding loop of the specified `reduce` over the indices `[1, 1 + c)`. -/
theorem foldl_reduceStep_from_one {G : Type} [AddCommGroup G] [DecidableEq G] {nThreads : Nat}
    (ndiv2 : Nat) (tid : Nat → Fin nThreads) (accs sall : Buffer G)
    (c : Nat) (hc : 1 + c ≤ ndiv2) :
    (∀ x, ((List.range' 1 c).foldl (reduceStep ndiv2 tid) (accs, sall)).1.get x =
      if 1 ≤ x ∧ x < 1 + c then accs.get x + accs.get (ndiv2 + x)
      else if ndiv2 + 1 ≤ x ∧ x < ndiv2 + 1 + c then 0 else accs.get x) ∧
    ∑ u ∈ Finset.range nThreads,
        ((List.range' 1 c).foldl (reduceStep ndiv2 tid) (accs, sall)).2.get u =
      ∑ u ∈ Finset.range nThreads, sall.get u +
        ∑ i ∈ Finset.range c, accs.get (ndiv2 + (1 + i)) := by
  have hnd : 0 < ndiv2 := by omega
  induction c with
  | zero =>
    constructor
    · intro x
      simp only [List.range'_zero, List.foldl_nil]
      rw [if_neg (by omega), if_neg (by omega)]
    · simp
  | succ c ih =>
    obtain ⟨ih1, ih2⟩ := ih (by omega)
    rw [List.range'_1_concat, List.foldl_append]
    simp only [List.foldl_cons, List.foldl_nil]
    have hm1 : ((List.range' 1 c).foldl (reduceStep ndiv2 tid) (accs, sall)).1.get (1 + c) =
        accs.get (1 + c) := by
      rw [ih1 (1 + c), if_neg (by omega), if_neg (by omega)]
    have hm2 : ((List.range' 1 c).foldl (reduceStep ndiv2 tid) (accs, sall)).1.get
        (ndiv2 + (1 + c)) = accs.get (ndiv2 + (1 + c)) := by
      rw [ih1 (ndiv2 + (1 + c)), if_neg (by omega), if_neg (by omega)]
    constructor
    · intro x
      rw [reduceStep_fst_get, hm1, hm2, ih1 x]
      split_ifs <;> first | rfl | (exfalso; omega) | (subst_vars; rfl)
    · rw [reduceStep_snd_sum ndiv2 hnd, ih2, hm2, Finset.sum_range_succ]
      abel

/-- The specified `reduce(res, nBits)` for `nBits ≥ 1`: `res` is `Σ_b b · accs[b]` over the
buckets `b < 2^nBits`, and the buckets from `2^nBits` on are untouched. -/
theorem reduceSpecified_spec {G : Type} [AddCommGroup G] [DecidableEq G] (nThreads : Nat)
    (tid : Nat → Nat → Fin nThreads) (k : Nat) (accs : Buffer G) :
    (reduceSpecified nThreads tid (k + 1) accs).1 =
        ∑ v ∈ Finset.range (2 ^ (k + 1)), v • accs.get v ∧
      (∀ x, 2 ^ (k + 1) ≤ x →
        (reduceSpecified nThreads tid (k + 1) accs).2.get x = accs.get x) := by
  induction k generalizing accs with
  | zero =>
    refine ⟨?_, ?_⟩
    · show accs.get 1 = _
      simp [Finset.sum_range_succ]
    · intro x h1
      show (accs.write 1 0).get x = _
      rw [Buffer.get_write, if_neg (by simp at h1; omega)]
  | succ k ih =>
    have hpos : 0 < 2 ^ (k + 1) := by positivity
    obtain ⟨hf1, hf2⟩ := foldl_reduceStep_from_one (2 ^ (k + 1)) (tid (k + 2)) accs
      (Buffer.fill 0) (2 ^ (k + 1) - 1) (by omega)
    set st := (List.range' 1 (2 ^ (k + 1) - 1)).foldl
      (reduceStep (2 ^ (k + 1)) (tid (k + 2))) (accs, Buffer.fill 0) with hst
    set a2 := st.1.write (2 ^ (k + 1))
      (st.1.get (2 ^ (k + 1)) + ∑ t ∈ Finset.range nThreads, st.2.get t) with ha2
    have hhigh : ∑ i ∈ Finset.range (2 ^ (k + 1)), accs.get (2 ^ (k + 1) + i) =
        accs.get (2 ^ (k + 1)) +
          ∑ i ∈ Finset.range (2 ^ (k + 1) - 1), accs.get (2 ^ (k + 1) + (1 + i)) := by
      obtain ⟨m, hm⟩ : ∃ m, 2 ^ (k + 1) - 1 = m := ⟨_, rfl⟩
      have e : 2 ^ (k + 1) = m + 1 := by omega
      rw [hm]
      conv_lhs => rw [show Finset.range (2 ^ (k + 1)) = Finset.range (m + 1) by rw [e]]
      rw [Finset.sum_range_succ', Nat.add_zero, add_comm]
      congr 1
      apply Finset.sum_congr rfl
      intro i _
      rw [Nat.add_comm i 1]
    have ha2get : ∀ x, a2.get x =
        if x = 2 ^ (k + 1) then ∑ i ∈ Finset.range (2 ^ (k + 1)), accs.get (2 ^ (k + 1) + i)
        else st.1.get x := by
      intro x
      rw [ha2, Buffer.get_write]
      by_cases hx : x = 2 ^ (k + 1)
      · rw [if_pos hx, if_pos hx, hf1, if_neg (by omega), if_neg (by omega), hf2, hhigh]
        simp
      · rw [if_neg hx, if_neg hx]
    obtain ⟨hr1, hr3⟩ := ih a2
    set rec := reduceSpecified nThreads tid (k + 1) a2 with hrec
    set a4 := (List.range (k + 1)).foldl
      (fun accs _ => accs.write (2 ^ (k + 1)) (accs.get (2 ^ (k + 1)) + accs.get (2 ^ (k + 1))))
      rec.2 with ha4
    have hunfold : reduceSpecified nThreads tid (k + 1 + 1) accs =
        (rec.1 + a4.get (2 ^ (k + 1)), a4.write (2 ^ (k + 1)) 0) := by
      show reduceSpecified nThreads tid (k + 2) accs = _
      rw [reduceSpecified]
    rw [hunfold]
    have ha4get : ∀ x, a4.get x =
        if x = 2 ^ (k + 1) then 2 ^ (k + 1) • rec.2.get (2 ^ (k + 1)) else rec.2.get x := by
      intro x; rw [ha4, foldl_dbl_get]
    have hrecnd : rec.2.get (2 ^ (k + 1)) =
        ∑ i ∈ Finset.range (2 ^ (k + 1)), accs.get (2 ^ (k + 1) + i) := by
      rw [hr3 _ (le_refl _), ha2get, if_pos rfl]
    refine ⟨?_, ?_⟩
    · show rec.1 + a4.get (2 ^ (k + 1)) = _
      rw [ha4get, if_pos rfl, hrecnd, hr1]
      have hsplit : (2 : Nat) ^ (k + 1 + 1) = 2 ^ (k + 1) + 2 ^ (k + 1) := by
        rw [pow_succ]; ring
      rw [hsplit, Finset.sum_range_add, Finset.smul_sum, ← Finset.sum_add_distrib,
        ← Finset.sum_add_distrib]
      apply Finset.sum_congr rfl
      intro v hv
      have hv' := Finset.mem_range.mp hv
      rw [ha2get, if_neg (by omega), hf1]
      by_cases hv1 : 1 ≤ v
      · rw [if_pos ⟨hv1, by omega⟩, smul_add, add_smul]
        abel
      · have hv0 : v = 0 := by omega
        subst hv0
        rw [zero_smul, zero_smul, zero_add, zero_add]
        rfl
    · intro x h1
      show (a4.write (2 ^ (k + 1)) 0).get x = _
      have h2 : 2 ^ (k + 1 + 1) = 2 ^ (k + 1) + 2 ^ (k + 1) := by rw [pow_succ]; ring
      rw [Buffer.get_write, if_neg (by omega), ha4get, if_neg (by omega), hr3 x (by omega),
        ha2get, if_neg (by omega), hf1, if_neg (by omega), if_neg (by omega)]

theorem sum_range_eq_sum_Ico_one {G : Type} [AddCommGroup G] (f : Nat → G) (N : Nat) :
    ∑ v ∈ Finset.range N, v • f v = ∑ b ∈ Finset.Ico 1 N, b • f b := by
  rcases Nat.eq_zero_or_pos N with h | h
  · subst h; simp
  · rw [Finset.range_eq_Ico, Finset.sum_eq_sum_Ico_succ_bot h, zero_smul, zero_add]

/-- C21. For every `nBits` with `1 ≤ nBits ≤ 31`, every content of the buckets, every worker
count and every assignment of the loop indices to workers, `reduce(res, nBits)` sets `res`
to `Σ_{1 ≤ b < 2^nBits} b · accs[b]`. -/
theorem reduce_sum {G : Type} [AddCommGroup G] [DecidableEq G] (nThreads : Nat)
    (tid : Nat → Nat → Fin nThreads) (nBits : Nat) (h1 : 1 ≤ nBits) (h31 : nBits ≤ 31)
    (accs : Buffer G) :
    (reduce nThreads tid nBits accs).1 = ∑ b ∈ Finset.Ico 1 (2 ^ nBits), b • accs.get b := by
  obtain ⟨k, rfl⟩ : ∃ k, nBits = k + 1 := ⟨nBits - 1, by omega⟩
  rw [(reduce_spec nThreads tid k h31 accs).1, sum_range_eq_sum_Ico_one]

/-- C21 at `nBits = 3`, two workers with the loop indices assigned alternately, and
`accs[b] = b` in `ℤ`: `Σ b·b = 140`. -/
theorem reduce_sum_witness :
    (1 ≤ 3 ∧ 3 ≤ 31) ∧
    (reduce 2 (fun _ i => ⟨i % 2, Nat.mod_lt _ (by decide)⟩) 3
        (⟨fun i => (i : ℤ)⟩ : Buffer ℤ)).1 =
      ∑ b ∈ Finset.Ico 1 (2 ^ 3), b • (⟨fun i => (i : ℤ)⟩ : Buffer ℤ).get b :=
  ⟨by decide, reduce_sum 2 _ 3 (by decide) (by decide) _⟩

/-- C22. For `1 ≤ nBits ≤ 31`, every bucket content and every worker assignment of either
run, the code's `reduce`, whose folding loop runs over `[0, ndiv2)`, returns the same `res`
as the specified procedure, whose folding loop runs over `[1, ndiv2)`. -/
theorem reduce_refines {G : Type} [AddCommGroup G] [DecidableEq G] (nThreads : Nat)
    (tid tid2 : Nat → Nat → Fin nThreads) (nBits : Nat) (h1 : 1 ≤ nBits) (h31 : nBits ≤ 31)
    (accs : Buffer G) :
    (reduce nThreads tid nBits accs).1 = (reduceSpecified nThreads tid2 nBits accs).1 := by
  obtain ⟨k, rfl⟩ : ∃ k, nBits = k + 1 := ⟨nBits - 1, by omega⟩
  rw [(reduce_spec nThreads tid k h31 accs).1, (reduceSpecified_spec nThreads tid2 k accs).1]

/-- C22 at `nBits = 3`, two workers and `accs[b] = b` in `ℤ` (bucket `ndiv2 = 4` is
nonzero, so the code's loop folds it at `i = 0`). -/
theorem reduce_refines_witness :
    (1 ≤ 3 ∧ 3 ≤ 31) ∧
    (reduce 2 (fun _ i => ⟨i % 2, Nat.mod_lt _ (by decide)⟩) 3
        (⟨fun i => (i : ℤ)⟩ : Buffer ℤ)).1 =
      (reduceSpecified 2 (fun _ _ => 0) 3 (⟨fun i => (i : ℤ)⟩ : Buffer ℤ)).1 :=
  ⟨by decide, reduce_refines 2 _ _ 3 (by decide) (by decide) _⟩

/-! ## One chunk: scatter, pack, reduce -/

/-- One chunk of the standard `multiexp`, from buckets that are zero from index 1 on, for
any worker assignment of the scatter and of the folding loops: the chunk result is the sum
of `getChunk(i, c) · bases[i]` over the indices that `processChunk` visits, and the buckets
are zero from index 1 on again. -/
theorem processChunk_result {G : Type} [AddCommGroup G] [DecidableEq G]
    (pm : ParallelMultiexp G) (hW : 8 ≤ pm.scalarSize) (hb1 : 1 ≤ pm.bitsPerChunk)
    (hb : pm.bitsPerChunk ≤ 16) (hA : pm.accsPerChunk = 2 ^ pm.bitsPerChunk)
    (hN : pm.nChunks = (pm.scalarSize * 8 - 1) / pm.bitsPerChunk + 1) (c : Nat)
    (hc : c < pm.nChunks) (tid : Nat → Fin pm.nThreads) (ftid : Nat → Nat → Fin pm.nThreads)
    (accs : Buffer G) (hinv : ∀ x, 1 ≤ x → accs.get x = 0) :
    (reduce pm.nThreads ftid pm.bitsPerChunk (pm.packThreads (pm.processChunk c tid accs))).1 =
        ∑ i ∈ Finset.range (pm.n % 2 ^ 32), pm.getChunk i c • pm.bases i ∧
      ∀ x, 1 ≤ x → (reduce pm.nThreads ftid pm.bitsPerChunk
        (pm.packThreads (pm.processChunk c tid accs))).2.get x = 0 := by
  have h := chunkResult_spec pm hb1 hb hA c (pm.n % 2 ^ 32) tid ftid (fun i => pm.bases i ≠ 0)
    (fun i => getChunk_lt pm hW hb1 hb i c (chunk_bitStart_lt pm hW hN c hc)) accs hinv
  rw [processChunk_eq]
  refine ⟨?_, h.2⟩
  rw [h.1]
  refine Finset.sum_congr rfl (fun i _ => ?_)
  by_cases hz : pm.bases i = 0
  · rw [if_neg (not_not.mpr hz), hz, smul_zero]
  · rw [if_pos hz]

theorem chunkLoop_eq {G : Type} [AddCommGroup G] [DecidableEq G] (pm : ParallelMultiexp G)
    (sch : Schedule pm.nThreads) (st : Buffer G × Buffer G) (c : Nat) :
    pm.chunkLoop sch st c =
      ((reduce pm.nThreads (sch.fold c) pm.bitsPerChunk
          (pm.packThreads (pm.processChunk c (sch.scatter c) st.1))).2,
        st.2.write c (reduce pm.nThreads (sch.fold c) pm.bitsPerChunk
          (pm.packThreads (pm.processChunk c (sch.scatter c) st.1))).1) := rfl

/-- The buckets after any number of chunk iterations of the standard `multiexp`. -/
theorem chunkLoop_invariant {G : Type} [AddCommGroup G] [DecidableEq G]
    (pm : ParallelMultiexp G) (hW : 8 ≤ pm.scalarSize) (hb1 : 1 ≤ pm.bitsPerChunk)
    (hb : pm.bitsPerChunk ≤ 16) (hA : pm.accsPerChunk = 2 ^ pm.bitsPerChunk)
    (hN : pm.nChunks = (pm.scalarSize * 8 - 1) / pm.bitsPerChunk + 1)
    (sch : Schedule pm.nThreads) (m : Nat) (hm : m ≤ pm.nChunks) :
    ∀ x, 1 ≤ x →
      ((List.range m).foldl (pm.chunkLoop sch) (Buffer.fill 0, Buffer.fill 0)).1.get x = 0 := by
  induction m with
  | zero => intro x _; rfl
  | succ m ih =>
    rw [List.range_succ, List.foldl_append]
    simp only [List.foldl_cons, List.foldl_nil]
    rw [chunkLoop_eq]
    exact (processChunk_result pm hW hb1 hb hA hN m (by omega) _ _ _ (ih (by omega))).2

/-- C23, at the input on which the code leaves the claim: `n = 2^32` bases equal to `1 : ℤ`
with 8-byte scalars equal to one, chunk 0. For every worker count and every worker
assignment the range `blocked_range<uint32_t>(0, n)` of `processChunk` is empty, so scatter,
pack and reduce return the identity, while the sum of `getChunk(i, 0) · B_i` over `i < n`
is `2^32`. -/
theorem chunk_at_two_pow_32 (P : Nat) (tid : Nat → Fin P) (ftid : Nat → Nat → Fin P) :
    (reduce P ftid
        (ParallelMultiexp.setup (fun _ => (1 : ℤ)) (constScalars 8 1) 8 (2 ^ 32) P).bitsPerChunk
        ((ParallelMultiexp.setup (fun _ => (1 : ℤ)) (constScalars 8 1) 8 (2 ^ 32) P).packThreads
          ((ParallelMultiexp.setup (fun _ => (1 : ℤ)) (constScalars 8 1) 8 (2 ^ 32)
            P).processChunk 0 tid (Buffer.fill 0)))).1 = 0 ∧
    ∑ i ∈ Finset.range (2 ^ 32),
      (ParallelMultiexp.setup (fun _ => (1 : ℤ)) (constScalars 8 1) 8 (2 ^ 32) P).getChunk i 0 •
        (1 : ℤ) = 2 ^ 32 := by
  have hbits := setup_bits (fun _ => (1 : ℤ)) (constScalars 8 1) 8 (2 ^ 32) P
  have hA := setup_accs (fun _ => (1 : ℤ)) (constScalars 8 1) 8 (2 ^ 32) P
  have hN := setup_nChunks (fun _ => (1 : ℤ)) (constScalars 8 1) 8 (2 ^ 32) P
  set pm := ParallelMultiexp.setup (fun _ => (1 : ℤ)) (constScalars 8 1) 8 (2 ^ 32) P with hpm
  have hW : 8 ≤ pm.scalarSize := le_refl 8
  have hc : 0 < pm.nChunks := by rw [hN]; exact Nat.succ_pos _
  constructor
  · have h := (processChunk_result pm hW (by omega) hbits.2 hA hN 0 hc tid ftid
      (Buffer.fill 0) (fun _ _ => rfl)).1
    have hn : pm.n % 2 ^ 32 = 0 := Nat.mod_self _
    rw [hn, Finset.range_zero, Finset.sum_empty] at h
    exact h
  · have hg : ∀ i, pm.getChunk i 0 = 1 := by
      intro i
      rw [getChunk_eq pm hW (by omega) hbits.2 i 0 (by
        rw [Nat.zero_mul]; exact Nat.mul_pos (by omega) (by norm_num))]
      show scalarValue (constScalars 8 1) 8 i / 2 ^ (0 * pm.bitsPerChunk) %
        2 ^ pm.bitsPerChunk = 1
      rw [scalarValue_constScalars 8 1 i (by norm_num), Nat.zero_mul, pow_zero, Nat.div_one]
      apply Nat.mod_eq_of_lt
      calc 1 % 256 < 2 ^ 1 := by norm_num
        _ ≤ 2 ^ pm.bitsPerChunk := Nat.pow_le_pow_right (by norm_num) (by omega)
    rw [Finset.sum_congr rfl (fun i _ => by rw [hg i]), Finset.sum_const, Finset.card_range]
    norm_num

/-- C26. During the standard `multiexp` (scalars of at least 8 bytes), after every number
of chunk iterations, whatever the schedule, every bucket from index 1 on is zero, as
`initAccs` left it, in particular `accs[t · accsPerChunk + b]` for every stripe `t` and
every `b ≥ 1`; bucket 0 of stripe 0 is the only one that may differ, and the chunk result
does not depend on it. -/
theorem chunkLoop_buckets_zero {G : Type} [AddCommGroup G] [DecidableEq G] (nThreads : Nat)
    (sch : Schedule nThreads) (bases : Nat → G) (scalars : Nat → Fin 256) (W n : Nat)
    (hW : 8 ≤ W) :
    (∀ m, m ≤ (ParallelMultiexp.setup bases scalars W n nThreads).nChunks →
      (∀ x, 1 ≤ x → ((List.range m).foldl
        ((ParallelMultiexp.setup bases scalars W n nThreads).chunkLoop sch)
        (Buffer.fill 0, Buffer.fill 0)).1.get x = 0) ∧
      ∀ t b, 1 ≤ b → ((List.range m).foldl
        ((ParallelMultiexp.setup bases scalars W n nThreads).chunkLoop sch)
        (Buffer.fill 0, Buffer.fill 0)).1.get
          (t * (ParallelMultiexp.setup bases scalars W n nThreads).accsPerChunk + b) = 0) ∧
    ∀ c, c < (ParallelMultiexp.setup bases scalars W n nThreads).nChunks →
      ∀ (accs accs2 cr : Buffer G), (∀ x, 1 ≤ x → accs.get x = 0) →
        (∀ x, 1 ≤ x → accs2.get x = 0) →
        ((ParallelMultiexp.setup bases scalars W n nThreads).chunkLoop sch (accs, cr) c).2.get c =
          ((ParallelMultiexp.setup bases scalars W n nThreads).chunkLoop sch
            (accs2, cr) c).2.get c := by
  have hbits := setup_bits bases scalars W n nThreads
  have hA := setup_accs bases scalars W n nThreads
  have hN := setup_nChunks bases scalars W n nThreads
  set pm := ParallelMultiexp.setup bases scalars W n nThreads with hpm
  have hW' : 8 ≤ pm.scalarSize := hW
  constructor
  · intro m hm
    have h := chunkLoop_invariant pm hW' (by omega) hbits.2 hA hN sch m hm
    exact ⟨h, fun t b hb => h _ (by omega)⟩
  · intro c hc accs accs2 cr h1 h2
    rw [chunkLoop_eq, chunkLoop_eq]
    simp only [Buffer.get_write, if_true]
    rw [(processChunk_result pm hW' (by omega) hbits.2 hA hN c hc _ _ accs h1).1,
      (processChunk_result pm hW' (by omega) hbits.2 hA hN c hc _ _ accs2 h2).1]

/-- C26 at three bases `1, 2, 3` in `ℤ` with 8-byte scalars equal to 3 and one worker:
bucket 1 after the first chunk iteration. -/
theorem chunkLoop_buckets_zero_witness :
    8 ≤ 8 ∧
    ((List.range 1).foldl
      ((ParallelMultiexp.setup (fun i => (i + 1 : ℤ)) (constScalars 8 3) 8 3 1).chunkLoop
        oneWorker) (Buffer.fill 0, Buffer.fill 0)).1.get 1 = 0 :=
  ⟨by decide,
    ((chunkLoop_buckets_zero 1 oneWorker (fun i => (i + 1 : ℤ)) (constScalars 8 3) 8 3
      (by decide)).1 1 (by
        rw [setup_nChunks]; exact Nat.le_add_left 1 _)).1 1 (le_refl 1)⟩

/-! ## The masked test on a lane of size 0 -/

/-- With `sizes[m] = 0` the bound `len · nX + mod` of the masked `processChunk`, computed on
`uint64_t`, is `2^64 − nX + mod`: every index of the lane up to that bound passes the test. -/
theorem mask_test_zero_size (nx m : Nat) (hnx : 1 ≤ nx) (hnx64 : nx ≤ 2 ^ 64) (hm : m < nx) :
    ((0 + 2 ^ 64 - 1) % 2 ^ 64 * nx + m) % 2 ^ 64 = 2 ^ 64 - nx + m := by
  have h1 : (0 + 2 ^ 64 - 1) % 2 ^ 64 = 2 ^ 64 - 1 := by norm_num
  have h2 : (2 ^ 64 - 1) * nx + m = (2 ^ 64 - nx + m) + 2 ^ 64 * (nx - 1) := by
    obtain ⟨k, rfl⟩ : ∃ k, nx = k + 1 := ⟨nx - 1, by omega⟩
    norm_num at hnx64 ⊢
    omega
  rw [h1, h2, Nat.add_mul_mod_self_left, Nat.mod_eq_of_lt (by omega)]

/-- C24, at the input on which the code leaves the claim: four bases equal to `1 : ℤ`, four
8-byte scalars equal to one, `nx = 2` and `sizes = [1, 0]`. Lane 1 has size 0, but
`sizes[1] − 1` is `2^64 − 1` on `uint64_t` and the bound wraps to `2^64 − 1`: indices 1 and 3
are included and the masked `multiexp` returns 3, while the sum over the indices with
`⌊i / nx⌋ < sizes[i mod nx]` is 1. -/
theorem multiexpMasked_zero_size_lane :
    multiexpMasked 1 oneWorker (fun _ => (1 : ℤ)) (constScalars 8 1) 8 4 2
        (fun m => if m = 0 then 1 else 0) = 3 ∧
      ∑ i ∈ Finset.range 4,
        (if i / 2 < (fun m => if m = 0 then 1 else 0) (i % 2)
          then scalarValue (constScalars 8 1) 8 i • (1 : ℤ) else 0) = 1 := by
  constructor
  · rw [multiexpMasked_eq_sum 1 oneWorker _ _ 8 4 2 _ (by decide) (by decide)]
    simp only [Finset.sum_range_succ, Finset.sum_range_zero, scalarValue_constScalars 8 1 _
      (by decide : 1 ≤ 8)]
    norm_num
  · simp only [Finset.sum_range_succ, Finset.sum_range_zero, scalarValue_constScalars 8 1 _
      (by decide : 1 ≤ 8)]
    norm_num

/-! ## `BR` as the reversal of `p` bits -/

theorem revBits_lt (p i : Nat) : revBits p i < 2 ^ p := by
  induction p generalizing i with
  | zero => simp [revBits]
  | succ p ih =>
    unfold revBits
    have h1 := ih (i / 2)
    have h2 : i % 2 < 2 := Nat.mod_lt _ (by norm_num)
    have h3 : 2 ^ p * (i % 2) ≤ 2 ^ p * 1 := Nat.mul_le_mul_left _ (by omega)
    rw [pow_succ]
    omega

/-- Bit `k` of `revBits p i` is bit `p − 1 − k` of `i`. -/
theorem revBits_testBit (p i k : Nat) :
    (revBits p i).testBit k = (decide (k < p) && i.testBit (p - 1 - k)) := by
  induction p generalizing i k with
  | zero => simp [revBits]
  | succ p ih =>
    unfold revBits
    rw [Nat.testBit_mul_pow_two_add _ (revBits_lt p (i / 2))]
    by_cases hk : k < p
    · rw [if_pos hk, ih, decide_eq_true hk, decide_eq_true (show k < p + 1 by omega),
        Bool.true_and, Bool.true_and, show p + 1 - 1 - k = (p - 1 - k) + 1 by omega,
        Nat.testBit_succ]
    · rw [if_neg hk]
      by_cases hkp : k = p
      · subst hkp
        rw [Nat.sub_self, decide_eq_true (show k < k + 1 by omega), Bool.true_and,
          show k + 1 - 1 - k = 0 by omega, Nat.testBit_zero, Nat.testBit_zero,
          Nat.mod_mod]
      · rw [decide_eq_false (show ¬ k < p + 1 by omega), Bool.false_and]
        apply Nat.testBit_lt_two_pow
        calc i % 2 < 2 ^ 1 := Nat.mod_lt _ (by norm_num)
          _ ≤ 2 ^ (k - p) := Nat.pow_le_pow_right (by norm_num) (by omega)

theorem BR_eq_revBits (p i : Nat) (hp : p ≤ 32) (hi : i < 2 ^ p) : BR i p = revBits p i := by
  apply Nat.eq_of_testBit_eq
  intro k
  rw [BR_testBit i p k hp hi, revBits_testBit]

/-- C25. For every `n = 2^p` with `p ≤ 31`, `BR(i, p)` is the `p`-bit reversal `rev_p(i)` of
`i` and is below `n` for every `i < n` (and `BR(0, 0) = 0`); bit `k` of `rev_p(i)` is bit
`p − 1 − k` of `i`; and after `reversePermutation(a, n)`, with the indices visited in any
order, the element at index `i < n` is the original `a[rev_p(i)]` and the elements from `n`
on are untouched. -/
theorem reversePermutation_revBits {F : Type} (p : Nat) (hp : p ≤ 31) :
    (∀ i, i < 2 ^ p → BR i p = revBits p i ∧ revBits p i < 2 ^ p) ∧ BR 0 0 = 0 ∧
    (∀ i k, (revBits p i).testBit k = (decide (k < p) && i.testBit (p - 1 - k))) ∧
    ∀ (a : Buffer F) (order : List Nat), order.Perm (List.range (2 ^ p)) →
      ∃ b, reversePermutationOn order a (2 ^ p) = .ok b ∧
        (∀ i, i < 2 ^ p → b.get i = a.get (revBits p i)) ∧
        ∀ i, 2 ^ p ≤ i → b.get i = a.get i := by
  refine ⟨fun i hi => ⟨BR_eq_revBits p i (by omega) hi, revBits_lt p i⟩, rfl,
    fun i k => revBits_testBit p i k, ?_⟩
  intro a order ho
  obtain ⟨b, hb, h1, h2⟩ := reversePermutationOn_spec p (by omega) order ho a
  refine ⟨b, hb, ?_, h2⟩
  intro i hi
  rw [h1 i hi, BR_eq_revBits p i (by omega) hi]

/-- C25 at `p = 3`, index 6 (binary 110, reversed 011) and the buffer `a[i] = i`. -/
theorem reversePermutation_revBits_witness :
    3 ≤ 31 ∧ (BR 6 3 = revBits 3 6 ∧ revBits 3 6 < 2 ^ 3) ∧
    ∃ b, reversePermutationOn (List.range (2 ^ 3)) (⟨fun i => i⟩ : Buffer Nat) (2 ^ 3) = .ok b ∧
      (∀ i, i < 2 ^ 3 → b.get i = (⟨fun i => i⟩ : Buffer Nat).get (revBits 3 i)) ∧
      ∀ i, 2 ^ 3 ≤ i → b.get i = (⟨fun i => i⟩ : Buffer Nat).get i :=
  ⟨by decide, (@reversePermutation_revBits Nat 3 (by decide)).1 6 (by decide),
    (@reversePermutation_revBits Nat 3 (by decide)).2.2.2 ⟨fun i => i⟩ _ (List.Perm.refl _)⟩

end Rapidsnark
